import Mathlib

/-!
Verification of the folder synchronizer (`synchronizer.py`).

The program synchronizes a replica directory tree one-way from a source
tree.  We shallowly embed its three components:

* `calculate_hash` — reads a file in 4096-byte chunks and streams them
  through a digest (`HashImpl` abstracts the MD5 state machine);
* `synchronize_folders` — the forward pass (`os.walk(source)` top-down:
  create missing folders, copy files whose fingerprints differ) followed
  by the reverse pass (`os.walk(replica, topdown=False)` bottom-up:
  remove files and folders with no source counterpart);
* `main` — the startup existence check on the source path and the
  unguarded `while True` synchronization loop.

Filesystem trees are modelled as finite labelled trees whose directory
nodes carry association lists of named children; file contents are byte
lists.  Replica mutation is threaded through the pass, actions carry the
absolute paths the program would log, and uncaught exceptions are an
`err` field that aborts the remainder of the pass, exactly as an
uncaught Python exception would.
-/

set_option maxHeartbeats 1000000

namespace FolderSync

/-- A path is a list of name components, relative to the filesystem root. -/
abbrev Path := List String

/-- File contents: a list of bytes (each `< 256` in real runs; nothing here
depends on the bound). -/
abbrev Content := List Nat

/-- A filesystem tree: a file with contents, or a directory with an
association list of named children (`os.scandir` order). -/
inductive Tree where
  | file (c : Content)
  | dir (children : List (String × Tree))
  deriving Repr

/-- First entry with the given name in a child list (`os.path` lookup of one
component). -/
def lookupName : List (String × Tree) → String → Option Tree
  | [], _ => none
  | (m, t) :: rest, n => if m = n then some t else lookupName rest n

/-- Replace the entry with the given name in place, or append it
(writing an entry into a directory). -/
def setChild : List (String × Tree) → String → Tree → List (String × Tree)
  | [], n, t => [(n, t)]
  | (m, u) :: rest, n, t => if m = n then (n, t) :: rest else (m, u) :: setChild rest n t

/-- Resolve a relative path inside a tree (`os.path` resolution step by
step; resolution through a file fails). -/
def Tree.lookup : Tree → Path → Option Tree
  | t, [] => some t
  | .file _, _ :: _ => none
  | .dir cs, n :: rest =>
    match lookupName cs n with
    | some t => t.lookup rest
    | none => none

/-- Resolve a path against a possibly missing root (`os.path.exists` on a
path under a root that may not exist). -/
def optLookup : Option Tree → Path → Option Tree
  | none, _ => none
  | some t, p => t.lookup p

/-- `os.path.exists` for a path under a possibly missing root. -/
def existsAt (r : Option Tree) (p : Path) : Bool :=
  (optLookup r p).isSome

/-- The entry at the path exists and is a directory. -/
def isDirO : Option Tree → Bool
  | some (.dir _) => true
  | _ => false

/-- The entry at the path exists and is a file. -/
def isFileO : Option Tree → Bool
  | some (.file _) => true
  | _ => false

/-- Well-formed child lists: no duplicate names, recursively. Real
filesystems guarantee this. -/
def wfChildren : List (String × Tree) → Bool
  | [] => true
  | (n, .file _) :: rest => (lookupName rest n).isNone && wfChildren rest
  | (n, .dir cs) :: rest => (lookupName rest n).isNone && wfChildren cs && wfChildren rest

/-- Well-formedness of a whole tree. -/
def Tree.wfB : Tree → Bool
  | .file _ => true
  | .dir cs => wfChildren cs

/-- Well-formedness of a possibly missing tree. -/
def wfOpt : Option Tree → Bool
  | none => true
  | some t => t.wfB

/-- No kind mismatch between two child lists: every name present in both
is a file in both or a directory in both, recursively. -/
def compatChildren : List (String × Tree) → List (String × Tree) → Bool
  | [], _ => true
  | (n, .file _) :: rest, ds =>
    (match lookupName ds n with
     | some (.dir _) => false
     | _ => true) && compatChildren rest ds
  | (n, .dir cs) :: rest, ds =>
    (match lookupName ds n with
     | some (.file _) => false
     | some (.dir es) => compatChildren cs es
     | none => true) && compatChildren rest ds

/-- No kind mismatch between two trees. -/
def compatT : Tree → Tree → Bool
  | .file _, .file _ => true
  | .dir cs, .dir ds => compatChildren cs ds
  | _, _ => false

/-- No kind mismatch between a source tree and a possibly missing replica. -/
def compatOpt : Option Tree → Option Tree → Bool
  | some a, some b => compatT a b
  | _, _ => true

/-- `ancB q p` holds when the path `q` is an initial segment of `p`
(so the entry at `q` is the same entry or an ancestor of the one at `p`). -/
def ancB : Path → Path → Bool
  | [], _ => true
  | _ :: _, [] => false
  | a :: as, b :: bs => a = b && ancB as bs

/-!  ## The content hasher (`calculate_hash`) -/

/-- Abstract streaming digest (the `hashlib.md5` object): an initial
state, an `update` step consuming one chunk, and a finalizer
(`hexdigest`).  The program relies on no property of MD5 beyond this
interface, so the development is parametric in it. -/
structure HashImpl where
  init : List Nat
  update : List Nat → List Nat → List Nat
  final : List Nat → List Nat

/-- The chunk sequence produced by `iter(lambda: f.read(4096), b"")`:
successive 4096-byte slices of the file, stopping at the first empty
read. -/
def readChunks : Content → List Content
  | [] => []
  | x :: xs => ((x :: xs).take 4096) :: readChunks ((x :: xs).drop 4096)
  termination_by c => c.length
  decreasing_by simp [List.length_drop]; omega

/-- `calculate_hash`: stream the file's chunks through the digest and
finalize.  The file path only selects the bytes; the digest consumes the
bytes alone. -/
def calculate_hash (H : HashImpl) (c : Content) : List Nat :=
  H.final ((readChunks c).foldl H.update H.init)

/-- A concrete digest used to instantiate witnesses: state is the bytes
seen so far. -/
def catHash : HashImpl where
  init := []
  update := fun s c => s ++ c
  final := fun s => s

/-!  ## Actions and pass state -/

/-- Uncaught `OSError`s that the pass can raise. -/
inductive IOErr where
  | isADirectory
  | notADirectory
  | fileNotFound
  | fileExists
  deriving DecidableEq, Repr

/-- One logged action of a pass, carrying the absolute paths the program
would print.  The constructors correspond to the four `log_message`
calls inside `synchronize_folders`. -/
inductive Action where
  | createdReplica (p : Path)
  | createdFolder (p : Path)
  | copiedFile (src dst : Path)
  | removedFile (p : Path)
  | removedFolder (p : Path)
  deriving DecidableEq, Repr

/-- The path an action writes to on disk. -/
def Action.writePath : Action → Path
  | .createdReplica p => p
  | .createdFolder p => p
  | .copiedFile _ dst => dst
  | .removedFile p => p
  | .removedFolder p => p

/-- State of one invocation of `synchronize_folders`: the replica tree,
the actions logged so far (in order), and the uncaught exception, if
any, that aborted the pass. -/
structure SyncSt where
  rep : Option Tree
  acts : List Action
  err : Option IOErr
  deriving Repr

/-!  ## Forward pass (`os.walk(source)`, top-down)

For each yielded source directory the program creates the missing
destination directory, then applies the copy-if-different policy to the
directory's files, then descends into its subdirectories.  `sr` and
`rr` are the absolute source and replica root paths; `rp` the relative
path of the directory being processed.  An uncaught exception stops
everything after it. -/

/-- The `for file in files` loop of the forward pass over one directory:
`ds` is the current destination child list (the destination directory is
known to exist as a directory).  Copies when the replica file is missing
or its fingerprint differs; hashing a directory that sits where the
replica file should be raises `IsADirectoryError`. -/
def fwdFilesL (H : HashImpl) (sr rr rp : Path) :
    List (String × Tree) → List (String × Tree) →
    List (String × Tree) × List Action × Option IOErr
  | [], ds => (ds, [], none)
  | (_, .dir _) :: rest, ds => fwdFilesL H sr rr rp rest ds
  | (n, .file c) :: rest, ds =>
    match lookupName ds n with
    | some (.dir _) => (ds, [], some .isADirectory)
    | some (.file c') =>
      if calculate_hash H c = calculate_hash H c' then
        fwdFilesL H sr rr rp rest ds
      else
        let (ds2, a2, e2) := fwdFilesL H sr rr rp rest (setChild ds n (.file c))
        (ds2, .copiedFile (sr ++ rp ++ [n]) (rr ++ rp ++ [n]) :: a2, e2)
    | none =>
      let (ds2, a2, e2) := fwdFilesL H sr rr rp rest (setChild ds n (.file c))
      (ds2, .copiedFile (sr ++ rp ++ [n]) (rr ++ rp ++ [n]) :: a2, e2)

/-- Descent of the forward walk into the subdirectories of one source
directory.  At each subdirectory's own yield: if its destination path is
missing it is created (`os.makedirs`, logged); if it exists as a
directory nothing is logged; if it exists as a *file*, `os.path.exists`
is true so creation is silently skipped, and the first file copied into
it (`shutil.copy2`) or folder created under it (`os.makedirs`) raises
`NotADirectoryError` — with an empty source subdirectory nothing is
raised at all.  Then the subdirectory's files are processed and the walk
descends further. -/
def fwdSubdirs (H : HashImpl) (sr rr : Path) :
    Path → List (String × Tree) → List (String × Tree) →
    List (String × Tree) × List Action × Option IOErr
  | _, [], ds => (ds, [], none)
  | rp, (_, .file _) :: rest, ds => fwdSubdirs H sr rr rp rest ds
  | rp, (n, .dir sub) :: rest, ds =>
    match lookupName ds n with
    | some (.file _) =>
      if sub.isEmpty then fwdSubdirs H sr rr rp rest ds
      else (ds, [], some .notADirectory)
    | some (.dir es) =>
      let (es1, a1, e1) := fwdFilesL H sr rr (rp ++ [n]) sub es
      match e1 with
      | some e => (setChild ds n (.dir es1), a1, some e)
      | none =>
        let (es2, a2, e2) := fwdSubdirs H sr rr (rp ++ [n]) sub es1
        let ds1 := setChild ds n (.dir es2)
        match e2 with
        | some e => (ds1, a1 ++ a2, some e)
        | none =>
          let (ds2, a3, e3) := fwdSubdirs H sr rr rp rest ds1
          (ds2, a1 ++ a2 ++ a3, e3)
    | none =>
      let (es1, a1, e1) := fwdFilesL H sr rr (rp ++ [n]) sub []
      match e1 with
      | some e =>
        (setChild ds n (.dir es1), .createdFolder (rr ++ rp ++ [n]) :: a1, some e)
      | none =>
        let (es2, a2, e2) := fwdSubdirs H sr rr (rp ++ [n]) sub es1
        let ds1 := setChild ds n (.dir es2)
        match e2 with
        | some e => (ds1, .createdFolder (rr ++ rp ++ [n]) :: (a1 ++ a2), some e)
        | none =>
          let (ds2, a3, e3) := fwdSubdirs H sr rr rp rest ds1
          (ds2, .createdFolder (rr ++ rp ++ [n]) :: (a1 ++ a2 ++ a3), e3)

/-- The root yield of `os.walk(source)` plus the descent: the relative
path of the root is `os.path.relpath(root, source) = "."`, so its
destination is `os.path.join(replica, ".")`, which exists exactly when
the replica root is a directory.  `os.makedirs` on `replica/"."` raises
`NotADirectoryError` when the replica root is a file, and
`FileExistsError` right after creating the root when it is missing
(the final `mkdir` of `"."` hits the just-created directory; this branch
is unreachable from `synchronize_folders`, which pre-creates the root).
Walking a missing source or a source that is a regular file yields
nothing. -/
def fwdRoot (H : HashImpl) (sr rr : Path) :
    Option Tree → Option Tree → Option Tree × List Action × Option IOErr
  | some (.dir scs), some (.dir ds) =>
    let (ds1, a1, e1) := fwdFilesL H sr rr [] scs ds
    match e1 with
    | some e => (some (.dir ds1), a1, some e)
    | none =>
      let (ds2, a2, e2) := fwdSubdirs H sr rr [] scs ds1
      (some (.dir ds2), a1 ++ a2, e2)
  | some (.dir _), some (.file c) => (some (.file c), [], some .notADirectory)
  | some (.dir _), none => (some (.dir []), [], some .fileExists)
  | _, rep => (rep, [], none)

/-!  ## Reverse pass (`os.walk(replica, topdown=False)`, bottom-up)

Each directory's listing is read before its subtrees are visited, and
every removal at a yield touches only entries of the yielded directory,
so the whole bottom-up walk is a function of the replica tree as the
forward pass left it.  At each yield the replica directory's files with
no source counterpart are removed (`os.remove`), then its
subdirectories with no source counterpart are removed recursively
(`shutil.rmtree`); `os.path.exists` on the source side is kind-blind. -/

/-- `for file in files` removals at one yield. -/
def revFileActs (src : Option Tree) (rr rp : Path) :
    List (String × Tree) → List Action
  | [] => []
  | (n, .file _) :: rest =>
    if existsAt src (rp ++ [n]) then revFileActs src rr rp rest
    else .removedFile (rr ++ rp ++ [n]) :: revFileActs src rr rp rest
  | (_, .dir _) :: rest => revFileActs src rr rp rest

/-- `for folder in dirs` removals at one yield. -/
def revDirActs (src : Option Tree) (rr rp : Path) :
    List (String × Tree) → List Action
  | [] => []
  | (_, .file _) :: rest => revDirActs src rr rp rest
  | (n, .dir _) :: rest =>
    if existsAt src (rp ++ [n]) then revDirActs src rr rp rest
    else .removedFolder (rr ++ rp ++ [n]) :: revDirActs src rr rp rest

/-- Actions of the bottom-up yields strictly below one directory: for
each subdirectory, in listing order, the full action sequence of its
subtree (its own deeper yields, then its file removals, then its folder
removals). -/
def revDeep (src : Option Tree) (rr : Path) :
    Path → List (String × Tree) → List Action
  | _, [] => []
  | rp, (_, .file _) :: rest => revDeep src rr rp rest
  | rp, (n, .dir ds) :: rest =>
    (revDeep src rr (rp ++ [n]) ds ++
      revFileActs src rr (rp ++ [n]) ds ++
      revDirActs src rr (rp ++ [n]) ds) ++ revDeep src rr rp rest

/-- All actions of the reverse pass over a replica directory with child
list `cs` at relative path `rp`. -/
def revActs (src : Option Tree) (rr rp : Path) (cs : List (String × Tree)) :
    List Action :=
  revDeep src rr rp cs ++ revFileActs src rr rp cs ++ revDirActs src rr rp cs

/-- The replica child list left by the reverse pass: entries with no
source counterpart are gone (with their whole subtrees), kept
directories are cleaned recursively. -/
def revKeep (src : Option Tree) :
    Path → List (String × Tree) → List (String × Tree)
  | _, [] => []
  | rp, (n, .file c) :: rest =>
    if existsAt src (rp ++ [n]) then (n, .file c) :: revKeep src rp rest
    else revKeep src rp rest
  | rp, (n, .dir ds) :: rest =>
    if existsAt src (rp ++ [n]) then
      (n, .dir (revKeep src (rp ++ [n]) ds)) :: revKeep src rp rest
    else revKeep src rp rest

/-!  ## One pass -/

/-- `synchronize_folders(source, replica, log)`: ensure the replica root
exists, run the forward pass, then (if no exception has been raised) the
reverse pass.  The replica root itself is never removed by the reverse
pass, and a replica root that is not a directory is walked as nothing. -/
def synchronize_folders (H : HashImpl) (sr rr : Path)
    (source replica : Option Tree) : SyncSt :=
  let pre : Option Tree × List Action :=
    match replica with
    | none => (some (.dir []), [.createdReplica rr])
    | some t => (some t, [])
  let (rep1, a1, e1) := fwdRoot H sr rr source pre.1
  match e1 with
  | some e => { rep := rep1, acts := pre.2 ++ a1, err := some e }
  | none =>
    match rep1 with
    | some (.dir ds) =>
      { rep := some (.dir (revKeep source [] ds))
        acts := pre.2 ++ a1 ++ revActs source rr [] ds
        err := none }
    | other => { rep := other, acts := pre.2 ++ a1, err := none }

/-!  ## The scheduler loop and `main` -/

/-- One line of the log file / console. -/
inductive LogEvent where
  | starting | sourceInfo | replicaInfo | intervalInfo | logInfo
  | act (a : Action)
  | completed
  deriving DecidableEq, Repr

/-- Observable outcome of running the `while True` loop for at most `n`
ticks with no external filesystem changes between passes. -/
structure RunOut where
  rep : Option Tree
  log : List LogEvent
  completed : Nat
  err : Option IOErr
  deriving Repr

/-- The synchronization loop: each tick runs one pass and logs
"Synchronization completed"; an uncaught exception propagates out of the
loop, so nothing further runs and no completion line is written. -/
def runPasses (H : HashImpl) (sr rr : Path) (source : Option Tree) :
    Nat → Option Tree → RunOut
  | 0, r => ⟨r, [], 0, none⟩
  | n + 1, r =>
    let st := synchronize_folders H sr rr source r
    match st.err with
    | some e => ⟨st.rep, st.acts.map .act, 0, some e⟩
    | none =>
      let rest := runPasses H sr rr source n st.rep
      ⟨rest.rep, st.acts.map .act ++ [.completed] ++ rest.log,
        rest.completed + 1, rest.err⟩

/-- Observable outcome of `main` (for `n` loop ticks). -/
structure MainOut where
  startupError : Bool
  log : List LogEvent
  completed : Nat
  err : Option IOErr
  rep : Option Tree
  deriving Repr

/-- `main`: parse arguments, check that the source path exists (a plain
`os.path.exists`, satisfied also by a regular file), print an error and
return without looping when it does not, otherwise write the five
startup lines and run the loop. -/
def main (H : HashImpl) (sr rr : Path) (source replica : Option Tree)
    (ticks : Nat) : MainOut :=
  if source.isNone then
    ⟨true, [], 0, none, replica⟩
  else
    let ro := runPasses H sr rr source ticks replica
    ⟨false,
      [.starting, .sourceInfo, .replicaInfo, .intervalInfo, .logInfo] ++ ro.log,
      ro.completed, ro.err, ro.rep⟩

/-!  ## Basic lemmas about lookup, update, well-formedness -/

@[simp]
theorem lookup_root (t : Tree) : t.lookup [] = some t := by
  cases t <;> rfl

@[simp]
theorem lookup_file (c : Content) (n : String) (p : Path) :
    (Tree.file c).lookup (n :: p) = none := rfl

theorem lookup_dir (cs : List (String × Tree)) (n : String) (p : Path) :
    (Tree.dir cs).lookup (n :: p) =
      (match lookupName cs n with
       | some t => t.lookup p
       | none => none) := rfl

theorem lookup_dir_bind (cs : List (String × Tree)) (n : String) (p : Path) :
    (Tree.dir cs).lookup (n :: p) = (lookupName cs n).bind (·.lookup p) := by
  rw [lookup_dir]
  cases lookupName cs n <;> rfl

theorem lookup_append (t : Tree) (p q : Path) :
    t.lookup (p ++ q) = (t.lookup p).bind (·.lookup q) := by
  induction p generalizing t with
  | nil => simp
  | cons n p ih =>
    cases t with
    | file c => rfl
    | dir cs =>
      rw [List.cons_append, lookup_dir_bind, lookup_dir_bind]
      cases lookupName cs n with
      | none => rfl
      | some u => simp [ih u]

theorem lookup_isSome_of_append {t : Tree} {p q : Path}
    (h : (t.lookup (p ++ q)).isSome) : (t.lookup p).isSome := by
  rw [lookup_append] at h
  cases hp : t.lookup p with
  | none => rw [hp] at h; simp at h
  | some u => simp

theorem optLookup_append (r : Option Tree) (p q : Path) :
    optLookup r (p ++ q) = (optLookup r p).bind (·.lookup q) := by
  cases r with
  | none => rfl
  | some t => exact lookup_append t p q

theorem existsAt_of_append {r : Option Tree} {p q : Path}
    (h : existsAt r (p ++ q)) : existsAt r p := by
  cases r with
  | none => simp [existsAt, optLookup] at h
  | some t => exact lookup_isSome_of_append h

@[simp]
theorem lookupName_setChild_self (cs : List (String × Tree)) (n : String) (t : Tree) :
    lookupName (setChild cs n t) n = some t := by
  induction cs with
  | nil => simp [setChild, lookupName]
  | cons hd rest ih =>
    obtain ⟨m, u⟩ := hd
    by_cases h : m = n <;> simp [setChild, lookupName, h, ih]

theorem lookupName_setChild_ne (cs : List (String × Tree)) {m n : String}
    (t : Tree) (h : m ≠ n) :
    lookupName (setChild cs n t) m = lookupName cs m := by
  induction cs with
  | nil => simp [setChild, lookupName, Ne.symm h]
  | cons hd rest ih =>
    obtain ⟨k, u⟩ := hd
    by_cases hk : k = n
    · subst hk
      simp [setChild, lookupName, Ne.symm h]
    · simp [setChild, lookupName, hk, ih]

theorem wfChildren_cons (n : String) (t : Tree) (rest : List (String × Tree)) :
    wfChildren ((n, t) :: rest) =
      ((lookupName rest n).isNone && t.wfB && wfChildren rest) := by
  cases t <;> simp [wfChildren, Tree.wfB, Bool.and_assoc]

theorem wfB_of_lookupName {cs : List (String × Tree)} {n : String} {t : Tree}
    (hwf : wfChildren cs = true) (h : lookupName cs n = some t) : t.wfB = true := by
  induction cs with
  | nil => simp [lookupName] at h
  | cons hd rest ih =>
    obtain ⟨m, u⟩ := hd
    rw [wfChildren_cons] at hwf
    simp only [Bool.and_eq_true] at hwf
    simp only [lookupName] at h
    by_cases hm : m = n
    · simp [hm] at h; subst h; exact hwf.1.2
    · simp [hm] at h; exact ih hwf.2 h

theorem wfChildren_setChild {cs : List (String × Tree)} {n : String} {t : Tree}
    (hwf : wfChildren cs = true) (ht : t.wfB = true) :
    wfChildren (setChild cs n t) = true := by
  induction cs with
  | nil => simp [setChild, wfChildren_cons, wfChildren, lookupName, ht]
  | cons hd rest ih =>
    obtain ⟨m, u⟩ := hd
    rw [wfChildren_cons] at hwf
    simp only [Bool.and_eq_true] at hwf
    by_cases hm : m = n
    · subst hm
      simp [setChild, wfChildren_cons, ht, hwf.1.1, hwf.2]
    · simp only [setChild, hm, if_false]
      rw [wfChildren_cons]
      simp only [Bool.and_eq_true]
      refine ⟨⟨?_, hwf.1.2⟩, ih hwf.2⟩
      rw [lookupName_setChild_ne rest t hm]
      exact hwf.1.1

theorem compatChildren_nil (cs : List (String × Tree)) :
    compatChildren cs [] = true := by
  induction cs with
  | nil => simp [compatChildren]
  | cons hd rest ih =>
    obtain ⟨n, t⟩ := hd
    cases t <;> simp [compatChildren, lookupName, ih]

theorem compat_file_of_lookup {cs ds : List (String × Tree)} {n : String} {c : Content}
    (hc : compatChildren cs ds = true) (h : lookupName cs n = some (.file c)) :
    ∀ es, lookupName ds n ≠ some (.dir es) := by
  induction cs with
  | nil => simp [lookupName] at h
  | cons hd rest ih =>
    obtain ⟨m, u⟩ := hd
    simp only [lookupName] at h
    by_cases hm : m = n
    · subst hm
      simp only [if_true] at h
      injection h with h
      subst h
      simp only [compatChildren, Bool.and_eq_true] at hc
      intro es hes
      rw [hes] at hc
      exact absurd hc.1 (by simp)
    · simp only [hm, if_false] at h
      cases u <;>
        · simp only [compatChildren, Bool.and_eq_true] at hc
          exact ih hc.2 h

theorem compat_dir_of_lookup {cs ds : List (String × Tree)} {n : String}
    {c2 : List (String × Tree)}
    (hc : compatChildren cs ds = true) (h : lookupName cs n = some (.dir c2)) :
    (∀ c, lookupName ds n ≠ some (.file c)) ∧
      (∀ es, lookupName ds n = some (.dir es) → compatChildren c2 es = true) := by
  induction cs with
  | nil => simp [lookupName] at h
  | cons hd rest ih =>
    obtain ⟨m, u⟩ := hd
    simp only [lookupName] at h
    by_cases hm : m = n
    · subst hm
      simp only [if_true] at h
      injection h with h
      subst h
      simp only [compatChildren, Bool.and_eq_true] at hc
      constructor
      · intro c hcf
        rw [hcf] at hc
        exact absurd hc.1 (by simp)
      · intro es hes
        rw [hes] at hc
        exact hc.1
    · simp only [hm, if_false] at h
      cases u <;>
        · simp only [compatChildren, Bool.and_eq_true] at hc
          exact ih hc.2 h

/-!  ## Lemmas about path-segment order (`ancB`) -/

@[simp]
theorem ancB_nil (p : Path) : ancB [] p = true := by
  cases p <;> rfl

@[simp]
theorem ancB_refl (p : Path) : ancB p p = true := by
  induction p with
  | nil => rfl
  | cons a as ih => simp [ancB, ih]

theorem ancB_append (p q : Path) : ancB p (p ++ q) = true := by
  induction p with
  | nil => simp
  | cons a as ih => simp [ancB, ih]

theorem eq_append_of_ancB {q p : Path} (h : ancB q p = true) :
    ∃ r, p = q ++ r := by
  induction q generalizing p with
  | nil => exact ⟨p, rfl⟩
  | cons a as ih =>
    cases p with
    | nil => simp [ancB] at h
    | cons b bs =>
      simp only [ancB, Bool.and_eq_true, decide_eq_true_eq] at h
      obtain ⟨r, hr⟩ := ih h.2
      exact ⟨r, by simp [h.1, hr]⟩

@[simp]
theorem ancB_cons_same (x : String) (xs ys : Path) :
    ancB (x :: xs) (x :: ys) = ancB xs ys := by
  simp [ancB]

theorem ancB_cons_ne {x y : String} (xs ys : Path) (hxy : x ≠ y) :
    ancB (x :: xs) (y :: ys) = false := by
  simp [ancB, hxy]

theorem ancB_incomp_append {a b : Path} (hab : ancB a b = false)
    (hba : ancB b a = false) (q : Path) : ancB a (b ++ q) = false := by
  induction a generalizing b with
  | nil => simp at hab
  | cons x xs ih =>
    cases b with
    | nil => simp at hba
    | cons y ys =>
      by_cases hxy : x = y
      · subst hxy
        rw [ancB_cons_same] at hab hba
        rw [List.cons_append, ancB_cons_same]
        exact ih hab hba
      · rw [List.cons_append]
        exact ancB_cons_ne _ _ hxy

/-!  ## Support lemmas for the hasher and for degenerate roots -/

theorem readChunks_flatten : ∀ c : Content, (readChunks c).flatten = c := by
  intro c
  induction c using readChunks.induct with
  | case1 => simp [readChunks]
  | case2 x xs ih =>
    rw [readChunks]
    simp only [List.flatten_cons, ih, List.take_append_drop]

theorem file_lookup_ne_nil (c : Content) {p : Path} (h : p ≠ []) :
    (Tree.file c).lookup p = none := by
  cases p with
  | nil => exact absurd rfl h
  | cons n rest => simp

theorem existsAt_file_append (c : Content) (rp : Path) (n : String) :
    existsAt (some (.file c)) (rp ++ [n]) = false := by
  have h : rp ++ [n] ≠ [] := by simp
  simp [existsAt, optLookup, file_lookup_ne_nil c h]

theorem revKeep_src_file (c : Content) (rp : Path) :
    ∀ cs, revKeep (some (.file c)) rp cs = [] := by
  intro cs
  induction cs with
  | nil => simp [revKeep]
  | cons hd rest ih =>
    obtain ⟨n, t⟩ := hd
    cases t <;> simp [revKeep, existsAt_file_append, ih]

theorem fwdRoot_src_not_dir (H : HashImpl) (sr rr : Path) {src : Option Tree}
    (rep : Option Tree) (h : isDirO src = false) :
    fwdRoot H sr rr src rep = (rep, [], none) := by
  cases src with
  | none => simp [fwdRoot]
  | some t =>
    cases t with
    | file c => simp [fwdRoot]
    | dir cs => simp [isDirO] at h

/-- An action of the reverse pass is a removal. -/
def isRemoval : Action → Bool
  | .removedFile _ => true
  | .removedFolder _ => true
  | _ => false

theorem revFileActs_removals (src : Option Tree) (rr rp : Path) :
    ∀ cs, ∀ a ∈ revFileActs src rr rp cs, isRemoval a = true := by
  intro cs
  induction cs with
  | nil => simp [revFileActs]
  | cons hd rest ih =>
    obtain ⟨n, t⟩ := hd
    cases t with
    | file c =>
      by_cases h : existsAt src (rp ++ [n]) = true
      · simpa [revFileActs, h] using ih
      · simp only [Bool.not_eq_true] at h
        intro a ha
        simp only [revFileActs, h, Bool.false_eq_true, if_false, List.mem_cons] at ha
        rcases ha with ha | ha
        · subst ha; rfl
        · exact ih a ha
    | dir ds => simpa [revFileActs] using ih

theorem revDirActs_removals (src : Option Tree) (rr rp : Path) :
    ∀ cs, ∀ a ∈ revDirActs src rr rp cs, isRemoval a = true := by
  intro cs
  induction cs with
  | nil => simp [revDirActs]
  | cons hd rest ih =>
    obtain ⟨n, t⟩ := hd
    cases t with
    | file c => simpa [revDirActs] using ih
    | dir ds =>
      by_cases h : existsAt src (rp ++ [n]) = true
      · simpa [revDirActs, h] using ih
      · simp only [Bool.not_eq_true] at h
        intro a ha
        simp only [revDirActs, h, Bool.false_eq_true, if_false, List.mem_cons] at ha
        rcases ha with ha | ha
        · subst ha; rfl
        · exact ih a ha

theorem revDeep_removals (src : Option Tree) (rr : Path) :
    ∀ rp cs, ∀ a ∈ revDeep src rr rp cs, isRemoval a = true := by
  intro rp cs
  induction rp, cs using revDeep.induct src rr with
  | case1 rp => simp [revDeep]
  | case2 rp n c rest ih => simpa [revDeep] using ih
  | case3 rp n ds rest ih1 ih2 =>
    intro a ha
    simp only [revDeep, List.mem_append] at ha
    rcases ha with ((ha | ha) | ha) | ha
    · exact ih1 a ha
    · exact revFileActs_removals src rr (rp ++ [n]) ds a ha
    · exact revDirActs_removals src rr (rp ++ [n]) ds a ha
    · exact ih2 a ha

theorem revActs_removals (src : Option Tree) (rr rp : Path)
    (cs : List (String × Tree)) :
    ∀ a ∈ revActs src rr rp cs, isRemoval a = true := by
  intro a ha
  simp only [revActs, List.mem_append] at ha
  rcases ha with (ha | ha) | ha
  · exact revDeep_removals src rr rp cs a ha
  · exact revFileActs_removals src rr rp cs a ha
  · exact revDirActs_removals src rr rp cs a ha

/-!  ## Claim C9: fingerprint determinism -/

/-- **C9**: the fingerprint function is deterministic: hashing two files
(at any paths, in any trees) whose byte contents are identical yields
identical fingerprints — `calculate_hash` is a function of the file's
bytes alone, and its chunked read feeds exactly the file's bytes to the
digest. -/
theorem calculate_hash_deterministic (H : HashImpl) (r₁ r₂ : Option Tree)
    (p₁ p₂ : Path) (c₁ c₂ : Content)
    (h₁ : optLookup r₁ p₁ = some (.file c₁))
    (h₂ : optLookup r₂ p₂ = some (.file c₂))
    (hc : c₁ = c₂) :
    calculate_hash H c₁ = calculate_hash H c₂ ∧ (readChunks c₁).flatten = c₁ :=
  ⟨by rw [hc], readChunks_flatten c₁⟩

/-- Witness for C9: two files with equal contents at different paths of
different trees. -/
theorem calculate_hash_deterministic_w :
    optLookup (some (.file [1, 2])) [] = some (.file [1, 2]) ∧
    optLookup (some (.dir [("a", .file [1, 2])])) ["a"] = some (.file [1, 2]) ∧
    ([1, 2] : Content) = [1, 2] ∧
    (calculate_hash catHash [1, 2] = calculate_hash catHash [1, 2] ∧
      (readChunks [1, 2]).flatten = [1, 2]) :=
  ⟨rfl, rfl, rfl,
    calculate_hash_deterministic catHash (some (.file [1, 2]))
      (some (.dir [("a", .file [1, 2])])) [] ["a"] [1, 2] [1, 2] rfl rfl rfl⟩

/-!  ## Claim C8: missing source aborts before the loop -/

/-- **C8**: when the source path does not exist at startup, `main`
prints an error to the console and returns before entering the loop: no
pass runs, nothing is written to the log file, and the replica is
untouched. -/
theorem main_missing_source_exits (H : HashImpl) (sr rr : Path)
    (r : Option Tree) (n : Nat) :
    main H sr rr none r n = ⟨true, [], 0, none, r⟩ := rfl

/-!  ## Claim C10: source exists but is a regular file -/

/-- **C10**: a source path that exists as a regular file passes the
startup `os.path.exists` check, so the loop is entered; in a pass the
walk of the source yields nothing, so the forward phase performs no
creation and no copy (every action is a removal), and the reverse phase
deletes every file and every subdirectory of the replica tree, leaving
an empty replica root. -/
theorem source_file_clears_replica (H : HashImpl) (sr rr : Path) (c : Content)
    (rcs : List (String × Tree)) (n : Nat) :
    (main H sr rr (some (.file c)) (some (.dir rcs)) n).startupError = false ∧
    (synchronize_folders H sr rr (some (.file c)) (some (.dir rcs))).err = none ∧
    (synchronize_folders H sr rr (some (.file c)) (some (.dir rcs))).rep
      = some (.dir []) ∧
    ∀ a ∈ (synchronize_folders H sr rr (some (.file c)) (some (.dir rcs))).acts,
      isRemoval a = true := by
  have hnd : isDirO (some (Tree.file c)) = false := rfl
  have hfr := fwdRoot_src_not_dir H sr rr (some (Tree.dir rcs)) hnd
  refine ⟨by simp [main], ?_, ?_, ?_⟩
  · simp [synchronize_folders, hfr]
  · simp [synchronize_folders, hfr, revKeep_src_file]
  · intro a ha
    simp only [synchronize_folders, hfr, List.nil_append] at ha
    exact revActs_removals _ _ _ _ a ha

/-!  ## Claim C6 (corrected): an erroring pass kills the loop -/

/-- Counterexample to C6 as stated: with source `{a ↦ file}` and replica
`{a ↦ dir}`, the first pass raises `IsADirectoryError` while hashing the
replica entry; because the `while True` loop has no exception handling,
requesting two ticks still completes zero passes — the next scheduled
pass never runs, contradicting "the next scheduled pass runs again from
scratch". -/
theorem loop_no_retry_cex :
    runPasses catHash ["s"] ["r"] (some (.dir [("a", .file [1])])) 2
        (some (.dir [("a", .dir [])])) =
      ⟨some (.dir [("a", .dir [])]), [], 0, some .isADirectory⟩ := by
  simp [runPasses, synchronize_folders, fwdRoot, fwdFilesL, fwdSubdirs, revKeep,
    revActs, revDeep, revFileActs, revDirActs, existsAt, optLookup, Tree.lookup,
    lookupName]

/-- **C6 (amended)**: a per-entry I/O error raised during a pass
propagates and aborts the current pass, and — the loop having no
exception handler — it propagates out of the loop as well: however many
further ticks were scheduled, no subsequent pass is attempted, zero
passes complete, and only the aborted pass's partial actions are
logged. -/
theorem pass_error_stops_loop (H : HashImpl) (sr rr : Path)
    (src r : Option Tree) (e : IOErr) (n : Nat)
    (h : (synchronize_folders H sr rr src r).err = some e) :
    runPasses H sr rr src (n + 1) r =
      ⟨(synchronize_folders H sr rr src r).rep,
        (synchronize_folders H sr rr src r).acts.map .act, 0, some e⟩ := by
  simp [runPasses, h]

/-- Witness for the amended C6 at a concrete erroring configuration. -/
theorem pass_error_stops_loop_w :
    (synchronize_folders catHash ["s"] ["r"] (some (.dir [("a", .file [1])]))
        (some (.dir [("a", .dir [])]))).err = some .isADirectory ∧
    runPasses catHash ["s"] ["r"] (some (.dir [("a", .file [1])])) 1
        (some (.dir [("a", .dir [])])) =
      ⟨(synchronize_folders catHash ["s"] ["r"] (some (.dir [("a", .file [1])]))
          (some (.dir [("a", .dir [])]))).rep,
        (synchronize_folders catHash ["s"] ["r"] (some (.dir [("a", .file [1])]))
            (some (.dir [("a", .dir [])]))).acts.map .act, 0, some .isADirectory⟩ :=
  ⟨by simp [synchronize_folders, fwdRoot, fwdFilesL, lookupName],
    pass_error_stops_loop catHash ["s"] ["r"] (some (.dir [("a", .file [1])]))
      (some (.dir [("a", .dir [])])) .isADirectory 0
      (by simp [synchronize_folders, fwdRoot, fwdFilesL, lookupName])⟩

/-!  ## Claim C5 (corrected), counterexample part -/

/-- Counterexample to C5 as stated: source has directory `d`, replica
has a *file* `d` — the corresponding replica path exists but not as a
directory, yet the pass completes with no error, no action, and the
replica unchanged: `os.path.exists` is true for the file, so creation is
silently skipped rather than attempted and failed. -/
theorem wrong_kind_silently_skipped_cex :
    synchronize_folders catHash ["s"] ["r"] (some (.dir [("d", .dir [])]))
        (some (.dir [("d", .file [7])])) =
      { rep := some (.dir [("d", .file [7])]), acts := [], err := none } := by
  simp [synchronize_folders, fwdRoot, fwdFilesL, fwdSubdirs, revKeep, revActs,
    revDeep, revFileActs, revDirActs, existsAt, optLookup, Tree.lookup, lookupName]

/-!  ## Claim C7: all writes target the replica tree -/

theorem fwdFilesL_writes (H : HashImpl) (sr rr rp : Path) :
    ∀ scs ds, ∀ a ∈ (fwdFilesL H sr rr rp scs ds).2.1,
      ∃ q, a.writePath = rr ++ (rp ++ q) := by
  intro scs ds
  induction scs, ds using fwdFilesL.induct H sr rr rp with
  | case1 ds => simp [fwdFilesL]
  | case2 n sub rest ds ih => simpa [fwdFilesL] using ih
  | case3 n c rest ds sub hl => simp [fwdFilesL, hl]
  | case4 n c rest ds c' hl heq ih => simpa [fwdFilesL, hl, heq] using ih
  | case5 n c rest ds c' hl hne ds2 a2 e2 hf ih =>
    intro a ha
    simp only [fwdFilesL, hl, hne, if_false, hf, List.mem_cons] at ha
    rcases ha with ha | ha
    · exact ⟨[n], by simp [ha, Action.writePath]⟩
    · exact ih a (by rw [hf]; exact ha)
  | case6 n c rest ds hl ds2 a2 e2 hf ih =>
    intro a ha
    simp only [fwdFilesL, hl, hf, List.mem_cons] at ha
    rcases ha with ha | ha
    · exact ⟨[n], by simp [ha, Action.writePath]⟩
    · exact ih a (by rw [hf]; exact ha)

theorem fwdSubdirs_writes (H : HashImpl) (sr rr : Path) :
    ∀ rp scs ds, ∀ a ∈ (fwdSubdirs H sr rr rp scs ds).2.1,
      ∃ q, a.writePath = rr ++ (rp ++ q) := by
  intro rp scs ds
  induction rp, scs, ds using fwdSubdirs.induct H sr rr with
  | case1 rp ds => simp [fwdSubdirs]
  | case2 rp n c rest ds ih => simpa [fwdSubdirs] using ih
  | case3 rp n sub rest ds c hl hemp ih => simpa [fwdSubdirs, hl, hemp] using ih
  | case4 rp n sub rest ds c hl hemp => simp [fwdSubdirs, hl, hemp]
  | case5 rp n sub rest ds es hl ds2 a2 e hf =>
    intro a ha
    simp only [fwdSubdirs, hl, hf, List.mem_cons] at ha
    obtain ⟨q, hq⟩ := fwdFilesL_writes H sr rr (rp ++ [n]) sub es a (by rw [hf]; exact ha)
    exact ⟨[n] ++ q, by simp [hq]⟩
  | case6 rp n sub rest ds es hl ds2 a2 ds3 a3 e hf hsub ih =>
    intro a ha
    simp only [fwdSubdirs, hl, hf, hsub, List.mem_append] at ha
    rcases ha with ha | ha
    · obtain ⟨q, hq⟩ := fwdFilesL_writes H sr rr (rp ++ [n]) sub es a (by rw [hf]; exact ha)
      exact ⟨[n] ++ q, by simpa using hq⟩
    · obtain ⟨q, hq⟩ := ih a (by rw [hsub]; exact ha)
      exact ⟨[n] ++ q, by simpa using hq⟩
  | case7 rp n sub rest ds es hl ds2 a2 ds3 a3 ds1 ds4 a4 e2 hrest hf hsub ih1 ih2 =>
    intro a ha
    simp only [fwdSubdirs, hl, hf, hsub, ds1, hrest, List.mem_append] at ha
    rcases ha with (ha | ha) | ha
    · obtain ⟨q, hq⟩ := fwdFilesL_writes H sr rr (rp ++ [n]) sub es a (by rw [hf]; exact ha)
      exact ⟨[n] ++ q, by simpa using hq⟩
    · obtain ⟨q, hq⟩ := ih1 a (by rw [hsub]; exact ha)
      exact ⟨[n] ++ q, by simpa using hq⟩
    · obtain ⟨q, hq⟩ := ih2 a (by rw [hrest]; exact ha)
      exact ⟨q, hq⟩
  | case8 rp n sub rest ds hl ds2 a2 e hf =>
    intro a ha
    simp only [fwdSubdirs, hl, hf, List.mem_cons] at ha
    rcases ha with ha | ha
    · exact ⟨[n], by simp [ha, Action.writePath]⟩
    · obtain ⟨q, hq⟩ := fwdFilesL_writes H sr rr (rp ++ [n]) sub [] a (by rw [hf]; exact ha)
      exact ⟨[n] ++ q, by simpa using hq⟩
  | case9 rp n sub rest ds hl ds2 a2 ds3 a3 e hf hsub ih =>
    intro a ha
    simp only [fwdSubdirs, hl, hf, hsub, List.mem_cons, List.mem_append] at ha
    rcases ha with ha | ha | ha
    · exact ⟨[n], by simp [ha, Action.writePath]⟩
    · obtain ⟨q, hq⟩ := fwdFilesL_writes H sr rr (rp ++ [n]) sub [] a (by rw [hf]; exact ha)
      exact ⟨[n] ++ q, by simpa using hq⟩
    · obtain ⟨q, hq⟩ := ih a (by rw [hsub]; exact ha)
      exact ⟨[n] ++ q, by simpa using hq⟩
  | case10 rp n sub rest ds hl ds2 a2 ds3 a3 ds1 ds4 a4 e2 hrest hf hsub ih1 ih2 =>
    intro a ha
    simp only [fwdSubdirs, hl, hf, hsub, ds1, hrest, List.mem_cons, List.mem_append] at ha
    rcases ha with ha | (ha | ha) | ha
    · exact ⟨[n], by simp [ha, Action.writePath]⟩
    · obtain ⟨q, hq⟩ := fwdFilesL_writes H sr rr (rp ++ [n]) sub [] a (by rw [hf]; exact ha)
      exact ⟨[n] ++ q, by simpa using hq⟩
    · obtain ⟨q, hq⟩ := ih1 a (by rw [hsub]; exact ha)
      exact ⟨[n] ++ q, by simpa using hq⟩
    · obtain ⟨q, hq⟩ := ih2 a (by rw [hrest]; exact ha)
      exact ⟨q, hq⟩

theorem revFileActs_writes (src : Option Tree) (rr rp : Path) :
    ∀ cs, ∀ a ∈ revFileActs src rr rp cs, ∃ q, a.writePath = rr ++ (rp ++ q) := by
  intro cs
  induction cs with
  | nil => simp [revFileActs]
  | cons hd rest ih =>
    obtain ⟨n, t⟩ := hd
    cases t with
    | file c =>
      by_cases h : existsAt src (rp ++ [n]) = true
      · simpa [revFileActs, h] using ih
      · simp only [Bool.not_eq_true] at h
        intro a ha
        simp only [revFileActs, h, Bool.false_eq_true, if_false, List.mem_cons] at ha
        rcases ha with ha | ha
        · exact ⟨[n], by simp [ha, Action.writePath]⟩
        · exact ih a ha
    | dir ds => simpa [revFileActs] using ih

theorem revDirActs_writes (src : Option Tree) (rr rp : Path) :
    ∀ cs, ∀ a ∈ revDirActs src rr rp cs, ∃ q, a.writePath = rr ++ (rp ++ q) := by
  intro cs
  induction cs with
  | nil => simp [revDirActs]
  | cons hd rest ih =>
    obtain ⟨n, t⟩ := hd
    cases t with
    | file c => simpa [revDirActs] using ih
    | dir ds =>
      by_cases h : existsAt src (rp ++ [n]) = true
      · simpa [revDirActs, h] using ih
      · simp only [Bool.not_eq_true] at h
        intro a ha
        simp only [revDirActs, h, Bool.false_eq_true, if_false, List.mem_cons] at ha
        rcases ha with ha | ha
        · exact ⟨[n], by simp [ha, Action.writePath]⟩
        · exact ih a ha

theorem revDeep_writes (src : Option Tree) (rr : Path) :
    ∀ rp cs, ∀ a ∈ revDeep src rr rp cs, ∃ q, a.writePath = rr ++ (rp ++ q) := by
  intro rp cs
  induction rp, cs using revDeep.induct src rr with
  | case1 rp => simp [revDeep]
  | case2 rp n c rest ih => simpa [revDeep] using ih
  | case3 rp n ds rest ih1 ih2 =>
    intro a ha
    simp only [revDeep, List.mem_append] at ha
    rcases ha with ((ha | ha) | ha) | ha
    · obtain ⟨q, hq⟩ := ih1 a ha
      exact ⟨[n] ++ q, by simpa using hq⟩
    · obtain ⟨q, hq⟩ := revFileActs_writes src rr (rp ++ [n]) ds a ha
      exact ⟨[n] ++ q, by simpa using hq⟩
    · obtain ⟨q, hq⟩ := revDirActs_writes src rr (rp ++ [n]) ds a ha
      exact ⟨[n] ++ q, by simpa using hq⟩
    · exact ih2 a ha

theorem revActs_writes (src : Option Tree) (rr rp : Path)
    (cs : List (String × Tree)) :
    ∀ a ∈ revActs src rr rp cs, ∃ q, a.writePath = rr ++ (rp ++ q) := by
  intro a ha
  simp only [revActs, List.mem_append] at ha
  rcases ha with (ha | ha) | ha
  · exact revDeep_writes src rr rp cs a ha
  · exact revFileActs_writes src rr rp cs a ha
  · exact revDirActs_writes src rr rp cs a ha

theorem fwdRoot_writes (H : HashImpl) (sr rr : Path) (s rep : Option Tree) :
    ∀ a ∈ (fwdRoot H sr rr s rep).2.1, ∃ q, a.writePath = rr ++ q := by
  intro a ha
  cases s with
  | none => simp [fwdRoot] at ha
  | some ts =>
    cases ts with
    | file c => simp [fwdRoot] at ha
    | dir scs =>
      cases rep with
      | none => simp [fwdRoot] at ha
      | some tr =>
        cases tr with
        | file c => simp [fwdRoot] at ha
        | dir ds =>
          rcases hf : fwdFilesL H sr rr [] scs ds with ⟨ds1, a1, e1⟩
          cases e1 with
          | some e =>
            simp only [fwdRoot, hf] at ha
            obtain ⟨q, hq⟩ := fwdFilesL_writes H sr rr [] scs ds a (by rw [hf]; exact ha)
            exact ⟨q, by simpa using hq⟩
          | none =>
            simp only [fwdRoot, hf, List.mem_append] at ha
            rcases ha with ha | ha
            · obtain ⟨q, hq⟩ := fwdFilesL_writes H sr rr [] scs ds a (by rw [hf]; exact ha)
              exact ⟨q, by simpa using hq⟩
            · obtain ⟨q, hq⟩ := fwdSubdirs_writes H sr rr [] scs ds1 a ha
              exact ⟨q, by simpa using hq⟩

theorem sync_writes (H : HashImpl) (sr rr : Path) (s r : Option Tree) :
    ∀ a ∈ (synchronize_folders H sr rr s r).acts, ∃ q, a.writePath = rr ++ q := by
  intro a ha
  have hpre : ∀ rep0 acts0,
      (match r with
        | none => (some (Tree.dir []), [Action.createdReplica rr])
        | some t => (some t, ([] : List Action))) = (rep0, acts0) →
      ∀ b ∈ acts0, ∃ q, Action.writePath b = rr ++ q := by
    intro rep0 acts0 h0 b hb
    cases r with
    | none =>
      injection h0 with h1 h2
      subst h2
      simp only [List.mem_singleton] at hb
      exact ⟨[], by simp [hb, Action.writePath]⟩
    | some t =>
      injection h0 with h1 h2
      subst h2
      simp at hb
  cases r with
  | none =>
    rcases hfr : fwdRoot H sr rr s (some (Tree.dir [])) with ⟨rep1, a1, e1⟩
    have hw1 : ∀ b ∈ a1, ∃ q, Action.writePath b = rr ++ q := by
      intro b hb
      exact fwdRoot_writes H sr rr s (some (Tree.dir [])) b (by rw [hfr]; exact hb)
    cases e1 with
    | some e =>
      simp only [synchronize_folders, hfr, List.mem_append, List.mem_singleton] at ha
      rcases ha with ha | ha
      · exact ⟨[], by simp [ha, Action.writePath]⟩
      · exact hw1 a ha
    | none =>
      cases rep1 with
      | none =>
        simp only [synchronize_folders, hfr, List.mem_append, List.mem_singleton] at ha
        rcases ha with ha | ha
        · exact ⟨[], by simp [ha, Action.writePath]⟩
        · exact hw1 a ha
      | some t1 =>
        cases t1 with
        | file c =>
          simp only [synchronize_folders, hfr, List.mem_append, List.mem_singleton] at ha
          rcases ha with ha | ha
          · exact ⟨[], by simp [ha, Action.writePath]⟩
          · exact hw1 a ha
        | dir ds =>
          simp only [synchronize_folders, hfr, List.mem_append, List.mem_singleton] at ha
          rcases ha with (ha | ha) | ha
          · exact ⟨[], by simp [ha, Action.writePath]⟩
          · exact hw1 a ha
          · obtain ⟨q, hq⟩ := revActs_writes s rr [] ds a ha
            exact ⟨q, by simpa using hq⟩
  | some t =>
    rcases hfr : fwdRoot H sr rr s (some t) with ⟨rep1, a1, e1⟩
    have hw1 : ∀ b ∈ a1, ∃ q, Action.writePath b = rr ++ q := by
      intro b hb
      exact fwdRoot_writes H sr rr s (some t) b (by rw [hfr]; exact hb)
    cases e1 with
    | some e =>
      simp only [synchronize_folders, hfr, List.nil_append] at ha
      exact hw1 a ha
    | none =>
      cases rep1 with
      | none =>
        simp only [synchronize_folders, hfr, List.nil_append] at ha
        exact hw1 a ha
      | some t1 =>
        cases t1 with
        | file c =>
          simp only [synchronize_folders, hfr, List.nil_append] at ha
          exact hw1 a ha
        | dir ds =>
          simp only [synchronize_folders, hfr, List.nil_append, List.mem_append] at ha
          rcases ha with ha | ha
          · exact hw1 a ha
          · obtain ⟨q, hq⟩ := revActs_writes s rr [] ds a ha
            exact ⟨q, by simpa using hq⟩

/-- **C7**: a pass mutates only the replica tree: provided the source
and replica roots are not nested inside one another, every action the
pass performs (also of a pass that aborts with an error) writes to a
path under the replica root and never to a path under the source root —
the source tree is never created into, modified, or deleted from. -/
theorem sync_never_writes_source (H : HashImpl) (sr rr : Path)
    (s r : Option Tree) (h1 : ancB sr rr = false) (h2 : ancB rr sr = false) :
    ∀ a ∈ (synchronize_folders H sr rr s r).acts,
      ancB rr a.writePath = true ∧ ancB sr a.writePath = false := by
  intro a ha
  obtain ⟨q, hq⟩ := sync_writes H sr rr s r a ha
  rw [hq]
  exact ⟨ancB_append rr q, ancB_incomp_append h1 h2 q⟩

/-- Witness for C7 at a concrete configuration that copies, creates and
removes. -/
theorem sync_never_writes_source_w :
    ancB ["s"] ["r"] = false ∧ ancB ["r"] ["s"] = false ∧
    ∀ a ∈ (synchronize_folders catHash ["s"] ["r"]
        (some (.dir [("a", .file [1]), ("d", .dir [("b", .file [2])])]))
        (some (.dir [("x", .file [9])]))).acts,
      ancB ["r"] a.writePath = true ∧ ancB ["s"] a.writePath = false :=
  ⟨rfl, rfl,
    sync_never_writes_source catHash ["s"] ["r"]
      (some (.dir [("a", .file [1]), ("d", .dir [("b", .file [2])])]))
      (some (.dir [("x", .file [9])])) rfl rfl⟩

/-!  ## Forward-pass characterization: `fwdFilesL` -/

/-- The copy-if-different decision of the forward pass, as a function of
the source file's contents and the entry currently at the replica path:
copy when no file exists there or the fingerprints differ. -/
def needCopyB (H : HashImpl) (c : Content) : Option Tree → Bool
  | none => true
  | some (.file c') => decide (calculate_hash H c ≠ calculate_hash H c')
  | some (.dir _) => true

theorem not_mem_of_lookupName_none {cs : List (String × Tree)} {n : String}
    (h : lookupName cs n = none) : ∀ t, (n, t) ∉ cs := by
  induction cs with
  | nil => simp
  | cons hd rest ih =>
    obtain ⟨m, u⟩ := hd
    simp only [lookupName] at h
    by_cases hm : m = n
    · simp [hm] at h
    · intro t ht
      simp only [hm, if_false] at h
      simp only [List.mem_cons] at ht
      rcases ht with ht | ht
      · exact hm (congrArg Prod.fst ht).symm
      · exact ih h t ht

theorem wf_tail {n : String} {t : Tree} {rest : List (String × Tree)}
    (h : wfChildren ((n, t) :: rest) = true) : wfChildren rest = true := by
  rw [wfChildren_cons] at h
  simp only [Bool.and_eq_true] at h
  exact h.2

theorem wf_head_notin {n : String} {t : Tree} {rest : List (String × Tree)}
    (h : wfChildren ((n, t) :: rest) = true) : ∀ u, (n, u) ∉ rest := by
  rw [wfChildren_cons] at h
  simp only [Bool.and_eq_true, Option.isNone_iff_eq_none] at h
  exact not_mem_of_lookupName_none h.1.1

theorem wf_head_lookup_none {n : String} {t : Tree} {rest : List (String × Tree)}
    (h : wfChildren ((n, t) :: rest) = true) : lookupName rest n = none := by
  rw [wfChildren_cons] at h
  simp only [Bool.and_eq_true, Option.isNone_iff_eq_none] at h
  exact h.1.1

theorem fwdFilesL_untouched (H : HashImpl) (sr rr rp : Path) :
    ∀ scs ds, ∀ m, (∀ c, (m, Tree.file c) ∉ scs) →
      lookupName (fwdFilesL H sr rr rp scs ds).1 m = lookupName ds m := by
  intro scs ds
  induction scs, ds using fwdFilesL.induct H sr rr rp with
  | case1 ds => simp [fwdFilesL]
  | case2 n sub rest ds ih =>
    intro m hm
    rw [fwdFilesL]
    exact ih m fun c hc => hm c (by simp [hc])
  | case3 n c rest ds sub hl => simp [fwdFilesL, hl]
  | case4 n c rest ds c' hl heq ih =>
    intro m hm
    rw [fwdFilesL]
    simp only [hl, heq, if_true]
    exact ih m fun c0 hc0 => hm c0 (by simp [hc0])
  | case5 n c rest ds c' hl hne ds2 a2 e2 hf ih =>
    intro m hm
    have hmn : m ≠ n := by
      intro h
      exact hm c (by simp [h])
    rw [fwdFilesL]
    simp only [hl, hne, if_false, hf]
    have := ih m fun c0 hc0 => hm c0 (by simp [hc0])
    rw [hf] at this
    rw [this, lookupName_setChild_ne ds (Tree.file c) hmn]
  | case6 n c rest ds hl ds2 a2 e2 hf ih =>
    intro m hm
    have hmn : m ≠ n := by
      intro h
      exact hm c (by simp [h])
    rw [fwdFilesL]
    simp only [hl, hf]
    have := ih m fun c0 hc0 => hm c0 (by simp [hc0])
    rw [hf] at this
    rw [this, lookupName_setChild_ne ds (Tree.file c) hmn]

theorem fwdFilesL_err_none (H : HashImpl) (sr rr rp : Path) :
    ∀ scs ds, wfChildren scs = true →
      (∀ m c es, lookupName scs m = some (.file c) →
        lookupName ds m ≠ some (.dir es)) →
      (fwdFilesL H sr rr rp scs ds).2.2 = none := by
  intro scs ds
  induction scs, ds using fwdFilesL.induct H sr rr rp with
  | case1 ds => simp [fwdFilesL]
  | case2 n sub rest ds ih =>
    intro hw hcomp
    rw [fwdFilesL]
    refine ih (wf_tail hw) ?_
    intro m c es hm
    have hmn : m ≠ n := by
      intro h
      subst h
      exact absurd hm (by simp [wf_head_lookup_none hw])
    exact hcomp m c es (by simp [lookupName, Ne.symm hmn, hm])
  | case3 n c rest ds sub hl =>
    intro hw hcomp
    exact absurd hl (hcomp n c sub (by simp [lookupName]))
  | case4 n c rest ds c' hl heq ih =>
    intro hw hcomp
    rw [fwdFilesL]
    simp only [hl, heq, if_true]
    refine ih (wf_tail hw) ?_
    intro m c0 es hm
    have hmn : m ≠ n := by
      intro h
      subst h
      exact absurd hm (by simp [wf_head_lookup_none hw])
    exact hcomp m c0 es (by simp [lookupName, Ne.symm hmn, hm])
  | case5 n c rest ds c' hl hne ds2 a2 e2 hf ih =>
    intro hw hcomp
    rw [fwdFilesL]
    simp only [hl, hne, if_false, hf]
    have : (fwdFilesL H sr rr rp rest (setChild ds n (Tree.file c))).2.2 = none := by
      refine ih (wf_tail hw) ?_
      intro m c0 es hm
      have hmn : m ≠ n := by
        intro h
        subst h
        exact absurd hm (by simp [wf_head_lookup_none hw])
      rw [lookupName_setChild_ne ds (Tree.file c) hmn]
      exact hcomp m c0 es (by simp [lookupName, Ne.symm hmn, hm])
    rw [hf] at this
    exact this
  | case6 n c rest ds hl ds2 a2 e2 hf ih =>
    intro hw hcomp
    rw [fwdFilesL]
    simp only [hl, hf]
    have : (fwdFilesL H sr rr rp rest (setChild ds n (Tree.file c))).2.2 = none := by
      refine ih (wf_tail hw) ?_
      intro m c0 es hm
      have hmn : m ≠ n := by
        intro h
        subst h
        exact absurd hm (by simp [wf_head_lookup_none hw])
      rw [lookupName_setChild_ne ds (Tree.file c) hmn]
      exact hcomp m c0 es (by simp [lookupName, Ne.symm hmn, hm])
    rw [hf] at this
    exact this

theorem fwdFilesL_wf (H : HashImpl) (sr rr rp : Path) :
    ∀ scs ds, wfChildren ds = true →
      wfChildren (fwdFilesL H sr rr rp scs ds).1 = true := by
  intro scs ds
  induction scs, ds using fwdFilesL.induct H sr rr rp with
  | case1 ds => simp [fwdFilesL]
  | case2 n sub rest ds ih =>
    intro hw
    rw [fwdFilesL]
    exact ih hw
  | case3 n c rest ds sub hl =>
    intro hw
    simpa [fwdFilesL, hl] using hw
  | case4 n c rest ds c' hl heq ih =>
    intro hw
    rw [fwdFilesL]
    simp only [hl, heq, if_true]
    exact ih hw
  | case5 n c rest ds c' hl hne ds2 a2 e2 hf ih =>
    intro hw
    rw [fwdFilesL]
    simp only [hl, hne, if_false, hf]
    have := ih (wfChildren_setChild hw rfl)
    rw [hf] at this
    exact this
  | case6 n c rest ds hl ds2 a2 e2 hf ih =>
    intro hw
    rw [fwdFilesL]
    simp only [hl, hf]
    have := ih (wfChildren_setChild hw rfl)
    rw [hf] at this
    exact this

theorem lookupName_of_mem_wf {cs : List (String × Tree)} {n : String} {t : Tree}
    (hw : wfChildren cs = true) (h : (n, t) ∈ cs) : lookupName cs n = some t := by
  induction cs with
  | nil => simp at h
  | cons hd rest ih =>
    obtain ⟨k, u⟩ := hd
    simp only [List.mem_cons] at h
    rcases h with h | h
    · injection h with h1 h2
      subst h1
      subst h2
      simp [lookupName]
    · by_cases hk : k = n
      · subst hk
        exact absurd h (wf_head_notin hw t)
      · simp only [lookupName, hk, if_false]
        exact ih (wf_tail hw) h

theorem compatChildren_pointwise (cs ds : List (String × Tree))
    (hf : ∀ n c, (n, Tree.file c) ∈ cs → ∀ es, lookupName ds n ≠ some (.dir es))
    (hd : ∀ n sub, (n, Tree.dir sub) ∈ cs →
      (∀ c', lookupName ds n ≠ some (.file c')) ∧
      (∀ es, lookupName ds n = some (.dir es) → compatChildren sub es = true)) :
    compatChildren cs ds = true := by
  induction cs with
  | nil => simp [compatChildren]
  | cons hd2 rest ih =>
    obtain ⟨n, t⟩ := hd2
    cases t with
    | file c =>
      rw [compatChildren]
      simp only [Bool.and_eq_true]
      constructor
      · have := hf n c (by simp)
        cases hds : lookupName ds n with
        | none => simp
        | some u =>
          cases u with
          | file c2 => simp
          | dir es => exact absurd hds (this es)
      · exact ih (fun n0 c0 h0 => hf n0 c0 (by simp [h0]))
          (fun n0 s0 h0 => hd n0 s0 (by simp [h0]))
    | dir sub =>
      rw [compatChildren]
      simp only [Bool.and_eq_true]
      constructor
      · obtain ⟨h1, h2⟩ := hd n sub (by simp)
        cases hds : lookupName ds n with
        | none => simp
        | some u =>
          cases u with
          | file c2 => exact absurd hds (h1 c2)
          | dir es => exact h2 es hds
      · exact ih (fun n0 c0 h0 => hf n0 c0 (by simp [h0]))
          (fun n0 s0 h0 => hd n0 s0 (by simp [h0]))

theorem fwdFilesL_no_dir_conflict (H : HashImpl) (sr rr rp : Path) :
    ∀ scs ds, wfChildren scs = true →
      (fwdFilesL H sr rr rp scs ds).2.2 = none →
      ∀ m c es, lookupName scs m = some (.file c) →
        lookupName ds m ≠ some (.dir es) := by
  intro scs ds
  induction scs, ds using fwdFilesL.induct H sr rr rp with
  | case1 ds => simp [lookupName]
  | case2 n sub rest ds ih =>
    intro hw he m c es hm
    rw [fwdFilesL] at he
    have hmn : m ≠ n := by
      intro h
      subst h
      simp [lookupName] at hm
    simp only [lookupName, Ne.symm hmn, if_false] at hm
    exact ih (wf_tail hw) he m c es hm
  | case3 n c rest ds sub hl =>
    intro hw he
    rw [fwdFilesL] at he
    simp [hl] at he
  | case4 n c rest ds c' hl heq ih =>
    intro hw he m c0 es hm
    rw [fwdFilesL] at he
    simp only [hl, heq, if_true] at he
    by_cases hmn : m = n
    · subst hmn
      rw [hl]
      simp
    · simp only [lookupName, Ne.symm hmn, if_false] at hm
      exact ih (wf_tail hw) he m c0 es hm
  | case5 n c rest ds c' hl hne ds2 a2 e2 hf ih =>
    intro hw he m c0 es hm
    rw [fwdFilesL] at he
    simp only [hl, hne, if_false, hf] at he
    by_cases hmn : m = n
    · subst hmn
      rw [hl]
      simp
    · simp only [lookupName, Ne.symm hmn, if_false] at hm
      have := ih (wf_tail hw) (by rw [hf]; exact he) m c0 es hm
      rw [lookupName_setChild_ne ds (Tree.file c) hmn] at this
      exact this
  | case6 n c rest ds hl ds2 a2 e2 hf ih =>
    intro hw he m c0 es hm
    rw [fwdFilesL] at he
    simp only [hl, hf] at he
    by_cases hmn : m = n
    · subst hmn
      rw [hl]
      simp
    · simp only [lookupName, Ne.symm hmn, if_false] at hm
      have := ih (wf_tail hw) (by rw [hf]; exact he) m c0 es hm
      rw [lookupName_setChild_ne ds (Tree.file c) hmn] at this
      exact this

theorem fwdFilesL_file_present (H : HashImpl) (sr rr rp : Path) :
    ∀ scs ds, wfChildren scs = true →
      (fwdFilesL H sr rr rp scs ds).2.2 = none →
      ∀ m c, lookupName scs m = some (.file c) →
        ∃ c', lookupName (fwdFilesL H sr rr rp scs ds).1 m = some (.file c') ∧
          calculate_hash H c' = calculate_hash H c := by
  intro scs ds
  induction scs, ds using fwdFilesL.induct H sr rr rp with
  | case1 ds => simp [lookupName]
  | case2 n sub rest ds ih =>
    intro hw he m c hm
    rw [fwdFilesL] at he ⊢
    have hmn : m ≠ n := by
      intro h
      subst h
      simp [lookupName] at hm
    simp only [lookupName, Ne.symm hmn, if_false] at hm
    exact ih (wf_tail hw) he m c hm
  | case3 n c rest ds sub hl =>
    intro hw he
    rw [fwdFilesL] at he
    simp [hl] at he
  | case4 n c rest ds c' hl heq ih =>
    intro hw he m c0 hm
    rw [fwdFilesL] at he ⊢
    simp only [hl, heq, if_true] at he ⊢
    by_cases hmn : m = n
    · subst hmn
      have hc0 : c0 = c := by
        simp [lookupName] at hm
        exact hm.symm
      subst hc0
      have huntouched := fwdFilesL_untouched H sr rr rp rest ds m
        (fun cx hcx => wf_head_notin hw (Tree.file cx) hcx)
      rw [huntouched, hl]
      exact ⟨c', rfl, heq.symm⟩
    · simp only [lookupName, Ne.symm hmn, if_false] at hm
      exact ih (wf_tail hw) he m c0 hm
  | case5 n c rest ds c' hl hne ds2 a2 e2 hf ih =>
    intro hw he m c0 hm
    rw [fwdFilesL] at he ⊢
    simp only [hl, hne, if_false, hf] at he ⊢
    by_cases hmn : m = n
    · subst hmn
      have hc0 : c0 = c := by
        simp [lookupName] at hm
        exact hm.symm
      subst hc0
      have huntouched := fwdFilesL_untouched H sr rr rp rest
        (setChild ds m (Tree.file c0)) m
        (fun cx hcx => wf_head_notin hw (Tree.file cx) hcx)
      rw [hf] at huntouched
      rw [huntouched, lookupName_setChild_self]
      exact ⟨c0, rfl, rfl⟩
    · simp only [lookupName, Ne.symm hmn, if_false] at hm
      have := ih (wf_tail hw) (by rw [hf]; exact he) m c0 hm
      rw [hf] at this
      exact this
  | case6 n c rest ds hl ds2 a2 e2 hf ih =>
    intro hw he m c0 hm
    rw [fwdFilesL] at he ⊢
    simp only [hl, hf] at he ⊢
    by_cases hmn : m = n
    · subst hmn
      have hc0 : c0 = c := by
        simp [lookupName] at hm
        exact hm.symm
      subst hc0
      have huntouched := fwdFilesL_untouched H sr rr rp rest
        (setChild ds m (Tree.file c0)) m
        (fun cx hcx => wf_head_notin hw (Tree.file cx) hcx)
      rw [hf] at huntouched
      rw [huntouched, lookupName_setChild_self]
      exact ⟨c0, rfl, rfl⟩
    · simp only [lookupName, Ne.symm hmn, if_false] at hm
      have := ih (wf_tail hw) (by rw [hf]; exact he) m c0 hm
      rw [hf] at this
      exact this

theorem fwdFilesL_frame (H : HashImpl) (sr rr rp : Path)
    (scs ds : List (String × Tree)) (hw : wfChildren scs = true)
    (he : (fwdFilesL H sr rr rp scs ds).2.2 = none) :
    ∀ p, Tree.lookup (.dir scs) p = none →
      Tree.lookup (.dir (fwdFilesL H sr rr rp scs ds).1) p
        = Tree.lookup (.dir ds) p := by
  intro p hp
  cases p with
  | nil => simp at hp
  | cons m q =>
    rw [lookup_dir_bind] at hp
    rw [lookup_dir_bind, lookup_dir_bind]
    cases hsm : lookupName scs m with
    | none =>
      rw [fwdFilesL_untouched H sr rr rp scs ds m
        (fun c hc => not_mem_of_lookupName_none hsm (Tree.file c) hc)]
    | some t =>
      cases t with
      | dir sub =>
        rw [fwdFilesL_untouched H sr rr rp scs ds m ?_]
        intro c hc
        have hl := lookupName_of_mem_wf hw hc
        rw [hsm] at hl
        exact absurd hl (by simp)
      | file c =>
        rw [hsm] at hp
        simp only [Option.some_bind] at hp
        have hq : q ≠ [] := by
          intro h
          subst h
          simp at hp
        obtain ⟨c', hc', _⟩ :=
          fwdFilesL_file_present H sr rr rp scs ds hw he m c hsm
        rw [hc']
        have hdm : ∀ es, lookupName ds m ≠ some (.dir es) :=
          fun es => fwdFilesL_no_dir_conflict H sr rr rp scs ds hw he m c es hsm
        cases hdm2 : lookupName ds m with
        | none => simp [file_lookup_ne_nil c' hq]
        | some u =>
          cases u with
          | file c2 =>
            simp [file_lookup_ne_nil c' hq, file_lookup_ne_nil c2 hq]
          | dir es => exact absurd hdm2 (hdm es)

theorem fwdFilesL_compat_preserved (H : HashImpl) (sr rr rp : Path)
    (scs ds : List (String × Tree)) (hw : wfChildren scs = true)
    (hc : compatChildren scs ds = true)
    (he : (fwdFilesL H sr rr rp scs ds).2.2 = none) :
    compatChildren scs (fwdFilesL H sr rr rp scs ds).1 = true := by
  apply compatChildren_pointwise
  · intro n c hmem es
    obtain ⟨c', hc', _⟩ := fwdFilesL_file_present H sr rr rp scs ds hw he n c
      (lookupName_of_mem_wf hw hmem)
    rw [hc']
    simp
  · intro n sub hmem
    have hl := lookupName_of_mem_wf hw hmem
    have hu : lookupName (fwdFilesL H sr rr rp scs ds).1 n = lookupName ds n := by
      refine fwdFilesL_untouched H sr rr rp scs ds n ?_
      intro c hcm
      have := lookupName_of_mem_wf hw hcm
      rw [hl] at this
      exact absurd this (by simp)
    rw [hu]
    exact compat_dir_of_lookup hc hl

theorem fwdFilesL_shape (H : HashImpl) (sr rr rp : Path) :
    ∀ scs ds, wfChildren scs = true →
      ∀ a ∈ (fwdFilesL H sr rr rp scs ds).2.1,
        ∃ m c, a = .copiedFile (sr ++ rp ++ [m]) (rr ++ rp ++ [m]) ∧
          lookupName scs m = some (.file c) := by
  intro scs ds
  induction scs, ds using fwdFilesL.induct H sr rr rp with
  | case1 ds => simp [fwdFilesL]
  | case2 n sub rest ds ih =>
    intro hw a ha
    rw [fwdFilesL] at ha
    obtain ⟨m, c, hact, hm⟩ := ih (wf_tail hw) a ha
    have hmn : m ≠ n := by
      intro h
      subst h
      rw [wf_head_lookup_none hw] at hm
      simp at hm
    exact ⟨m, c, hact, by simp [lookupName, Ne.symm hmn, hm]⟩
  | case3 n c rest ds sub hl =>
    intro hw a ha
    simp [fwdFilesL, hl] at ha
  | case4 n c rest ds c' hl heq ih =>
    intro hw a ha
    rw [fwdFilesL] at ha
    simp only [hl, heq, if_true] at ha
    obtain ⟨m, c0, hact, hm⟩ := ih (wf_tail hw) a ha
    have hmn : m ≠ n := by
      intro h
      subst h
      rw [wf_head_lookup_none hw] at hm
      simp at hm
    exact ⟨m, c0, hact, by simp [lookupName, Ne.symm hmn, hm]⟩
  | case5 n c rest ds c' hl hne ds2 a2 e2 hf ih =>
    intro hw a ha
    rw [fwdFilesL] at ha
    simp only [hl, hne, if_false, hf, List.mem_cons] at ha
    rcases ha with ha | ha
    · exact ⟨n, c, ha, by simp [lookupName]⟩
    · obtain ⟨m, c0, hact, hm⟩ := ih (wf_tail hw) a (by rw [hf]; exact ha)
      have hmn : m ≠ n := by
        intro h
        subst h
        rw [wf_head_lookup_none hw] at hm
        simp at hm
      exact ⟨m, c0, hact, by simp [lookupName, Ne.symm hmn, hm]⟩
  | case6 n c rest ds hl ds2 a2 e2 hf ih =>
    intro hw a ha
    rw [fwdFilesL] at ha
    simp only [hl, hf, List.mem_cons] at ha
    rcases ha with ha | ha
    · exact ⟨n, c, ha, by simp [lookupName]⟩
    · obtain ⟨m, c0, hact, hm⟩ := ih (wf_tail hw) a (by rw [hf]; exact ha)
      have hmn : m ≠ n := by
        intro h
        subst h
        rw [wf_head_lookup_none hw] at hm
        simp at hm
      exact ⟨m, c0, hact, by simp [lookupName, Ne.symm hmn, hm]⟩

theorem copied_path_inj {x y : Path} {m n : String}
    (h : Action.copiedFile (x ++ [m]) (y ++ [m]) = Action.copiedFile (x ++ [n]) (y ++ [n])) :
    m = n := by
  injection h with h1 h2
  have := List.append_cancel_left h1
  simpa using this

theorem fwdFilesL_count_zero (H : HashImpl) (sr rr rp : Path)
    (scs ds : List (String × Tree)) (hw : wfChildren scs = true) (n : String)
    (hn : ∀ c, lookupName scs n ≠ some (.file c)) :
    List.count (Action.copiedFile (sr ++ rp ++ [n]) (rr ++ rp ++ [n]))
      (fwdFilesL H sr rr rp scs ds).2.1 = 0 := by
  refine List.count_eq_zero.mpr ?_
  intro hmem
  obtain ⟨m, c, hact, hm⟩ := fwdFilesL_shape H sr rr rp scs ds hw _ hmem
  have hmn : n = m := copied_path_inj hact
  subst hmn
  exact hn c hm

theorem fwdFilesL_count (H : HashImpl) (sr rr rp : Path) :
    ∀ scs ds, wfChildren scs = true →
      (fwdFilesL H sr rr rp scs ds).2.2 = none →
      ∀ m c, lookupName scs m = some (.file c) →
        List.count (Action.copiedFile (sr ++ rp ++ [m]) (rr ++ rp ++ [m]))
            (fwdFilesL H sr rr rp scs ds).2.1
          = if needCopyB H c (lookupName ds m) then 1 else 0 := by
  intro scs ds
  induction scs, ds using fwdFilesL.induct H sr rr rp with
  | case1 ds => simp [lookupName]
  | case2 n sub rest ds ih =>
    intro hw he m c hm
    rw [fwdFilesL] at he ⊢
    have hmn : m ≠ n := by
      intro h
      subst h
      simp [lookupName] at hm
    simp only [lookupName, Ne.symm hmn, if_false] at hm
    exact ih (wf_tail hw) he m c hm
  | case3 n c rest ds sub hl =>
    intro hw he
    rw [fwdFilesL] at he
    simp [hl] at he
  | case4 n c rest ds c' hl heq ih =>
    intro hw he m c0 hm
    rw [fwdFilesL] at he ⊢
    simp only [hl, heq, if_true] at he ⊢
    by_cases hmn : m = n
    · subst hmn
      have hc0 : c0 = c := by
        simp [lookupName] at hm
        exact hm.symm
      subst hc0
      rw [fwdFilesL_count_zero H sr rr rp rest ds (wf_tail hw) m ?aux]
      case aux =>
        intro cx hcx
        rw [wf_head_lookup_none hw] at hcx
        exact absurd hcx (by simp)
      rw [hl]
      simp [needCopyB, heq]
    · simp only [lookupName, Ne.symm hmn, if_false] at hm
      exact ih (wf_tail hw) he m c0 hm
  | case5 n c rest ds c' hl hne ds2 a2 e2 hf ih =>
    intro hw he m c0 hm
    rw [fwdFilesL] at he ⊢
    simp only [hl, hne, if_false, hf] at he ⊢
    by_cases hmn : m = n
    · subst hmn
      have hc0 : c0 = c := by
        simp [lookupName] at hm
        exact hm.symm
      subst hc0
      rw [List.count_cons_self]
      have hz := fwdFilesL_count_zero H sr rr rp rest
        (setChild ds m (Tree.file c0)) (wf_tail hw) m ?aux
      case aux =>
        intro cx hcx
        rw [wf_head_lookup_none hw] at hcx
        exact absurd hcx (by simp)
      rw [hf] at hz
      rw [hz, hl]
      simp [needCopyB, hne]
    · simp only [lookupName, Ne.symm hmn, if_false] at hm
      rw [List.count_cons_of_ne ?ne]
      case ne =>
        intro h
        exact hmn (copied_path_inj h)
      have := ih (wf_tail hw) (by rw [hf]; exact he) m c0 hm
      rw [hf, lookupName_setChild_ne ds (Tree.file c) hmn] at this
      exact this
  | case6 n c rest ds hl ds2 a2 e2 hf ih =>
    intro hw he m c0 hm
    rw [fwdFilesL] at he ⊢
    simp only [hl, hf] at he ⊢
    by_cases hmn : m = n
    · subst hmn
      have hc0 : c0 = c := by
        simp [lookupName] at hm
        exact hm.symm
      subst hc0
      rw [List.count_cons_self]
      have hz := fwdFilesL_count_zero H sr rr rp rest
        (setChild ds m (Tree.file c0)) (wf_tail hw) m ?aux
      case aux =>
        intro cx hcx
        rw [wf_head_lookup_none hw] at hcx
        exact absurd hcx (by simp)
      rw [hf] at hz
      rw [hz, hl]
      simp [needCopyB]
    · simp only [lookupName, Ne.symm hmn, if_false] at hm
      rw [List.count_cons_of_ne ?ne]
      case ne =>
        intro h
        exact hmn (copied_path_inj h)
      have := ih (wf_tail hw) (by rw [hf]; exact he) m c0 hm
      rw [hf, lookupName_setChild_ne ds (Tree.file c) hmn] at this
      exact this

/-!  ## Forward-pass characterization: `fwdSubdirs` -/

theorem setChild_self_eq {cs : List (String × Tree)} {n : String} {t : Tree}
    (h : lookupName cs n = some t) : setChild cs n t = cs := by
  induction cs with
  | nil => simp [lookupName] at h
  | cons hd rest ih =>
    obtain ⟨k, u⟩ := hd
    simp only [lookupName] at h
    by_cases hk : k = n
    · subst hk
      simp only [if_true] at h
      injection h with h
      subst h
      simp [setChild]
    · simp only [hk, if_false] at h
      simp [setChild, hk, ih h]

theorem fwdSubdirs_untouched (H : HashImpl) (sr rr : Path) :
    ∀ rp scs ds, ∀ m, (∀ sub, (m, Tree.dir sub) ∉ scs) →
      lookupName (fwdSubdirs H sr rr rp scs ds).1 m = lookupName ds m := by
  intro rp scs ds
  induction rp, scs, ds using fwdSubdirs.induct H sr rr with
  | case1 rp ds => simp [fwdSubdirs]
  | case2 rp n c rest ds ih =>
    intro m hm
    rw [fwdSubdirs]
    exact ih m fun s hs => hm s (by simp [hs])
  | case3 rp n sub rest ds c hl hemp ih =>
    intro m hm
    rw [fwdSubdirs]
    simp only [hl, hemp, if_true]
    exact ih m fun s hs => hm s (by simp [hs])
  | case4 rp n sub rest ds c hl hemp =>
    intro m hm
    rw [fwdSubdirs]
    simp only [hl, hemp, Bool.false_eq_true, if_false]
  | case5 rp n sub rest ds es hl ds2 a2 e hf =>
    intro m hm
    have hmn : m ≠ n := by
      intro h
      subst h
      exact hm sub (by simp)
    rw [fwdSubdirs]
    simp only [hl, hf]
    exact lookupName_setChild_ne ds _ hmn
  | case6 rp n sub rest ds es hl ds2 a2 ds3 a3 e hf hsub ih =>
    intro m hm
    have hmn : m ≠ n := by
      intro h
      subst h
      exact hm sub (by simp)
    rw [fwdSubdirs]
    simp only [hl, hf, hsub]
    exact lookupName_setChild_ne ds _ hmn
  | case7 rp n sub rest ds es hl ds2 a2 ds3 a3 ds1 ds4 a4 e2 hrest hf hsub ih1 ih2 =>
    intro m hm
    have hmn : m ≠ n := by
      intro h
      subst h
      exact hm sub (by simp)
    rw [fwdSubdirs]
    simp only [hl, hf, hsub, ds1, hrest]
    have := ih2 m fun s hs => hm s (by simp [hs])
    rw [hrest] at this
    rw [this, lookupName_setChild_ne ds _ hmn]
  | case8 rp n sub rest ds hl ds2 a2 e hf =>
    intro m hm
    have hmn : m ≠ n := by
      intro h
      subst h
      exact hm sub (by simp)
    rw [fwdSubdirs]
    simp only [hl, hf]
    exact lookupName_setChild_ne ds _ hmn
  | case9 rp n sub rest ds hl ds2 a2 ds3 a3 e hf hsub ih =>
    intro m hm
    have hmn : m ≠ n := by
      intro h
      subst h
      exact hm sub (by simp)
    rw [fwdSubdirs]
    simp only [hl, hf, hsub]
    exact lookupName_setChild_ne ds _ hmn
  | case10 rp n sub rest ds hl ds2 a2 ds3 a3 ds1 ds4 a4 e2 hrest hf hsub ih1 ih2 =>
    intro m hm
    have hmn : m ≠ n := by
      intro h
      subst h
      exact hm sub (by simp)
    rw [fwdSubdirs]
    simp only [hl, hf, hsub, ds1, hrest]
    have := ih2 m fun s hs => hm s (by simp [hs])
    rw [hrest] at this
    rw [this, lookupName_setChild_ne ds _ hmn]

theorem fwdSubdirs_wf (H : HashImpl) (sr rr : Path) :
    ∀ rp scs ds, wfChildren scs = true → wfChildren ds = true →
      wfChildren (fwdSubdirs H sr rr rp scs ds).1 = true := by
  intro rp scs ds
  induction rp, scs, ds using fwdSubdirs.induct H sr rr with
  | case1 rp ds =>
    intro _ hd
    simpa [fwdSubdirs] using hd
  | case2 rp n c rest ds ih =>
    intro hw hd
    rw [fwdSubdirs]
    exact ih (wf_tail hw) hd
  | case3 rp n sub rest ds c hl hemp ih =>
    intro hw hd
    rw [fwdSubdirs]
    simp only [hl, hemp, if_true]
    exact ih (wf_tail hw) hd
  | case4 rp n sub rest ds c hl hemp =>
    intro hw hd
    rw [fwdSubdirs]
    simpa [hl, hemp] using hd
  | case5 rp n sub rest ds es hl ds2 a2 e hf =>
    intro hw hd
    have hes : wfChildren es = true := by
      have := wfB_of_lookupName hd hl
      simpa [Tree.wfB] using this
    rw [fwdSubdirs]
    simp only [hl, hf]
    refine wfChildren_setChild hd ?_
    have := fwdFilesL_wf H sr rr (rp ++ [n]) sub es hes
    rw [hf] at this
    simpa [Tree.wfB] using this
  | case6 rp n sub rest ds es hl ds2 a2 ds3 a3 e hf hsub ih =>
    intro hw hd
    have hes : wfChildren es = true := by
      have := wfB_of_lookupName hd hl
      simpa [Tree.wfB] using this
    have hsubwf : wfChildren sub = true := by
      rw [wfChildren_cons] at hw
      simp only [Bool.and_eq_true] at hw
      simpa [Tree.wfB] using hw.1.2
    have hds2 : wfChildren ds2 = true := by
      have := fwdFilesL_wf H sr rr (rp ++ [n]) sub es hes
      rw [hf] at this
      exact this
    rw [fwdSubdirs]
    simp only [hl, hf, hsub]
    refine wfChildren_setChild hd ?_
    have := ih hsubwf hds2
    rw [hsub] at this
    simpa [Tree.wfB] using this
  | case7 rp n sub rest ds es hl ds2 a2 ds3 a3 ds1 ds4 a4 e2 hrest hf hsub ih1 ih2 =>
    intro hw hd
    have hes : wfChildren es = true := by
      have := wfB_of_lookupName hd hl
      simpa [Tree.wfB] using this
    have hsubwf : wfChildren sub = true := by
      rw [wfChildren_cons] at hw
      simp only [Bool.and_eq_true] at hw
      simpa [Tree.wfB] using hw.1.2
    have hds2 : wfChildren ds2 = true := by
      have := fwdFilesL_wf H sr rr (rp ++ [n]) sub es hes
      rw [hf] at this
      exact this
    have hds3 : wfChildren ds3 = true := by
      have := ih1 hsubwf hds2
      rw [hsub] at this
      exact this
    have hds1 : wfChildren ds1 = true :=
      wfChildren_setChild hd (by simpa [Tree.wfB] using hds3)
    rw [fwdSubdirs]
    simp only [hl, hf, hsub, ds1, hrest]
    have := ih2 (wf_tail hw) hds1
    rw [hrest] at this
    exact this
  | case8 rp n sub rest ds hl ds2 a2 e hf =>
    intro hw hd
    rw [fwdSubdirs]
    simp only [hl, hf]
    refine wfChildren_setChild hd ?_
    have := fwdFilesL_wf H sr rr (rp ++ [n]) sub [] (by simp [wfChildren])
    rw [hf] at this
    simpa [Tree.wfB] using this
  | case9 rp n sub rest ds hl ds2 a2 ds3 a3 e hf hsub ih =>
    intro hw hd
    have hsubwf : wfChildren sub = true := by
      rw [wfChildren_cons] at hw
      simp only [Bool.and_eq_true] at hw
      simpa [Tree.wfB] using hw.1.2
    have hds2 : wfChildren ds2 = true := by
      have := fwdFilesL_wf H sr rr (rp ++ [n]) sub [] (by simp [wfChildren])
      rw [hf] at this
      exact this
    rw [fwdSubdirs]
    simp only [hl, hf, hsub]
    refine wfChildren_setChild hd ?_
    have := ih hsubwf hds2
    rw [hsub] at this
    simpa [Tree.wfB] using this
  | case10 rp n sub rest ds hl ds2 a2 ds3 a3 ds1 ds4 a4 e2 hrest hf hsub ih1 ih2 =>
    intro hw hd
    have hsubwf : wfChildren sub = true := by
      rw [wfChildren_cons] at hw
      simp only [Bool.and_eq_true] at hw
      simpa [Tree.wfB] using hw.1.2
    have hds2 : wfChildren ds2 = true := by
      have := fwdFilesL_wf H sr rr (rp ++ [n]) sub [] (by simp [wfChildren])
      rw [hf] at this
      exact this
    have hds3 : wfChildren ds3 = true := by
      have := ih1 hsubwf hds2
      rw [hsub] at this
      exact this
    have hds1 : wfChildren ds1 = true :=
      wfChildren_setChild hd (by simpa [Tree.wfB] using hds3)
    rw [fwdSubdirs]
    simp only [hl, hf, hsub, ds1, hrest]
    have := ih2 (wf_tail hw) hds1
    rw [hrest] at this
    exact this

theorem compat_tail {hd : String × Tree} {rest ds : List (String × Tree)}
    (h : compatChildren (hd :: rest) ds = true) : compatChildren rest ds = true := by
  obtain ⟨n, t⟩ := hd
  cases t <;>
    · rw [compatChildren] at h
      simp only [Bool.and_eq_true] at h
      exact h.2

theorem compat_head_dir {n : String} {sub : List (String × Tree)}
    {rest ds : List (String × Tree)}
    (h : compatChildren ((n, Tree.dir sub) :: rest) ds = true) :
    (∀ c, lookupName ds n ≠ some (.file c)) ∧
      (∀ es, lookupName ds n = some (.dir es) → compatChildren sub es = true) := by
  rw [compatChildren] at h
  simp only [Bool.and_eq_true] at h
  constructor
  · intro c hc
    rw [hc] at h
    exact absurd h.1 (by simp)
  · intro es hes
    rw [hes] at h
    exact h.1

theorem compatChildren_setChild_of_absent (rest : List (String × Tree))
    (ds : List (String × Tree)) (n : String) (t : Tree)
    (hn : lookupName rest n = none) :
    compatChildren rest (setChild ds n t) = compatChildren rest ds := by
  induction rest with
  | nil => simp [compatChildren]
  | cons hd rest2 ih =>
    obtain ⟨k, u⟩ := hd
    have hk : k ≠ n := by
      intro h
      subst h
      simp [lookupName] at hn
    have hn2 : lookupName rest2 n = none := by
      simpa [lookupName, hk] using hn
    cases u <;>
      · rw [compatChildren, compatChildren,
          lookupName_setChild_ne ds t hk, ih hn2]

theorem fwdSubdirs_err_none (H : HashImpl) (sr rr : Path) :
    ∀ rp scs ds, wfChildren scs = true → compatChildren scs ds = true →
      (fwdSubdirs H sr rr rp scs ds).2.2 = none := by
  intro rp scs ds
  induction rp, scs, ds using fwdSubdirs.induct H sr rr with
  | case1 rp ds => simp [fwdSubdirs]
  | case2 rp n c rest ds ih =>
    intro hw hc
    rw [fwdSubdirs]
    exact ih (wf_tail hw) (compat_tail hc)
  | case3 rp n sub rest ds c hl hemp ih =>
    intro hw hc
    exact absurd hl ((compat_head_dir hc).1 c)
  | case4 rp n sub rest ds c hl hemp =>
    intro hw hc
    exact absurd hl ((compat_head_dir hc).1 c)
  | case5 rp n sub rest ds es hl ds2 a2 e hf =>
    intro hw hc
    have hsubwf : wfChildren sub = true := by
      rw [wfChildren_cons] at hw
      simp only [Bool.and_eq_true] at hw
      simpa [Tree.wfB] using hw.1.2
    have hcse : compatChildren sub es = true := (compat_head_dir hc).2 es hl
    have := fwdFilesL_err_none H sr rr (rp ++ [n]) sub es hsubwf
      (fun m c0 es0 hm => compat_file_of_lookup hcse hm es0)
    rw [hf] at this
    simp at this
  | case6 rp n sub rest ds es hl ds2 a2 ds3 a3 e hf hsub ih =>
    intro hw hc
    have hsubwf : wfChildren sub = true := by
      rw [wfChildren_cons] at hw
      simp only [Bool.and_eq_true] at hw
      simpa [Tree.wfB] using hw.1.2
    have hcse : compatChildren sub es = true := (compat_head_dir hc).2 es hl
    have hffe : (fwdFilesL H sr rr (rp ++ [n]) sub es).2.2 = none := by
      rw [hf]
    have hcse2 : compatChildren sub ds2 = true := by
      have := fwdFilesL_compat_preserved H sr rr (rp ++ [n]) sub es hsubwf hcse hffe
      rw [hf] at this
      exact this
    have := ih hsubwf hcse2
    rw [hsub] at this
    simp at this
  | case7 rp n sub rest ds es hl ds2 a2 ds3 a3 ds1 ds4 a4 e2 hrest hf hsub ih1 ih2 =>
    intro hw hc
    rw [fwdSubdirs]
    simp only [hl, hf, hsub, ds1, hrest]
    have hcrest : compatChildren rest ds1 = true := by
      rw [show ds1 = setChild ds n (Tree.dir ds3) from rfl,
        compatChildren_setChild_of_absent rest ds n _ (wf_head_lookup_none hw)]
      exact compat_tail hc
    have := ih2 (wf_tail hw) hcrest
    rw [hrest] at this
    exact this
  | case8 rp n sub rest ds hl ds2 a2 e hf =>
    intro hw hc
    have hsubwf : wfChildren sub = true := by
      rw [wfChildren_cons] at hw
      simp only [Bool.and_eq_true] at hw
      simpa [Tree.wfB] using hw.1.2
    have := fwdFilesL_err_none H sr rr (rp ++ [n]) sub [] hsubwf
      (fun m c0 es0 hm => by simp [lookupName])
    rw [hf] at this
    simp at this
  | case9 rp n sub rest ds hl ds2 a2 ds3 a3 e hf hsub ih =>
    intro hw hc
    have hsubwf : wfChildren sub = true := by
      rw [wfChildren_cons] at hw
      simp only [Bool.and_eq_true] at hw
      simpa [Tree.wfB] using hw.1.2
    have hffe : (fwdFilesL H sr rr (rp ++ [n]) sub []).2.2 = none := by
      rw [hf]
    have hcse2 : compatChildren sub ds2 = true := by
      have := fwdFilesL_compat_preserved H sr rr (rp ++ [n]) sub [] hsubwf
        (compatChildren_nil sub) hffe
      rw [hf] at this
      exact this
    have := ih hsubwf hcse2
    rw [hsub] at this
    simp at this
  | case10 rp n sub rest ds hl ds2 a2 ds3 a3 ds1 ds4 a4 e2 hrest hf hsub ih1 ih2 =>
    intro hw hc
    rw [fwdSubdirs]
    simp only [hl, hf, hsub, ds1, hrest]
    have hcrest : compatChildren rest ds1 = true := by
      rw [show ds1 = setChild ds n (Tree.dir ds3) from rfl,
        compatChildren_setChild_of_absent rest ds n _ (wf_head_lookup_none hw)]
      exact compat_tail hc
    have := ih2 (wf_tail hw) hcrest
    rw [hrest] at this
    exact this

theorem lookup_dir_cons_self (n : String) (t : Tree) (rest : List (String × Tree))
    (q : Path) : Tree.lookup (.dir ((n, t) :: rest)) (n :: q) = t.lookup q := by
  rw [lookup_dir_bind]
  simp [lookupName]

theorem lookup_dir_cons_ne {m n : String} (t : Tree) (rest : List (String × Tree))
    (q : Path) (h : m ≠ n) :
    Tree.lookup (.dir ((n, t) :: rest)) (m :: q) = Tree.lookup (.dir rest) (m :: q) := by
  rw [lookup_dir_bind, lookup_dir_bind]
  simp [lookupName, Ne.symm h]

theorem lookup_dir_of_lookupName {cs : List (String × Tree)} {m : String} {t : Tree}
    (h : lookupName cs m = some t) (q : Path) :
    Tree.lookup (.dir cs) (m :: q) = t.lookup q := by
  rw [lookup_dir_bind, h]
  rfl

theorem lookup_dir_of_lookupName_none {cs : List (String × Tree)} {m : String}
    (h : lookupName cs m = none) (q : Path) :
    Tree.lookup (.dir cs) (m :: q) = none := by
  rw [lookup_dir_bind, h]
  rfl

theorem fwdSubdirs_frame (H : HashImpl) (sr rr : Path) :
    ∀ rp scs ds, wfChildren scs = true →
      (fwdSubdirs H sr rr rp scs ds).2.2 = none →
      ∀ p, Tree.lookup (.dir scs) p = none →
        Tree.lookup (.dir (fwdSubdirs H sr rr rp scs ds).1) p
          = Tree.lookup (.dir ds) p := by
  intro rp scs ds
  induction rp, scs, ds using fwdSubdirs.induct H sr rr with
  | case1 rp ds =>
    intro _ _ p _
    rw [fwdSubdirs]
  | case2 rp n c rest ds ih =>
    intro hw he p hp
    rw [fwdSubdirs] at he ⊢
    cases p with
    | nil => simp at hp
    | cons m q =>
      refine ih (wf_tail hw) he (m :: q) ?_
      by_cases hmn : m = n
      · subst hmn
        exact lookup_dir_of_lookupName_none (wf_head_lookup_none hw) q
      · rw [← lookup_dir_cons_ne (Tree.file c) rest q hmn]
        exact hp
  | case3 rp n sub rest ds c hl hemp ih =>
    intro hw he p hp
    rw [fwdSubdirs] at he ⊢
    simp only [hl, hemp, if_true] at he ⊢
    cases p with
    | nil => simp at hp
    | cons m q =>
      refine ih (wf_tail hw) he (m :: q) ?_
      by_cases hmn : m = n
      · subst hmn
        exact lookup_dir_of_lookupName_none (wf_head_lookup_none hw) q
      · rw [← lookup_dir_cons_ne (Tree.dir sub) rest q hmn]
        exact hp
  | case4 rp n sub rest ds c hl hemp =>
    intro hw he p hp
    rw [fwdSubdirs] at he
    simp [hl, hemp] at he
  | case5 rp n sub rest ds es hl ds2 a2 e hf =>
    intro hw he p hp
    rw [fwdSubdirs] at he
    simp [hl, hf] at he
  | case6 rp n sub rest ds es hl ds2 a2 ds3 a3 e hf hsub ih =>
    intro hw he p hp
    rw [fwdSubdirs] at he
    simp [hl, hf, hsub] at he
  | case7 rp n sub rest ds es hl ds2 a2 ds3 a3 ds1 ds4 a4 e2 hrest hf hsub ih1 ih2 =>
    intro hw he p hp
    have hsubwf : wfChildren sub = true := by
      rw [wfChildren_cons] at hw
      simp only [Bool.and_eq_true] at hw
      simpa [Tree.wfB] using hw.1.2
    have he2 : e2 = none := by
      rw [fwdSubdirs] at he
      simpa only [hl, hf, hsub, ds1, hrest] using he
    rw [fwdSubdirs]
    simp only [hl, hf, hsub, ds1, hrest]
    cases p with
    | nil => simp at hp
    | cons m q =>
      by_cases hmn : m = n
      · subst hmn
        rw [lookup_dir_cons_self] at hp
        have hun : lookupName ds4 m = lookupName ds1 m := by
          have := fwdSubdirs_untouched H sr rr rp rest ds1 m
            (fun s hs => wf_head_notin hw (Tree.dir s) hs)
          rw [hrest] at this
          exact this
        rw [lookup_dir_bind, hun]
        simp only [ds1]
        rw [lookupName_setChild_self, lookup_dir_of_lookupName hl]
        simp only [Option.some_bind]
        have h1 : Tree.lookup (.dir ds3) q = Tree.lookup (.dir ds2) q := by
          have := ih1 hsubwf (by rw [hsub]) q hp
          rw [hsub] at this
          exact this
        have h2 : Tree.lookup (.dir ds2) q = Tree.lookup (.dir es) q := by
          have := fwdFilesL_frame H sr rr (rp ++ [m]) sub es hsubwf (by rw [hf]) q hp
          rw [hf] at this
          exact this
        rw [h1, h2]
      · have hrest_ab : Tree.lookup (.dir rest) (m :: q) = none := by
          rw [← lookup_dir_cons_ne (Tree.dir sub) rest q hmn]
          exact hp
        have := ih2 (wf_tail hw) (by rw [hrest, he2]) (m :: q) hrest_ab
        rw [hrest] at this
        rw [this, lookup_dir_bind, lookup_dir_bind]
        simp only [ds1]
        rw [lookupName_setChild_ne ds _ hmn]
  | case8 rp n sub rest ds hl ds2 a2 e hf =>
    intro hw he p hp
    rw [fwdSubdirs] at he
    simp [hl, hf] at he
  | case9 rp n sub rest ds hl ds2 a2 ds3 a3 e hf hsub ih =>
    intro hw he p hp
    rw [fwdSubdirs] at he
    simp [hl, hf, hsub] at he
  | case10 rp n sub rest ds hl ds2 a2 ds3 a3 ds1 ds4 a4 e2 hrest hf hsub ih1 ih2 =>
    intro hw he p hp
    have hsubwf : wfChildren sub = true := by
      rw [wfChildren_cons] at hw
      simp only [Bool.and_eq_true] at hw
      simpa [Tree.wfB] using hw.1.2
    have he2 : e2 = none := by
      rw [fwdSubdirs] at he
      simpa only [hl, hf, hsub, ds1, hrest] using he
    rw [fwdSubdirs]
    simp only [hl, hf, hsub, ds1, hrest]
    cases p with
    | nil => simp at hp
    | cons m q =>
      by_cases hmn : m = n
      · subst hmn
        rw [lookup_dir_cons_self] at hp
        have hun : lookupName ds4 m = lookupName ds1 m := by
          have := fwdSubdirs_untouched H sr rr rp rest ds1 m
            (fun s hs => wf_head_notin hw (Tree.dir s) hs)
          rw [hrest] at this
          exact this
        rw [lookup_dir_bind, hun]
        simp only [ds1]
        rw [lookupName_setChild_self, lookup_dir_of_lookupName_none hl]
        simp only [Option.some_bind]
        have h1 : Tree.lookup (.dir ds3) q = Tree.lookup (.dir ds2) q := by
          have := ih1 hsubwf (by rw [hsub]) q hp
          rw [hsub] at this
          exact this
        have h2 : Tree.lookup (.dir ds2) q
            = Tree.lookup (.dir ([] : List (String × Tree))) q := by
          have := fwdFilesL_frame H sr rr (rp ++ [m]) sub [] hsubwf (by rw [hf]) q hp
          rw [hf] at this
          exact this
        rw [h1, h2]
        cases q with
        | nil => simp at hp
        | cons m2 q2 => simp [lookup_dir_bind, lookupName]
      · have hrest_ab : Tree.lookup (.dir rest) (m :: q) = none := by
          rw [← lookup_dir_cons_ne (Tree.dir sub) rest q hmn]
          exact hp
        have := ih2 (wf_tail hw) (by rw [hrest, he2]) (m :: q) hrest_ab
        rw [hrest] at this
        rw [this, lookup_dir_bind, lookup_dir_bind]
        simp only [ds1]
        rw [lookupName_setChild_ne ds _ hmn]

theorem lookupName_of_lookup_single {cs : List (String × Tree)} {m : String}
    {t : Tree} (h : Tree.lookup (.dir cs) [m] = some t) : lookupName cs m = some t := by
  rw [lookup_dir_bind] at h
  cases hl : lookupName cs m with
  | none => rw [hl] at h; simp at h
  | some u =>
    rw [hl] at h
    simpa using h

theorem fwdSubdirs_dirs (H : HashImpl) (sr rr : Path) :
    ∀ rp scs ds, wfChildren scs = true → compatChildren scs ds = true →
      ∀ p es0, Tree.lookup (.dir scs) p = some (.dir es0) →
        ∃ es', Tree.lookup (.dir (fwdSubdirs H sr rr rp scs ds).1) p
          = some (.dir es') := by
  intro rp scs ds
  induction rp, scs, ds using fwdSubdirs.induct H sr rr with
  | case1 rp ds =>
    intro _ _ p es0 hp
    cases p with
    | nil => exact ⟨ds, by rw [fwdSubdirs]; simp⟩
    | cons m q => simp [lookup_dir_of_lookupName_none (show lookupName [] m = none by simp [lookupName]) q] at hp
  | case2 rp n c rest ds ih =>
    intro hw hc p es0 hp
    rw [fwdSubdirs]
    cases p with
    | nil => exact ⟨(fwdSubdirs H sr rr rp rest ds).1, by simp⟩
    | cons m q =>
      have hmn : m ≠ n := by
        intro h
        subst h
        rw [lookup_dir_cons_self] at hp
        cases q with
        | nil => simp at hp
        | cons f q2 => simp at hp
      rw [lookup_dir_cons_ne (Tree.file c) rest q hmn] at hp
      exact ih (wf_tail hw) (compat_tail hc) (m :: q) es0 hp
  | case3 rp n sub rest ds c hl hemp ih =>
    intro hw hc
    exact absurd hl ((compat_head_dir hc).1 c)
  | case4 rp n sub rest ds c hl hemp =>
    intro hw hc
    exact absurd hl ((compat_head_dir hc).1 c)
  | case5 rp n sub rest ds es hl ds2 a2 e hf =>
    intro hw hc
    have hsubwf : wfChildren sub = true := by
      rw [wfChildren_cons] at hw
      simp only [Bool.and_eq_true] at hw
      simpa [Tree.wfB] using hw.1.2
    have hcse : compatChildren sub es = true := (compat_head_dir hc).2 es hl
    have := fwdFilesL_err_none H sr rr (rp ++ [n]) sub es hsubwf
      (fun m c0 es0 hm => compat_file_of_lookup hcse hm es0)
    rw [hf] at this
    simp at this
  | case6 rp n sub rest ds es hl ds2 a2 ds3 a3 e hf hsub ih =>
    intro hw hc
    have hsubwf : wfChildren sub = true := by
      rw [wfChildren_cons] at hw
      simp only [Bool.and_eq_true] at hw
      simpa [Tree.wfB] using hw.1.2
    have hcse : compatChildren sub es = true := (compat_head_dir hc).2 es hl
    have hcse2 : compatChildren sub ds2 = true := by
      have := fwdFilesL_compat_preserved H sr rr (rp ++ [n]) sub es hsubwf hcse (by rw [hf])
      rw [hf] at this
      exact this
    have := fwdSubdirs_err_none H sr rr (rp ++ [n]) sub ds2 hsubwf hcse2
    rw [hsub] at this
    simp at this
  | case7 rp n sub rest ds es hl ds2 a2 ds3 a3 ds1 ds4 a4 e2 hrest hf hsub ih1 ih2 =>
    intro hw hc p es0 hp
    have hsubwf : wfChildren sub = true := by
      rw [wfChildren_cons] at hw
      simp only [Bool.and_eq_true] at hw
      simpa [Tree.wfB] using hw.1.2
    rw [fwdSubdirs]
    simp only [hl, hf, hsub, ds1, hrest]
    cases p with
    | nil => exact ⟨ds4, by simp⟩
    | cons m q =>
      by_cases hmn : m = n
      · subst hmn
        rw [lookup_dir_cons_self] at hp
        have hun : lookupName ds4 m = lookupName ds1 m := by
          have := fwdSubdirs_untouched H sr rr rp rest ds1 m
            (fun s hs => wf_head_notin hw (Tree.dir s) hs)
          rw [hrest] at this
          exact this
        rw [lookup_dir_bind, hun]
        simp only [ds1]
        rw [lookupName_setChild_self]
        simp only [Option.some_bind]
        cases q with
        | nil => exact ⟨ds3, by simp⟩
        | cons f q2 =>
          have hcse : compatChildren sub es = true := (compat_head_dir hc).2 es hl
          have hcse2 : compatChildren sub ds2 = true := by
            have := fwdFilesL_compat_preserved H sr rr (rp ++ [m]) sub es hsubwf hcse
              (by rw [hf])
            rw [hf] at this
            exact this
          have := ih1 hsubwf hcse2 (f :: q2) es0 hp
          rw [hsub] at this
          exact this
      · rw [lookup_dir_cons_ne (Tree.dir sub) rest q hmn] at hp
        have hcrest : compatChildren rest ds1 = true := by
          rw [show ds1 = setChild ds n (Tree.dir ds3) from rfl,
            compatChildren_setChild_of_absent rest ds n _ (wf_head_lookup_none hw)]
          exact compat_tail hc
        have := ih2 (wf_tail hw) hcrest (m :: q) es0 hp
        rw [hrest] at this
        exact this
  | case8 rp n sub rest ds hl ds2 a2 e hf =>
    intro hw hc
    have hsubwf : wfChildren sub = true := by
      rw [wfChildren_cons] at hw
      simp only [Bool.and_eq_true] at hw
      simpa [Tree.wfB] using hw.1.2
    have := fwdFilesL_err_none H sr rr (rp ++ [n]) sub [] hsubwf
      (fun m c0 es0 hm => by simp [lookupName])
    rw [hf] at this
    simp at this
  | case9 rp n sub rest ds hl ds2 a2 ds3 a3 e hf hsub ih =>
    intro hw hc
    have hsubwf : wfChildren sub = true := by
      rw [wfChildren_cons] at hw
      simp only [Bool.and_eq_true] at hw
      simpa [Tree.wfB] using hw.1.2
    have hcse2 : compatChildren sub ds2 = true := by
      have := fwdFilesL_compat_preserved H sr rr (rp ++ [n]) sub [] hsubwf
        (compatChildren_nil sub) (by rw [hf])
      rw [hf] at this
      exact this
    have := fwdSubdirs_err_none H sr rr (rp ++ [n]) sub ds2 hsubwf hcse2
    rw [hsub] at this
    simp at this
  | case10 rp n sub rest ds hl ds2 a2 ds3 a3 ds1 ds4 a4 e2 hrest hf hsub ih1 ih2 =>
    intro hw hc p es0 hp
    have hsubwf : wfChildren sub = true := by
      rw [wfChildren_cons] at hw
      simp only [Bool.and_eq_true] at hw
      simpa [Tree.wfB] using hw.1.2
    rw [fwdSubdirs]
    simp only [hl, hf, hsub, ds1, hrest]
    cases p with
    | nil => exact ⟨ds4, by simp⟩
    | cons m q =>
      by_cases hmn : m = n
      · subst hmn
        rw [lookup_dir_cons_self] at hp
        have hun : lookupName ds4 m = lookupName ds1 m := by
          have := fwdSubdirs_untouched H sr rr rp rest ds1 m
            (fun s hs => wf_head_notin hw (Tree.dir s) hs)
          rw [hrest] at this
          exact this
        rw [lookup_dir_bind, hun]
        simp only [ds1]
        rw [lookupName_setChild_self]
        simp only [Option.some_bind]
        cases q with
        | nil => exact ⟨ds3, by simp⟩
        | cons f q2 =>
          have hcse2 : compatChildren sub ds2 = true := by
            have := fwdFilesL_compat_preserved H sr rr (rp ++ [m]) sub [] hsubwf
              (compatChildren_nil sub) (by rw [hf])
            rw [hf] at this
            exact this
          have := ih1 hsubwf hcse2 (f :: q2) es0 hp
          rw [hsub] at this
          exact this
      · rw [lookup_dir_cons_ne (Tree.dir sub) rest q hmn] at hp
        have hcrest : compatChildren rest ds1 = true := by
          rw [show ds1 = setChild ds n (Tree.dir ds3) from rfl,
            compatChildren_setChild_of_absent rest ds n _ (wf_head_lookup_none hw)]
          exact compat_tail hc
        have := ih2 (wf_tail hw) hcrest (m :: q) es0 hp
        rw [hrest] at this
        exact this

theorem fwdSubdirs_files (H : HashImpl) (sr rr : Path) :
    ∀ rp scs ds, wfChildren scs = true →
      (fwdSubdirs H sr rr rp scs ds).2.2 = none →
      ∀ m q c, q ≠ [] → Tree.lookup (.dir scs) (m :: q) = some (.file c) →
        ∃ c', Tree.lookup (.dir (fwdSubdirs H sr rr rp scs ds).1) (m :: q)
            = some (.file c') ∧
          calculate_hash H c' = calculate_hash H c := by
  intro rp scs ds
  induction rp, scs, ds using fwdSubdirs.induct H sr rr with
  | case1 rp ds =>
    intro _ _ m q c _ hp
    simp [lookup_dir_of_lookupName_none
      (show lookupName [] m = none by simp [lookupName]) q] at hp
  | case2 rp n c0 rest ds ih =>
    intro hw he m q c hq hp
    rw [fwdSubdirs] at he ⊢
    have hmn : m ≠ n := by
      intro h
      subst h
      rw [lookup_dir_cons_self] at hp
      cases q with
      | nil => exact hq rfl
      | cons f q2 => simp at hp
    rw [lookup_dir_cons_ne (Tree.file c0) rest q hmn] at hp
    exact ih (wf_tail hw) he m q c hq hp
  | case3 rp n sub rest ds cx hl hemp ih =>
    intro hw he m q c hq hp
    rw [fwdSubdirs] at he ⊢
    simp only [hl, hemp, if_true] at he ⊢
    have hsubnil : sub = [] := by
      cases sub with
      | nil => rfl
      | cons a b => simp at hemp
    have hmn : m ≠ n := by
      intro h
      subst h
      rw [lookup_dir_cons_self, hsubnil] at hp
      cases q with
      | nil => simp at hp
      | cons f q2 =>
        rw [lookup_dir_of_lookupName_none
          (show lookupName [] f = none by simp [lookupName]) q2] at hp
        simp at hp
    rw [lookup_dir_cons_ne (Tree.dir sub) rest q hmn] at hp
    exact ih (wf_tail hw) he m q c hq hp
  | case4 rp n sub rest ds cx hl hemp =>
    intro hw he
    rw [fwdSubdirs] at he
    simp [hl, hemp] at he
  | case5 rp n sub rest ds es hl ds2 a2 e hf =>
    intro hw he
    rw [fwdSubdirs] at he
    simp [hl, hf] at he
  | case6 rp n sub rest ds es hl ds2 a2 ds3 a3 e hf hsub ih =>
    intro hw he
    rw [fwdSubdirs] at he
    simp [hl, hf, hsub] at he
  | case7 rp n sub rest ds es hl ds2 a2 ds3 a3 ds1 ds4 a4 e2 hrest hf hsub ih1 ih2 =>
    intro hw he m q c hq hp
    have hsubwf : wfChildren sub = true := by
      rw [wfChildren_cons] at hw
      simp only [Bool.and_eq_true] at hw
      simpa [Tree.wfB] using hw.1.2
    have he2 : e2 = none := by
      rw [fwdSubdirs] at he
      simpa only [hl, hf, hsub, ds1, hrest] using he
    rw [fwdSubdirs]
    simp only [hl, hf, hsub, ds1, hrest]
    by_cases hmn : m = n
    · subst hmn
      rw [lookup_dir_cons_self] at hp
      have hun : lookupName ds4 m = lookupName ds1 m := by
        have := fwdSubdirs_untouched H sr rr rp rest ds1 m
          (fun s hs => wf_head_notin hw (Tree.dir s) hs)
        rw [hrest] at this
        exact this
      rw [lookup_dir_bind, hun]
      simp only [ds1]
      rw [lookupName_setChild_self]
      simp only [Option.some_bind]
      cases q with
      | nil => exact absurd rfl hq
      | cons f q2 =>
        cases q2 with
        | nil =>
          have hlf : lookupName sub f = some (.file c) :=
            lookupName_of_lookup_single hp
          obtain ⟨c1, hc1, hh1⟩ := fwdFilesL_file_present H sr rr (rp ++ [m]) sub es
            hsubwf (by rw [hf]) f c hlf
          rw [hf] at hc1
          have hun2 : lookupName ds3 f = lookupName ds2 f := by
            have := fwdSubdirs_untouched H sr rr (rp ++ [m]) sub ds2 f ?_
            · rw [hsub] at this
              exact this
            · intro s hs
              have := lookupName_of_mem_wf hsubwf hs
              rw [hlf] at this
              exact absurd this (by simp)
          refine ⟨c1, ?_, hh1⟩
          rw [lookup_dir_bind, hun2, hc1]
          simp
        | cons f2 q3 =>
          have := ih1 hsubwf (by rw [hsub]) f (f2 :: q3) c (by simp) hp
          rw [hsub] at this
          exact this
    · rw [lookup_dir_cons_ne (Tree.dir sub) rest q hmn] at hp
      have := ih2 (wf_tail hw) (by rw [hrest, he2]) m q c hq hp
      rw [hrest] at this
      exact this
  | case8 rp n sub rest ds hl ds2 a2 e hf =>
    intro hw he
    rw [fwdSubdirs] at he
    simp [hl, hf] at he
  | case9 rp n sub rest ds hl ds2 a2 ds3 a3 e hf hsub ih =>
    intro hw he
    rw [fwdSubdirs] at he
    simp [hl, hf, hsub] at he
  | case10 rp n sub rest ds hl ds2 a2 ds3 a3 ds1 ds4 a4 e2 hrest hf hsub ih1 ih2 =>
    intro hw he m q c hq hp
    have hsubwf : wfChildren sub = true := by
      rw [wfChildren_cons] at hw
      simp only [Bool.and_eq_true] at hw
      simpa [Tree.wfB] using hw.1.2
    have he2 : e2 = none := by
      rw [fwdSubdirs] at he
      simpa only [hl, hf, hsub, ds1, hrest] using he
    rw [fwdSubdirs]
    simp only [hl, hf, hsub, ds1, hrest]
    by_cases hmn : m = n
    · subst hmn
      rw [lookup_dir_cons_self] at hp
      have hun : lookupName ds4 m = lookupName ds1 m := by
        have := fwdSubdirs_untouched H sr rr rp rest ds1 m
          (fun s hs => wf_head_notin hw (Tree.dir s) hs)
        rw [hrest] at this
        exact this
      rw [lookup_dir_bind, hun]
      simp only [ds1]
      rw [lookupName_setChild_self]
      simp only [Option.some_bind]
      cases q with
      | nil => exact absurd rfl hq
      | cons f q2 =>
        cases q2 with
        | nil =>
          have hlf : lookupName sub f = some (.file c) :=
            lookupName_of_lookup_single hp
          obtain ⟨c1, hc1, hh1⟩ := fwdFilesL_file_present H sr rr (rp ++ [m]) sub []
            hsubwf (by rw [hf]) f c hlf
          rw [hf] at hc1
          have hun2 : lookupName ds3 f = lookupName ds2 f := by
            have := fwdSubdirs_untouched H sr rr (rp ++ [m]) sub ds2 f ?_
            · rw [hsub] at this
              exact this
            · intro s hs
              have := lookupName_of_mem_wf hsubwf hs
              rw [hlf] at this
              exact absurd this (by simp)
          refine ⟨c1, ?_, hh1⟩
          rw [lookup_dir_bind, hun2, hc1]
          simp
        | cons f2 q3 =>
          have := ih1 hsubwf (by rw [hsub]) f (f2 :: q3) c (by simp) hp
          rw [hsub] at this
          exact this
    · rw [lookup_dir_cons_ne (Tree.dir sub) rest q hmn] at hp
      have := ih2 (wf_tail hw) (by rw [hrest, he2]) m q c hq hp
      rw [hrest] at this
      exact this

theorem path_reassoc (x rp : Path) (n : String) (q : Path) :
    (x ++ (rp ++ [n])) ++ q = (x ++ rp) ++ (n :: q) := by
  simp

theorem lookup_cons_lift {n : String} {t : Tree} {rest : List (String × Tree)}
    {x : String} {y : Path} {v : Tree}
    (hw : wfChildren ((n, t) :: rest) = true)
    (h : Tree.lookup (.dir rest) (x :: y) = some v) :
    Tree.lookup (.dir ((n, t) :: rest)) (x :: y) = some v := by
  have hxn : x ≠ n := by
    intro he
    subst he
    rw [lookup_dir_of_lookupName_none (wf_head_lookup_none hw) y] at h
    simp at h
  rw [lookup_dir_cons_ne t rest y hxn]
  exact h

theorem lookup_single_of_lookupName {cs : List (String × Tree)} {m : String}
    {t : Tree} (h : lookupName cs m = some t) :
    Tree.lookup (.dir cs) [m] = some t := by
  rw [lookup_dir_of_lookupName h]
  simp

theorem fwdFilesL_acts_copied (H : HashImpl) (sr rr rp : Path) :
    ∀ scs ds, ∀ a ∈ (fwdFilesL H sr rr rp scs ds).2.1, ∃ x y, a = .copiedFile x y := by
  intro scs ds
  induction scs, ds using fwdFilesL.induct H sr rr rp with
  | case1 ds => simp [fwdFilesL]
  | case2 n sub rest ds ih => simpa [fwdFilesL] using ih
  | case3 n c rest ds sub hl => simp [fwdFilesL, hl]
  | case4 n c rest ds c' hl heq ih => simpa [fwdFilesL, hl, heq] using ih
  | case5 n c rest ds c' hl hne ds2 a2 e2 hf ih =>
    intro a ha
    simp only [fwdFilesL, hl, hne, if_false, hf, List.mem_cons] at ha
    rcases ha with ha | ha
    · exact ⟨_, _, ha⟩
    · exact ih a (by rw [hf]; exact ha)
  | case6 n c rest ds hl ds2 a2 e2 hf ih =>
    intro a ha
    simp only [fwdFilesL, hl, hf, List.mem_cons] at ha
    rcases ha with ha | ha
    · exact ⟨_, _, ha⟩
    · exact ih a (by rw [hf]; exact ha)

theorem fwdSubdirs_shape (H : HashImpl) (sr rr : Path) :
    ∀ rp scs ds, wfChildren scs = true →
      ∀ a ∈ (fwdSubdirs H sr rr rp scs ds).2.1,
        (∃ n2 q2 c2,
          a = .copiedFile ((sr ++ rp) ++ (n2 :: q2)) ((rr ++ rp) ++ (n2 :: q2)) ∧
          q2 ≠ [] ∧ Tree.lookup (.dir scs) (n2 :: q2) = some (.file c2)) ∨
        (∃ p es0, a = .createdFolder ((rr ++ rp) ++ p) ∧ p ≠ [] ∧
          Tree.lookup (.dir scs) p = some (.dir es0)) := by
  intro rp scs ds
  induction rp, scs, ds using fwdSubdirs.induct H sr rr with
  | case1 rp ds => simp [fwdSubdirs]
  | case2 rp n c rest ds ih =>
    intro hw a ha
    rw [fwdSubdirs] at ha
    rcases ih (wf_tail hw) a ha with ⟨n2, q2, c2, hact, hq2, hlk⟩ | ⟨p, es0, hact, hp, hlk⟩
    · exact Or.inl ⟨n2, q2, c2, hact, hq2, lookup_cons_lift hw hlk⟩
    · cases p with
      | nil => exact absurd rfl hp
      | cons x y =>
        exact Or.inr ⟨x :: y, es0, hact, hp, lookup_cons_lift hw hlk⟩
  | case3 rp n sub rest ds c hl hemp ih =>
    intro hw a ha
    rw [fwdSubdirs] at ha
    simp only [hl, hemp, if_true] at ha
    rcases ih (wf_tail hw) a ha with ⟨n2, q2, c2, hact, hq2, hlk⟩ | ⟨p, es0, hact, hp, hlk⟩
    · exact Or.inl ⟨n2, q2, c2, hact, hq2, lookup_cons_lift hw hlk⟩
    · cases p with
      | nil => exact absurd rfl hp
      | cons x y =>
        exact Or.inr ⟨x :: y, es0, hact, hp, lookup_cons_lift hw hlk⟩
  | case4 rp n sub rest ds c hl hemp =>
    intro hw a ha
    rw [fwdSubdirs] at ha
    simp [hl, hemp] at ha
  | case5 rp n sub rest ds es hl ds2 a2 e hf =>
    intro hw a ha
    rw [fwdSubdirs] at ha
    simp only [hl, hf] at ha
    obtain ⟨m, c, hact, hm⟩ := fwdFilesL_shape H sr rr (rp ++ [n]) sub es
      (by rw [wfChildren_cons] at hw
          simp only [Bool.and_eq_true] at hw
          simpa [Tree.wfB] using hw.1.2) a (by rw [hf]; exact ha)
    refine Or.inl ⟨n, [m], c, ?_, by simp, ?_⟩
    · rw [hact, path_reassoc, path_reassoc]
    · rw [lookup_dir_cons_self]
      exact lookup_single_of_lookupName hm
  | case6 rp n sub rest ds es hl ds2 a2 ds3 a3 e hf hsub ih =>
    intro hw a ha
    have hsubwf : wfChildren sub = true := by
      rw [wfChildren_cons] at hw
      simp only [Bool.and_eq_true] at hw
      simpa [Tree.wfB] using hw.1.2
    rw [fwdSubdirs] at ha
    simp only [hl, hf, hsub, List.mem_append] at ha
    rcases ha with ha | ha
    · obtain ⟨m, c, hact, hm⟩ := fwdFilesL_shape H sr rr (rp ++ [n]) sub es hsubwf a
        (by rw [hf]; exact ha)
      refine Or.inl ⟨n, [m], c, ?_, by simp, ?_⟩
      · rw [hact, path_reassoc, path_reassoc]
      · rw [lookup_dir_cons_self]
        exact lookup_single_of_lookupName hm
    · rcases ih hsubwf a (by rw [hsub]; exact ha) with
        ⟨n2, q2, c2, hact, hq2, hlk⟩ | ⟨p, es0, hact, hp, hlk⟩
      · refine Or.inl ⟨n, n2 :: q2, c2, ?_, by simp, ?_⟩
        · rw [hact, path_reassoc, path_reassoc]
        · rw [lookup_dir_cons_self]
          exact hlk
      · refine Or.inr ⟨n :: p, es0, ?_, by simp, ?_⟩
        · rw [hact, path_reassoc]
        · rw [lookup_dir_cons_self]
          cases p with
          | nil => exact absurd rfl hp
          | cons x y => exact hlk
  | case7 rp n sub rest ds es hl ds2 a2 ds3 a3 ds1 ds4 a4 e2 hrest hf hsub ih1 ih2 =>
    intro hw a ha
    have hsubwf : wfChildren sub = true := by
      rw [wfChildren_cons] at hw
      simp only [Bool.and_eq_true] at hw
      simpa [Tree.wfB] using hw.1.2
    rw [fwdSubdirs] at ha
    simp only [hl, hf, hsub, ds1, hrest, List.mem_append] at ha
    rcases ha with (ha | ha) | ha
    · obtain ⟨m, c, hact, hm⟩ := fwdFilesL_shape H sr rr (rp ++ [n]) sub es hsubwf a
        (by rw [hf]; exact ha)
      refine Or.inl ⟨n, [m], c, ?_, by simp, ?_⟩
      · rw [hact, path_reassoc, path_reassoc]
      · rw [lookup_dir_cons_self]
        exact lookup_single_of_lookupName hm
    · rcases ih1 hsubwf a (by rw [hsub]; exact ha) with
        ⟨n2, q2, c2, hact, hq2, hlk⟩ | ⟨p, es0, hact, hp, hlk⟩
      · refine Or.inl ⟨n, n2 :: q2, c2, ?_, by simp, ?_⟩
        · rw [hact, path_reassoc, path_reassoc]
        · rw [lookup_dir_cons_self]
          exact hlk
      · refine Or.inr ⟨n :: p, es0, ?_, by simp, ?_⟩
        · rw [hact, path_reassoc]
        · rw [lookup_dir_cons_self]
          cases p with
          | nil => exact absurd rfl hp
          | cons x y => exact hlk
    · rcases ih2 (wf_tail hw) a (by rw [hrest]; exact ha) with
        ⟨n2, q2, c2, hact, hq2, hlk⟩ | ⟨p, es0, hact, hp, hlk⟩
      · exact Or.inl ⟨n2, q2, c2, hact, hq2, lookup_cons_lift hw hlk⟩
      · cases p with
        | nil => exact absurd rfl hp
        | cons x y =>
          exact Or.inr ⟨x :: y, es0, hact, hp, lookup_cons_lift hw hlk⟩
  | case8 rp n sub rest ds hl ds2 a2 e hf =>
    intro hw a ha
    have hsubwf : wfChildren sub = true := by
      rw [wfChildren_cons] at hw
      simp only [Bool.and_eq_true] at hw
      simpa [Tree.wfB] using hw.1.2
    rw [fwdSubdirs] at ha
    simp only [hl, hf, List.mem_cons] at ha
    rcases ha with ha | ha
    · refine Or.inr ⟨[n], sub, ?_, by simp, ?_⟩
      · rw [ha]
      · rw [lookup_dir_cons_self]
        simp
    · obtain ⟨m, c, hact, hm⟩ := fwdFilesL_shape H sr rr (rp ++ [n]) sub [] hsubwf a
        (by rw [hf]; exact ha)
      refine Or.inl ⟨n, [m], c, ?_, by simp, ?_⟩
      · rw [hact, path_reassoc, path_reassoc]
      · rw [lookup_dir_cons_self]
        exact lookup_single_of_lookupName hm
  | case9 rp n sub rest ds hl ds2 a2 ds3 a3 e hf hsub ih =>
    intro hw a ha
    have hsubwf : wfChildren sub = true := by
      rw [wfChildren_cons] at hw
      simp only [Bool.and_eq_true] at hw
      simpa [Tree.wfB] using hw.1.2
    rw [fwdSubdirs] at ha
    simp only [hl, hf, hsub, List.mem_cons, List.mem_append] at ha
    rcases ha with ha | ha | ha
    · refine Or.inr ⟨[n], sub, ?_, by simp, ?_⟩
      · rw [ha]
      · rw [lookup_dir_cons_self]
        simp
    · obtain ⟨m, c, hact, hm⟩ := fwdFilesL_shape H sr rr (rp ++ [n]) sub [] hsubwf a
        (by rw [hf]; exact ha)
      refine Or.inl ⟨n, [m], c, ?_, by simp, ?_⟩
      · rw [hact, path_reassoc, path_reassoc]
      · rw [lookup_dir_cons_self]
        exact lookup_single_of_lookupName hm
    · rcases ih hsubwf a (by rw [hsub]; exact ha) with
        ⟨n2, q2, c2, hact, hq2, hlk⟩ | ⟨p, es0, hact, hp, hlk⟩
      · refine Or.inl ⟨n, n2 :: q2, c2, ?_, by simp, ?_⟩
        · rw [hact, path_reassoc, path_reassoc]
        · rw [lookup_dir_cons_self]
          exact hlk
      · refine Or.inr ⟨n :: p, es0, ?_, by simp, ?_⟩
        · rw [hact, path_reassoc]
        · rw [lookup_dir_cons_self]
          cases p with
          | nil => exact absurd rfl hp
          | cons x y => exact hlk
  | case10 rp n sub rest ds hl ds2 a2 ds3 a3 ds1 ds4 a4 e2 hrest hf hsub ih1 ih2 =>
    intro hw a ha
    have hsubwf : wfChildren sub = true := by
      rw [wfChildren_cons] at hw
      simp only [Bool.and_eq_true] at hw
      simpa [Tree.wfB] using hw.1.2
    rw [fwdSubdirs] at ha
    simp only [hl, hf, hsub, ds1, hrest, List.mem_cons, List.mem_append] at ha
    rcases ha with ha | (ha | ha) | ha
    · refine Or.inr ⟨[n], sub, ?_, by simp, ?_⟩
      · rw [ha]
      · rw [lookup_dir_cons_self]
        simp
    · obtain ⟨m, c, hact, hm⟩ := fwdFilesL_shape H sr rr (rp ++ [n]) sub [] hsubwf a
        (by rw [hf]; exact ha)
      refine Or.inl ⟨n, [m], c, ?_, by simp, ?_⟩
      · rw [hact, path_reassoc, path_reassoc]
      · rw [lookup_dir_cons_self]
        exact lookup_single_of_lookupName hm
    · rcases ih1 hsubwf a (by rw [hsub]; exact ha) with
        ⟨n2, q2, c2, hact, hq2, hlk⟩ | ⟨p, es0, hact, hp, hlk⟩
      · refine Or.inl ⟨n, n2 :: q2, c2, ?_, by simp, ?_⟩
        · rw [hact, path_reassoc, path_reassoc]
        · rw [lookup_dir_cons_self]
          exact hlk
      · refine Or.inr ⟨n :: p, es0, ?_, by simp, ?_⟩
        · rw [hact, path_reassoc]
        · rw [lookup_dir_cons_self]
          cases p with
          | nil => exact absurd rfl hp
          | cons x y => exact hlk
    · rcases ih2 (wf_tail hw) a (by rw [hrest]; exact ha) with
        ⟨n2, q2, c2, hact, hq2, hlk⟩ | ⟨p, es0, hact, hp, hlk⟩
      · exact Or.inl ⟨n2, q2, c2, hact, hq2, lookup_cons_lift hw hlk⟩
      · cases p with
        | nil => exact absurd rfl hp
        | cons x y =>
          exact Or.inr ⟨x :: y, es0, hact, hp, lookup_cons_lift hw hlk⟩

theorem createdFolder_inj {x p q : Path}
    (h : Action.createdFolder (x ++ p) = Action.createdFolder (x ++ q)) : p = q := by
  injection h with h
  exact List.append_cancel_left h

theorem copiedFile_inj {x y p q : Path}
    (h : Action.copiedFile (x ++ p) (y ++ p) = Action.copiedFile (x ++ q) (y ++ q)) :
    p = q := by
  injection h with h1 h2
  exact List.append_cancel_left h1

theorem count_created_zero_of_copied {L : List Action}
    (h : ∀ a ∈ L, ∃ x y, a = Action.copiedFile x y) (z : Path) :
    List.count (Action.createdFolder z) L = 0 := by
  refine List.count_eq_zero.mpr ?_
  intro hmem
  obtain ⟨x, y, hxy⟩ := h _ hmem
  simp at hxy

theorem count_copied_zero_of_created {L : List Action}
    (h : ∀ a ∈ L, ∃ x, a = Action.createdFolder x) (z w : Path) :
    List.count (Action.copiedFile z w) L = 0 := by
  refine List.count_eq_zero.mpr ?_
  intro hmem
  obtain ⟨x, hx⟩ := h _ hmem
  simp at hx

theorem fwdSubdirs_count_created (H : HashImpl) (sr rr : Path) :
    ∀ rp scs ds, wfChildren scs = true →
      (fwdSubdirs H sr rr rp scs ds).2.2 = none →
      ∀ p es0, p ≠ [] → Tree.lookup (.dir scs) p = some (.dir es0) →
        List.count (Action.createdFolder ((rr ++ rp) ++ p))
            (fwdSubdirs H sr rr rp scs ds).2.1
          = if (Tree.lookup (.dir ds) p).isSome then 0 else 1 := by
  intro rp scs ds
  induction rp, scs, ds using fwdSubdirs.induct H sr rr with
  | case1 rp ds =>
    intro _ _ p es0 hp hlk
    cases p with
    | nil => exact absurd rfl hp
    | cons x y =>
      rw [lookup_dir_of_lookupName_none
        (show lookupName [] x = none by simp [lookupName]) y] at hlk
      simp at hlk
  | case2 rp n c rest ds ih =>
    intro hw he p es0 hp hlk
    rw [fwdSubdirs] at he ⊢
    cases p with
    | nil => exact absurd rfl hp
    | cons x y =>
      have hxn : x ≠ n := by
        intro hh
        subst hh
        rw [lookup_dir_cons_self] at hlk
        cases y with
        | nil => simp at hlk
        | cons f y2 => simp at hlk
      rw [lookup_dir_cons_ne (Tree.file c) rest y hxn] at hlk
      exact ih (wf_tail hw) he (x :: y) es0 hp hlk
  | case3 rp n sub rest ds c hl hemp ih =>
    intro hw he p es0 hp hlk
    have hsubnil : sub = [] := by
      cases sub with
      | nil => rfl
      | cons a b => simp at hemp
    rw [fwdSubdirs] at he ⊢
    simp only [hl, hemp, if_true] at he ⊢
    cases p with
    | nil => exact absurd rfl hp
    | cons x y =>
      by_cases hxn : x = n
      · subst hxn
        rw [lookup_dir_cons_self, hsubnil] at hlk
        cases y with
        | nil =>
          rw [show Tree.lookup (.dir ds) [x] = some (Tree.file c) from
            lookup_single_of_lookupName hl]
          simp only [Option.isSome_some, if_true]
          refine List.count_eq_zero.mpr ?_
          intro hmem
          rcases fwdSubdirs_shape H sr rr rp rest ds (wf_tail hw) _ hmem with
            ⟨n2, q2, c2, hact, _, _⟩ | ⟨p', es', hact, hp', hlk'⟩
          · simp at hact
          · have := createdFolder_inj hact.symm
            subst this
            rw [lookup_dir_of_lookupName_none (wf_head_lookup_none hw) []] at hlk'
            simp at hlk'
        | cons f y2 =>
          rw [lookup_dir_of_lookupName_none
            (show lookupName [] f = none by simp [lookupName]) y2] at hlk
          simp at hlk
      · rw [lookup_dir_cons_ne (Tree.dir sub) rest y hxn] at hlk
        exact ih (wf_tail hw) he (x :: y) es0 hp hlk
  | case4 rp n sub rest ds c hl hemp =>
    intro hw he
    rw [fwdSubdirs] at he
    simp [hl, hemp] at he
  | case5 rp n sub rest ds es hl ds2 a2 e hf =>
    intro hw he
    rw [fwdSubdirs] at he
    simp [hl, hf] at he
  | case6 rp n sub rest ds es hl ds2 a2 ds3 a3 e hf hsub ih =>
    intro hw he
    rw [fwdSubdirs] at he
    simp [hl, hf, hsub] at he
  | case7 rp n sub rest ds es hl ds2 a2 ds3 a3 ds1 ds4 a4 e2 hrest hf hsub ih1 ih2 =>
    intro hw he p es0 hp hlk
    have hsubwf : wfChildren sub = true := by
      rw [wfChildren_cons] at hw
      simp only [Bool.and_eq_true] at hw
      simpa [Tree.wfB] using hw.1.2
    have he2 : e2 = none := by
      rw [fwdSubdirs] at he
      simpa only [hl, hf, hsub, ds1, hrest] using he
    have hffz : List.count (Action.createdFolder ((rr ++ rp) ++ p)) a2 = 0 := by
      refine count_created_zero_of_copied ?_ _
      intro a ha
      exact fwdFilesL_acts_copied H sr rr (rp ++ [n]) sub es a (by rw [hf]; exact ha)
    rw [fwdSubdirs]
    simp only [hl, hf, hsub, ds1, hrest, List.count_append]
    rw [hffz]
    cases p with
    | nil => exact absurd rfl hp
    | cons x y =>
      by_cases hxn : x = n
      · subst hxn
        rw [lookup_dir_cons_self] at hlk
        have hrz : List.count (Action.createdFolder ((rr ++ rp) ++ x :: y)) a4 = 0 := by
          refine List.count_eq_zero.mpr ?_
          intro hmem
          rcases fwdSubdirs_shape H sr rr rp rest ds1 (wf_tail hw) _
            (by rw [hrest]; exact hmem) with
            ⟨n2, q2, c2, hact, _, _⟩ | ⟨p', es', hact, hp', hlk'⟩
          · simp at hact
          · have := createdFolder_inj hact.symm
            subst this
            rw [lookup_dir_of_lookupName_none (wf_head_lookup_none hw) y] at hlk'
            simp at hlk'
        rw [hrz]
        cases y with
        | nil =>
          rw [show Tree.lookup (.dir ds) [x] = some (Tree.dir es) from
            lookup_single_of_lookupName hl]
          simp only [Option.isSome_some, if_true]
          have hinz : List.count (Action.createdFolder ((rr ++ rp) ++ [x])) a3 = 0 := by
            refine List.count_eq_zero.mpr ?_
            intro hmem
            rcases fwdSubdirs_shape H sr rr (rp ++ [x]) sub ds2 hsubwf _
              (by rw [hsub]; exact hmem) with
              ⟨n2, q2, c2, hact, _, _⟩ | ⟨p', es', hact, hp', hlk'⟩
            · simp at hact
            · rw [path_reassoc] at hact
              have h2 := createdFolder_inj hact
              injection h2 with h3 h4
              exact hp' h4.symm
          rw [hinz]
        | cons f y2 =>
          have hfd : ∀ cf, (f, Tree.file cf) ∉ sub := by
            intro cf hmem
            have := lookupName_of_mem_wf hsubwf hmem
            rw [lookup_dir_bind, this] at hlk
            cases y2 with
            | nil => simp at hlk
            | cons g y3 => simp at hlk
          have huntouched := fwdFilesL_untouched H sr rr (rp ++ [x]) sub es f hfd
          rw [hf] at huntouched
          have hds2 : Tree.lookup (.dir ds2) (f :: y2) = Tree.lookup (.dir es) (f :: y2) := by
            rw [lookup_dir_bind, lookup_dir_bind, huntouched]
          have hin := ih1 hsubwf (by rw [hsub]) (f :: y2) es0 (by simp) hlk
          rw [hsub, path_reassoc, hds2] at hin
          rw [hin, lookup_dir_of_lookupName hl]
          simp
      · have hinz : List.count (Action.createdFolder ((rr ++ rp) ++ x :: y)) a3 = 0 := by
          refine List.count_eq_zero.mpr ?_
          intro hmem
          rcases fwdSubdirs_shape H sr rr (rp ++ [n]) sub ds2 hsubwf _
            (by rw [hsub]; exact hmem) with
            ⟨n2, q2, c2, hact, _, _⟩ | ⟨p', es', hact, hp', hlk'⟩
          · simp at hact
          · rw [path_reassoc] at hact
            have h2 := createdFolder_inj hact
            injection h2 with h3 h4
            exact hxn h3
        rw [hinz]
        rw [lookup_dir_cons_ne (Tree.dir sub) rest y hxn] at hlk
        have hih2 := ih2 (wf_tail hw) (by rw [hrest, he2]) (x :: y) es0 hp hlk
        rw [hrest] at hih2
        rw [hih2]
        have hds1lk : Tree.lookup (.dir ds1) (x :: y) = Tree.lookup (.dir ds) (x :: y) := by
          rw [lookup_dir_bind, lookup_dir_bind]
          simp only [ds1]
          rw [lookupName_setChild_ne ds _ hxn]
        rw [hds1lk]
        simp
  | case8 rp n sub rest ds hl ds2 a2 e hf =>
    intro hw he
    rw [fwdSubdirs] at he
    simp [hl, hf] at he
  | case9 rp n sub rest ds hl ds2 a2 ds3 a3 e hf hsub ih =>
    intro hw he
    rw [fwdSubdirs] at he
    simp [hl, hf, hsub] at he
  | case10 rp n sub rest ds hl ds2 a2 ds3 a3 ds1 ds4 a4 e2 hrest hf hsub ih1 ih2 =>
    intro hw he p es0 hp hlk
    have hsubwf : wfChildren sub = true := by
      rw [wfChildren_cons] at hw
      simp only [Bool.and_eq_true] at hw
      simpa [Tree.wfB] using hw.1.2
    have he2 : e2 = none := by
      rw [fwdSubdirs] at he
      simpa only [hl, hf, hsub, ds1, hrest] using he
    have hffz : ∀ z : Path, List.count (Action.createdFolder z) a2 = 0 := by
      intro z
      refine count_created_zero_of_copied ?_ _
      intro a ha
      exact fwdFilesL_acts_copied H sr rr (rp ++ [n]) sub [] a (by rw [hf]; exact ha)
    rw [fwdSubdirs]
    simp only [hl, hf, hsub, ds1, hrest]
    cases p with
    | nil => exact absurd rfl hp
    | cons x y =>
      rw [List.count_cons, List.count_append, List.count_append, hffz]
      by_cases hxn : x = n
      · subst hxn
        rw [lookup_dir_cons_self] at hlk
        have hrz : List.count (Action.createdFolder ((rr ++ rp) ++ x :: y)) a4 = 0 := by
          refine List.count_eq_zero.mpr ?_
          intro hmem
          rcases fwdSubdirs_shape H sr rr rp rest ds1 (wf_tail hw) _
            (by rw [hrest]; exact hmem) with
            ⟨n2, q2, c2, hact, _, _⟩ | ⟨p', es', hact, hp', hlk'⟩
          · simp at hact
          · have := createdFolder_inj hact.symm
            subst this
            rw [lookup_dir_of_lookupName_none (wf_head_lookup_none hw) y] at hlk'
            simp at hlk'
        rw [hrz]
        rw [lookup_dir_of_lookupName_none hl y]
        simp only [Option.isSome_none, Bool.false_eq_true, if_false]
        cases y with
        | nil =>
          have hinz : List.count (Action.createdFolder ((rr ++ rp) ++ [x])) a3 = 0 := by
            refine List.count_eq_zero.mpr ?_
            intro hmem
            rcases fwdSubdirs_shape H sr rr (rp ++ [x]) sub ds2 hsubwf _
              (by rw [hsub]; exact hmem) with
              ⟨n2, q2, c2, hact, _, _⟩ | ⟨p', es', hact, hp', hlk'⟩
            · simp at hact
            · rw [path_reassoc] at hact
              have h2 := createdFolder_inj hact
              injection h2 with h3 h4
              exact hp' h4.symm
          rw [hinz]
          simp
        | cons f y2 =>
          have hfd : lookupName ds2 f = lookupName ([] : List (String × Tree)) f := by
            have := fwdFilesL_untouched H sr rr (rp ++ [x]) sub [] f ?_
            · rw [hf] at this
              exact this
            · intro cf hmem
              have := lookupName_of_mem_wf hsubwf hmem
              rw [lookup_dir_bind, this] at hlk
              cases y2 with
              | nil => simp at hlk
              | cons g y3 => simp at hlk
          have hds2 : Tree.lookup (.dir ds2) (f :: y2) = none := by
            rw [lookup_dir_bind, hfd]
            simp [lookupName]
          have hin := ih1 hsubwf (by rw [hsub]) (f :: y2) es0 (by simp) hlk
          rw [hsub, path_reassoc, hds2] at hin
          rw [hin]
          have hhead : Action.createdFolder ((rr ++ rp) ++ x :: f :: y2)
              ≠ Action.createdFolder (rr ++ rp ++ [x]) := by
            intro hcon
            have := createdFolder_inj hcon
            simp at this
          simp [hhead]
      · have hinz : List.count (Action.createdFolder ((rr ++ rp) ++ x :: y)) a3 = 0 := by
          refine List.count_eq_zero.mpr ?_
          intro hmem
          rcases fwdSubdirs_shape H sr rr (rp ++ [n]) sub ds2 hsubwf _
            (by rw [hsub]; exact hmem) with
            ⟨n2, q2, c2, hact, _, _⟩ | ⟨p', es', hact, hp', hlk'⟩
          · simp at hact
          · rw [path_reassoc] at hact
            have h2 := createdFolder_inj hact
            injection h2 with h3 h4
            exact hxn h3
        rw [hinz]
        rw [lookup_dir_cons_ne (Tree.dir sub) rest y hxn] at hlk
        have hih2 := ih2 (wf_tail hw) (by rw [hrest, he2]) (x :: y) es0 hp hlk
        rw [hrest] at hih2
        rw [hih2]
        have hds1 : Tree.lookup (.dir ds1) (x :: y) = Tree.lookup (.dir ds) (x :: y) := by
          rw [lookup_dir_bind, lookup_dir_bind]
          simp only [ds1]
          rw [lookupName_setChild_ne ds _ hxn]
        rw [hds1]
        have hhead : Action.createdFolder ((rr ++ rp) ++ x :: y)
            ≠ Action.createdFolder (rr ++ rp ++ [n]) := by
          intro hcon
          have := createdFolder_inj hcon
          injection this with h1 h2
          exact hxn h1
        simp [hhead]
        intro h
        exact absurd h.symm hxn

theorem lookup_single (cs : List (String × Tree)) (f : String) :
    Tree.lookup (.dir cs) [f] = lookupName cs f := by
  rw [lookup_dir_bind]
  cases lookupName cs f <;> simp

theorem fwdSubdirs_count_copy (H : HashImpl) (sr rr : Path) :
    ∀ rp scs ds, wfChildren scs = true →
      (fwdSubdirs H sr rr rp scs ds).2.2 = none →
      ∀ x y c, y ≠ [] → Tree.lookup (.dir scs) (x :: y) = some (.file c) →
        List.count
            (Action.copiedFile ((sr ++ rp) ++ x :: y) ((rr ++ rp) ++ x :: y))
            (fwdSubdirs H sr rr rp scs ds).2.1
          = if needCopyB H c (Tree.lookup (.dir ds) (x :: y)) then 1 else 0 := by
  intro rp scs ds
  induction rp, scs, ds using fwdSubdirs.induct H sr rr with
  | case1 rp ds =>
    intro _ _ x y c _ hlk
    rw [lookup_dir_of_lookupName_none
      (show lookupName [] x = none by simp [lookupName]) y] at hlk
    simp at hlk
  | case2 rp n c0 rest ds ih =>
    intro hw he x y c hy hlk
    rw [fwdSubdirs] at he ⊢
    have hxn : x ≠ n := by
      intro hh
      subst hh
      rw [lookup_dir_cons_self] at hlk
      cases y with
      | nil => exact hy rfl
      | cons f y2 => simp at hlk
    rw [lookup_dir_cons_ne (Tree.file c0) rest y hxn] at hlk
    exact ih (wf_tail hw) he x y c hy hlk
  | case3 rp n sub rest ds c0 hl hemp ih =>
    intro hw he x y c hy hlk
    have hsubnil : sub = [] := by
      cases sub with
      | nil => rfl
      | cons a b => simp at hemp
    rw [fwdSubdirs] at he ⊢
    simp only [hl, hemp, if_true] at he ⊢
    have hxn : x ≠ n := by
      intro hh
      subst hh
      rw [lookup_dir_cons_self, hsubnil] at hlk
      cases y with
      | nil => exact hy rfl
      | cons f y2 =>
        rw [lookup_dir_of_lookupName_none
          (show lookupName [] f = none by simp [lookupName]) y2] at hlk
        simp at hlk
    rw [lookup_dir_cons_ne (Tree.dir sub) rest y hxn] at hlk
    exact ih (wf_tail hw) he x y c hy hlk
  | case4 rp n sub rest ds c0 hl hemp =>
    intro hw he
    rw [fwdSubdirs] at he
    simp [hl, hemp] at he
  | case5 rp n sub rest ds es hl ds2 a2 e hf =>
    intro hw he
    rw [fwdSubdirs] at he
    simp [hl, hf] at he
  | case6 rp n sub rest ds es hl ds2 a2 ds3 a3 e hf hsub ih =>
    intro hw he
    rw [fwdSubdirs] at he
    simp [hl, hf, hsub] at he
  | case7 rp n sub rest ds es hl ds2 a2 ds3 a3 ds1 ds4 a4 e2 hrest hf hsub ih1 ih2 =>
    intro hw he x y c hy hlk
    have hsubwf : wfChildren sub = true := by
      rw [wfChildren_cons] at hw
      simp only [Bool.and_eq_true] at hw
      simpa [Tree.wfB] using hw.1.2
    have he2 : e2 = none := by
      rw [fwdSubdirs] at he
      simpa only [hl, hf, hsub, ds1, hrest] using he
    rw [fwdSubdirs]
    simp only [hl, hf, hsub, ds1, hrest, List.count_append]
    by_cases hxn : x = n
    · subst hxn
      rw [lookup_dir_cons_self] at hlk
      have hrz : List.count
          (Action.copiedFile ((sr ++ rp) ++ x :: y) ((rr ++ rp) ++ x :: y)) a4 = 0 := by
        refine List.count_eq_zero.mpr ?_
        intro hmem
        rcases fwdSubdirs_shape H sr rr rp rest ds1 (wf_tail hw) _
          (by rw [hrest]; exact hmem) with
          ⟨n2, q2, c2, hact, hq2, hlk'⟩ | ⟨p', es', hact, _, _⟩
        · have h2 := copiedFile_inj hact
          rw [← h2] at hlk'
          rw [lookup_dir_of_lookupName_none (wf_head_lookup_none hw) y] at hlk'
          simp at hlk'
        · simp at hact
      rw [hrz]
      cases y with
      | nil => exact absurd rfl hy
      | cons f y2 =>
        cases y2 with
        | nil =>
          have hlf : lookupName sub f = some (.file c) := by
            rw [← lookup_single]
            exact hlk
          have hffc := fwdFilesL_count H sr rr (rp ++ [x]) sub es hsubwf
            (by rw [hf]) f c hlf
          simp only [hf] at hffc
          rw [path_reassoc, path_reassoc] at hffc
          rw [hffc]
          have hinz : List.count
              (Action.copiedFile ((sr ++ rp) ++ [x, f]) ((rr ++ rp) ++ [x, f])) a3
              = 0 := by
            refine List.count_eq_zero.mpr ?_
            intro hmem
            rcases fwdSubdirs_shape H sr rr (rp ++ [x]) sub ds2 hsubwf _
              (by rw [hsub]; exact hmem) with
              ⟨n2, q2, c2, hact, hq2, hlk'⟩ | ⟨p', es', hact, _, _⟩
            · rw [path_reassoc, path_reassoc] at hact
              have h2 := copiedFile_inj hact
              injection h2 with h3 h4
              injection h4 with h5 h6
              exact hq2 h6.symm
            · simp at hact
          rw [hinz]
          rw [lookup_dir_of_lookupName hl, lookup_single]
          simp
        | cons f2 y3 =>
          have hffz : List.count
              (Action.copiedFile ((sr ++ rp) ++ x :: f :: f2 :: y3)
                ((rr ++ rp) ++ x :: f :: f2 :: y3)) a2 = 0 := by
            refine List.count_eq_zero.mpr ?_
            intro hmem
            obtain ⟨m, cm, hact, _⟩ := fwdFilesL_shape H sr rr (rp ++ [x]) sub es
              hsubwf _ (by rw [hf]; exact hmem)
            rw [path_reassoc, path_reassoc] at hact
            have h2 := copiedFile_inj hact
            injection h2 with h3 h4
            simp at h4
          rw [hffz]
          have hfdir : ∀ cf, (f, Tree.file cf) ∉ sub := by
            intro cf hmem
            have := lookupName_of_mem_wf hsubwf hmem
            rw [lookup_dir_bind, this] at hlk
            simp at hlk
          have huntouched := fwdFilesL_untouched H sr rr (rp ++ [x]) sub es f hfdir
          rw [hf] at huntouched
          have hds2 : Tree.lookup (.dir ds2) (f :: f2 :: y3)
              = Tree.lookup (.dir es) (f :: f2 :: y3) := by
            rw [lookup_dir_bind, lookup_dir_bind, huntouched]
          have hin := ih1 hsubwf (by rw [hsub]) f (f2 :: y3) c (by simp) hlk
          simp only [hsub] at hin
          rw [path_reassoc, path_reassoc, hds2] at hin
          rw [hin, lookup_dir_of_lookupName hl]
          simp
    · have hffz : List.count
          (Action.copiedFile ((sr ++ rp) ++ x :: y) ((rr ++ rp) ++ x :: y)) a2
          = 0 := by
        refine List.count_eq_zero.mpr ?_
        intro hmem
        obtain ⟨m, cm, hact, _⟩ := fwdFilesL_shape H sr rr (rp ++ [n]) sub es
          hsubwf _ (by rw [hf]; exact hmem)
        rw [path_reassoc, path_reassoc] at hact
        have h2 := copiedFile_inj hact
        injection h2 with h3 h4
        exact hxn h3
      have hinz : List.count
          (Action.copiedFile ((sr ++ rp) ++ x :: y) ((rr ++ rp) ++ x :: y)) a3
          = 0 := by
        refine List.count_eq_zero.mpr ?_
        intro hmem
        rcases fwdSubdirs_shape H sr rr (rp ++ [n]) sub ds2 hsubwf _
          (by rw [hsub]; exact hmem) with
          ⟨n2, q2, c2, hact, hq2, hlk'⟩ | ⟨p', es', hact, _, _⟩
        · rw [path_reassoc, path_reassoc] at hact
          have h2 := copiedFile_inj hact
          injection h2 with h3 h4
          exact hxn h3
        · simp at hact
      rw [hffz, hinz]
      rw [lookup_dir_cons_ne (Tree.dir sub) rest y hxn] at hlk
      have hih2 := ih2 (wf_tail hw) (by rw [hrest, he2]) x y c hy hlk
      rw [hrest] at hih2
      rw [hih2]
      have hds1 : Tree.lookup (.dir ds1) (x :: y) = Tree.lookup (.dir ds) (x :: y) := by
        rw [lookup_dir_bind, lookup_dir_bind]
        simp only [ds1]
        rw [lookupName_setChild_ne ds _ hxn]
      rw [hds1]
      simp
  | case8 rp n sub rest ds hl ds2 a2 e hf =>
    intro hw he
    rw [fwdSubdirs] at he
    simp [hl, hf] at he
  | case9 rp n sub rest ds hl ds2 a2 ds3 a3 e hf hsub ih =>
    intro hw he
    rw [fwdSubdirs] at he
    simp [hl, hf, hsub] at he
  | case10 rp n sub rest ds hl ds2 a2 ds3 a3 ds1 ds4 a4 e2 hrest hf hsub ih1 ih2 =>
    intro hw he x y c hy hlk
    have hsubwf : wfChildren sub = true := by
      rw [wfChildren_cons] at hw
      simp only [Bool.and_eq_true] at hw
      simpa [Tree.wfB] using hw.1.2
    have he2 : e2 = none := by
      rw [fwdSubdirs] at he
      simpa only [hl, hf, hsub, ds1, hrest] using he
    rw [fwdSubdirs]
    simp only [hl, hf, hsub, ds1, hrest]
    rw [List.count_cons, List.count_append, List.count_append]
    have hheadne :
        (Action.copiedFile ((sr ++ rp) ++ x :: y) ((rr ++ rp) ++ x :: y)
          = Action.createdFolder (rr ++ rp ++ [n])) = False := by
      simp
    by_cases hxn : x = n
    · subst hxn
      rw [lookup_dir_cons_self] at hlk
      have hrz : List.count
          (Action.copiedFile ((sr ++ rp) ++ x :: y) ((rr ++ rp) ++ x :: y)) a4 = 0 := by
        refine List.count_eq_zero.mpr ?_
        intro hmem
        rcases fwdSubdirs_shape H sr rr rp rest ds1 (wf_tail hw) _
          (by rw [hrest]; exact hmem) with
          ⟨n2, q2, c2, hact, hq2, hlk'⟩ | ⟨p', es', hact, _, _⟩
        · have h2 := copiedFile_inj hact
          rw [← h2] at hlk'
          rw [lookup_dir_of_lookupName_none (wf_head_lookup_none hw) y] at hlk'
          simp at hlk'
        · simp at hact
      rw [hrz]
      rw [lookup_dir_of_lookupName_none hl y]
      cases y with
      | nil => exact absurd rfl hy
      | cons f y2 =>
        cases y2 with
        | nil =>
          have hlf : lookupName sub f = some (.file c) := by
            rw [← lookup_single]
            exact hlk
          have hffc := fwdFilesL_count H sr rr (rp ++ [x]) sub [] hsubwf
            (by rw [hf]) f c hlf
          simp only [hf] at hffc
          rw [path_reassoc, path_reassoc] at hffc
          rw [hffc]
          have hinz : List.count
              (Action.copiedFile ((sr ++ rp) ++ [x, f]) ((rr ++ rp) ++ [x, f])) a3
              = 0 := by
            refine List.count_eq_zero.mpr ?_
            intro hmem
            rcases fwdSubdirs_shape H sr rr (rp ++ [x]) sub ds2 hsubwf _
              (by rw [hsub]; exact hmem) with
              ⟨n2, q2, c2, hact, hq2, hlk'⟩ | ⟨p', es', hact, _, _⟩
            · rw [path_reassoc, path_reassoc] at hact
              have h2 := copiedFile_inj hact
              injection h2 with h3 h4
              injection h4 with h5 h6
              exact hq2 h6.symm
            · simp at hact
          rw [hinz]
          simp [needCopyB, lookupName]
        | cons f2 y3 =>
          have hffz : List.count
              (Action.copiedFile ((sr ++ rp) ++ x :: f :: f2 :: y3)
                ((rr ++ rp) ++ x :: f :: f2 :: y3)) a2 = 0 := by
            refine List.count_eq_zero.mpr ?_
            intro hmem
            obtain ⟨m, cm, hact, _⟩ := fwdFilesL_shape H sr rr (rp ++ [x]) sub []
              hsubwf _ (by rw [hf]; exact hmem)
            rw [path_reassoc, path_reassoc] at hact
            have h2 := copiedFile_inj hact
            injection h2 with h3 h4
            simp at h4
          rw [hffz]
          have hfdir : ∀ cf, (f, Tree.file cf) ∉ sub := by
            intro cf hmem
            have := lookupName_of_mem_wf hsubwf hmem
            rw [lookup_dir_bind, this] at hlk
            simp at hlk
          have huntouched := fwdFilesL_untouched H sr rr (rp ++ [x]) sub [] f hfdir
          rw [hf] at huntouched
          have hds2 : Tree.lookup (.dir ds2) (f :: f2 :: y3) = none := by
            rw [lookup_dir_bind, huntouched]
            simp [lookupName]
          have hin := ih1 hsubwf (by rw [hsub]) f (f2 :: y3) c (by simp) hlk
          simp only [hsub] at hin
          rw [path_reassoc, path_reassoc, hds2] at hin
          rw [hin]
          simp [needCopyB]
    · have hffz : List.count
          (Action.copiedFile ((sr ++ rp) ++ x :: y) ((rr ++ rp) ++ x :: y)) a2
          = 0 := by
        refine List.count_eq_zero.mpr ?_
        intro hmem
        obtain ⟨m, cm, hact, _⟩ := fwdFilesL_shape H sr rr (rp ++ [n]) sub []
          hsubwf _ (by rw [hf]; exact hmem)
        rw [path_reassoc, path_reassoc] at hact
        have h2 := copiedFile_inj hact
        injection h2 with h3 h4
        exact hxn h3
      have hinz : List.count
          (Action.copiedFile ((sr ++ rp) ++ x :: y) ((rr ++ rp) ++ x :: y)) a3
          = 0 := by
        refine List.count_eq_zero.mpr ?_
        intro hmem
        rcases fwdSubdirs_shape H sr rr (rp ++ [n]) sub ds2 hsubwf _
          (by rw [hsub]; exact hmem) with
          ⟨n2, q2, c2, hact, hq2, hlk'⟩ | ⟨p', es', hact, _, _⟩
        · rw [path_reassoc, path_reassoc] at hact
          have h2 := copiedFile_inj hact
          injection h2 with h3 h4
          exact hxn h3
        · simp at hact
      rw [hffz, hinz]
      rw [lookup_dir_cons_ne (Tree.dir sub) rest y hxn] at hlk
      have hih2 := ih2 (wf_tail hw) (by rw [hrest, he2]) x y c hy hlk
      rw [hrest] at hih2
      rw [hih2]
      have hds1 : Tree.lookup (.dir ds1) (x :: y) = Tree.lookup (.dir ds) (x :: y) := by
        rw [lookup_dir_bind, lookup_dir_bind]
        simp only [ds1]
        rw [lookupName_setChild_ne ds _ hxn]
      rw [hds1]
      simp

/-!  ## Reverse-pass characterization -/

/-- Number of removal log lines naming a given absolute path. -/
def removedCount (x : Path) (L : List Action) : Nat :=
  List.count (Action.removedFile x) L + List.count (Action.removedFolder x) L

theorem removedCount_append (x : Path) (L1 L2 : List Action) :
    removedCount x (L1 ++ L2) = removedCount x L1 + removedCount x L2 := by
  simp [removedCount]
  omega

theorem removedFile_inj {x p q : Path}
    (h : Action.removedFile (x ++ p) = Action.removedFile (x ++ q)) : p = q := by
  injection h with h
  exact List.append_cancel_left h

theorem removedFolder_inj {x p q : Path}
    (h : Action.removedFolder (x ++ p) = Action.removedFolder (x ++ q)) : p = q := by
  injection h with h
  exact List.append_cancel_left h

theorem revFileActs_paths (src : Option Tree) (rr rp : Path) :
    ∀ cs, ∀ a ∈ revFileActs src rr rp cs,
      ∃ m, a = Action.removedFile ((rr ++ rp) ++ [m]) := by
  intro cs
  induction cs with
  | nil => simp [revFileActs]
  | cons hd rest ih =>
    obtain ⟨m, t⟩ := hd
    cases t with
    | file c =>
      by_cases h : existsAt src (rp ++ [m]) = true
      · simpa [revFileActs, h] using ih
      · simp only [Bool.not_eq_true] at h
        intro a ha
        simp only [revFileActs, h, Bool.false_eq_true, if_false, List.mem_cons] at ha
        rcases ha with ha | ha
        · exact ⟨m, ha⟩
        · exact ih a ha
    | dir ds => simpa [revFileActs] using ih

theorem revDirActs_paths (src : Option Tree) (rr rp : Path) :
    ∀ cs, ∀ a ∈ revDirActs src rr rp cs,
      ∃ m, a = Action.removedFolder ((rr ++ rp) ++ [m]) := by
  intro cs
  induction cs with
  | nil => simp [revDirActs]
  | cons hd rest ih =>
    obtain ⟨m, t⟩ := hd
    cases t with
    | file c => simpa [revDirActs] using ih
    | dir ds =>
      by_cases h : existsAt src (rp ++ [m]) = true
      · simpa [revDirActs, h] using ih
      · simp only [Bool.not_eq_true] at h
        intro a ha
        simp only [revDirActs, h, Bool.false_eq_true, if_false, List.mem_cons] at ha
        rcases ha with ha | ha
        · exact ⟨m, ha⟩
        · exact ih a ha

theorem revFileActs_count (src : Option Tree) (rr rp : Path) :
    ∀ cs, wfChildren cs = true → ∀ n,
      removedCount ((rr ++ rp) ++ [n]) (revFileActs src rr rp cs)
        = (match lookupName cs n with
           | some (.file _) => if existsAt src (rp ++ [n]) then 0 else 1
           | _ => 0) := by
  intro cs
  induction cs with
  | nil =>
    intro _ n
    simp [revFileActs, removedCount, lookupName]
  | cons hd rest ih =>
    intro hw n
    obtain ⟨m, t⟩ := hd
    cases t with
    | file c =>
      by_cases hex : existsAt src (rp ++ [m]) = true
      · rw [show revFileActs src rr rp ((m, Tree.file c) :: rest)
            = revFileActs src rr rp rest by simp [revFileActs, hex]]
        by_cases hnm : n = m
        · subst hnm
          rw [ih (wf_tail hw) n]
          rw [wf_head_lookup_none hw]
          simp [lookupName, hex]
        · rw [ih (wf_tail hw) n]
          simp [lookupName, Ne.symm hnm]
      · simp only [Bool.not_eq_true] at hex
        rw [show revFileActs src rr rp ((m, Tree.file c) :: rest)
            = Action.removedFile ((rr ++ rp) ++ [m]) :: revFileActs src rr rp rest by
          simp [revFileActs, hex]]
        by_cases hnm : n = m
        · subst hnm
          have hz := ih (wf_tail hw) n
          rw [wf_head_lookup_none hw] at hz
          simp only [removedCount] at hz
          have hz0 : List.count (Action.removedFile ((rr ++ rp) ++ [n]))
                (revFileActs src rr rp rest)
              + List.count (Action.removedFolder ((rr ++ rp) ++ [n]))
                (revFileActs src rr rp rest) = 0 := hz
          rw [removedCount, List.count_cons_self, List.count_cons_of_ne (by simp)]
          simp only [lookupName, if_true, hex, Bool.false_eq_true, if_false]
          omega
        · rw [removedCount,
            List.count_cons_of_ne (fun h => hnm (by simpa using removedFile_inj h)),
            List.count_cons_of_ne (by simp)]
          have := ih (wf_tail hw) n
          rw [removedCount] at this
          rw [this]
          simp [lookupName, Ne.symm hnm]
    | dir ds =>
      rw [show revFileActs src rr rp ((m, Tree.dir ds) :: rest)
          = revFileActs src rr rp rest by simp [revFileActs]]
      by_cases hnm : n = m
      · subst hnm
        rw [ih (wf_tail hw) n, wf_head_lookup_none hw]
        simp [lookupName]
      · rw [ih (wf_tail hw) n]
        simp [lookupName, Ne.symm hnm]

theorem revDirActs_count (src : Option Tree) (rr rp : Path) :
    ∀ cs, wfChildren cs = true → ∀ n,
      removedCount ((rr ++ rp) ++ [n]) (revDirActs src rr rp cs)
        = (match lookupName cs n with
           | some (.dir _) => if existsAt src (rp ++ [n]) then 0 else 1
           | _ => 0) := by
  intro cs
  induction cs with
  | nil =>
    intro _ n
    simp [revDirActs, removedCount, lookupName]
  | cons hd rest ih =>
    intro hw n
    obtain ⟨m, t⟩ := hd
    cases t with
    | dir ds =>
      by_cases hex : existsAt src (rp ++ [m]) = true
      · rw [show revDirActs src rr rp ((m, Tree.dir ds) :: rest)
            = revDirActs src rr rp rest by simp [revDirActs, hex]]
        by_cases hnm : n = m
        · subst hnm
          rw [ih (wf_tail hw) n]
          rw [wf_head_lookup_none hw]
          simp [lookupName, hex]
        · rw [ih (wf_tail hw) n]
          simp [lookupName, Ne.symm hnm]
      · simp only [Bool.not_eq_true] at hex
        rw [show revDirActs src rr rp ((m, Tree.dir ds) :: rest)
            = Action.removedFolder ((rr ++ rp) ++ [m]) :: revDirActs src rr rp rest by
          simp [revDirActs, hex]]
        by_cases hnm : n = m
        · subst hnm
          have hz := ih (wf_tail hw) n
          rw [wf_head_lookup_none hw] at hz
          simp only [removedCount] at hz
          have hz0 : List.count (Action.removedFile ((rr ++ rp) ++ [n]))
                (revDirActs src rr rp rest)
              + List.count (Action.removedFolder ((rr ++ rp) ++ [n]))
                (revDirActs src rr rp rest) = 0 := hz
          rw [removedCount, List.count_cons_of_ne (by simp), List.count_cons_self]
          simp only [lookupName, if_true, hex, Bool.false_eq_true, if_false]
          omega
        · rw [removedCount,
            List.count_cons_of_ne (by simp),
            List.count_cons_of_ne (fun h => hnm (by simpa using removedFolder_inj h))]
          have := ih (wf_tail hw) n
          rw [removedCount] at this
          rw [this]
          simp [lookupName, Ne.symm hnm]
    | file c =>
      rw [show revDirActs src rr rp ((m, Tree.file c) :: rest)
          = revDirActs src rr rp rest by simp [revDirActs]]
      by_cases hnm : n = m
      · subst hnm
        rw [ih (wf_tail hw) n, wf_head_lookup_none hw]
        simp [lookupName]
      · rw [ih (wf_tail hw) n]
        simp [lookupName, Ne.symm hnm]

theorem revDeep_paths (src : Option Tree) (rr : Path) :
    ∀ rp cs, ∀ a ∈ revDeep src rr rp cs,
      ∃ m q, q ≠ [] ∧
        (a = Action.removedFile ((rr ++ rp) ++ (m :: q)) ∨
          a = Action.removedFolder ((rr ++ rp) ++ (m :: q))) := by
  intro rp cs
  induction rp, cs using revDeep.induct src rr with
  | case1 rp => simp [revDeep]
  | case2 rp n c rest ih => simpa [revDeep] using ih
  | case3 rp n ds rest ih1 ih2 =>
    intro a ha
    simp only [revDeep, List.mem_append] at ha
    rcases ha with ((ha | ha) | ha) | ha
    · obtain ⟨m, q, hq, hform⟩ := ih1 a ha
      refine ⟨n, m :: q, by simp, ?_⟩
      rcases hform with hform | hform
      · exact Or.inl (by rw [hform, path_reassoc])
      · exact Or.inr (by rw [hform, path_reassoc])
    · obtain ⟨m, hform⟩ := revFileActs_paths src rr (rp ++ [n]) ds a ha
      exact ⟨n, [m], by simp, Or.inl (by rw [hform, path_reassoc])⟩
    · obtain ⟨m, hform⟩ := revDirActs_paths src rr (rp ++ [n]) ds a ha
      exact ⟨n, [m], by simp, Or.inr (by rw [hform, path_reassoc])⟩
    · exact ih2 a ha

theorem revDeep_count_single (src : Option Tree) (rr rp : Path)
    (cs : List (String × Tree)) (n : String) :
    removedCount ((rr ++ rp) ++ [n]) (revDeep src rr rp cs) = 0 := by
  rw [removedCount]
  rw [List.count_eq_zero.mpr ?_, List.count_eq_zero.mpr ?_]
  case _ =>
    intro hmem
    obtain ⟨m, q, hq, hform⟩ := revDeep_paths src rr rp cs _ hmem
    rcases hform with hform | hform <;> simp at hform <;> exact hq hform.2
  case _ =>
    intro hmem
    obtain ⟨m, q, hq, hform⟩ := revDeep_paths src rr rp cs _ hmem
    rcases hform with hform | hform <;> simp at hform <;> exact hq hform.2

theorem revDeep_count (src : Option Tree) (rr : Path) :
    ∀ rp cs, wfChildren cs = true → ∀ x q, q ≠ [] →
      removedCount ((rr ++ rp) ++ (x :: q)) (revDeep src rr rp cs)
        = if (Tree.lookup (.dir cs) (x :: q)).isSome
            && !(existsAt src (rp ++ (x :: q))) then 1 else 0 := by
  intro rp cs
  induction rp, cs using revDeep.induct src rr with
  | case1 rp =>
    intro _ x q _
    rw [lookup_dir_of_lookupName_none (show lookupName [] x = none by simp [lookupName]) q]
    simp [revDeep, removedCount]
  | case2 rp n c rest ih =>
    intro hw x q hq
    rw [show revDeep src rr rp ((n, Tree.file c) :: rest) = revDeep src rr rp rest
      by simp [revDeep]]
    by_cases hxn : x = n
    · subst hxn
      rw [ih (wf_tail hw) x q hq]
      rw [lookup_dir_of_lookupName_none (wf_head_lookup_none hw) q,
        lookup_dir_cons_self]
      cases q with
      | nil => exact absurd rfl hq
      | cons f q2 => simp
    · rw [ih (wf_tail hw) x q hq, lookup_dir_cons_ne (Tree.file c) rest q hxn]
  | case3 rp n ds rest ih1 ih2 =>
    intro hw x q hq
    have hdswf : wfChildren ds = true := by
      rw [wfChildren_cons] at hw
      simp only [Bool.and_eq_true] at hw
      simpa [Tree.wfB] using hw.1.2
    rw [show revDeep src rr rp ((n, Tree.dir ds) :: rest)
        = (revDeep src rr (rp ++ [n]) ds ++ revFileActs src rr (rp ++ [n]) ds ++
            revDirActs src rr (rp ++ [n]) ds) ++ revDeep src rr rp rest
      by simp [revDeep]]
    rw [removedCount_append, removedCount_append, removedCount_append]
    by_cases hxn : x = n
    · subst hxn
      have hrest : removedCount ((rr ++ rp) ++ (x :: q)) (revDeep src rr rp rest) = 0 := by
        rw [ih2 (wf_tail hw) x q hq,
          lookup_dir_of_lookupName_none (wf_head_lookup_none hw) q]
        simp
      rw [hrest, lookup_dir_cons_self]
      cases q with
      | nil => exact absurd rfl hq
      | cons f q2 =>
        cases q2 with
        | nil =>
          have hds : removedCount ((rr ++ rp) ++ [x, f])
              (revDeep src rr (rp ++ [x]) ds) = 0 := by
            have := revDeep_count_single src rr (rp ++ [x]) ds f
            rw [path_reassoc] at this
            exact this
          have hfa := revFileActs_count src rr (rp ++ [x]) ds hdswf f
          have hda := revDirActs_count src rr (rp ++ [x]) ds hdswf f
          rw [path_reassoc] at hfa hda
          rw [hds, hfa, hda, lookup_single]
          have hassoc : rp ++ [x, f] = (rp ++ [x]) ++ [f] := by simp
          rw [hassoc]
          cases hlf : lookupName ds f with
          | none => simp
          | some t =>
            cases t with
            | file c => cases existsAt src ((rp ++ [x]) ++ [f]) <;> simp
            | dir es => cases existsAt src ((rp ++ [x]) ++ [f]) <;> simp
        | cons f2 q3 =>
          have hfz : removedCount ((rr ++ rp) ++ x :: f :: f2 :: q3)
              (revFileActs src rr (rp ++ [x]) ds) = 0 := by
            rw [removedCount]
            rw [List.count_eq_zero.mpr ?_, List.count_eq_zero.mpr ?_]
            case _ =>
              intro hmem
              obtain ⟨m, hform⟩ := revFileActs_paths src rr (rp ++ [x]) ds _ hmem
              simp at hform
            case _ =>
              intro hmem
              obtain ⟨m, hform⟩ := revFileActs_paths src rr (rp ++ [x]) ds _ hmem
              simp at hform
          have hdz : removedCount ((rr ++ rp) ++ x :: f :: f2 :: q3)
              (revDirActs src rr (rp ++ [x]) ds) = 0 := by
            rw [removedCount]
            rw [List.count_eq_zero.mpr ?_, List.count_eq_zero.mpr ?_]
            case _ =>
              intro hmem
              obtain ⟨m, hform⟩ := revDirActs_paths src rr (rp ++ [x]) ds _ hmem
              simp at hform
            case _ =>
              intro hmem
              obtain ⟨m, hform⟩ := revDirActs_paths src rr (rp ++ [x]) ds _ hmem
              simp at hform
          have hdeep := ih1 hdswf f (f2 :: q3) (by simp)
          rw [path_reassoc] at hdeep
          rw [hfz, hdz, hdeep]
          have hassoc : rp ++ x :: f :: f2 :: q3 = (rp ++ [x]) ++ (f :: f2 :: q3) := by
            simp
          rw [hassoc]
          simp
    · have hchz : ∀ L, (∀ a ∈ L, ∃ qq, a.writePath = rr ++ ((rp ++ [n]) ++ qq)) →
          (∀ a ∈ L, isRemoval a = true) →
          removedCount ((rr ++ rp) ++ (x :: q)) L = 0 := by
        intro L hpaths hrem
        rw [removedCount]
        rw [List.count_eq_zero.mpr ?_, List.count_eq_zero.mpr ?_]
        case _ =>
          intro hmem
          obtain ⟨qq, hqq⟩ := hpaths _ hmem
          simp only [Action.writePath] at hqq
          rw [show rr ++ ((rp ++ [n]) ++ qq) = (rr ++ rp) ++ (n :: qq) by simp] at hqq
          have := List.append_cancel_left hqq
          injection this with h1 h2
          exact hxn h1
        case _ =>
          intro hmem
          obtain ⟨qq, hqq⟩ := hpaths _ hmem
          simp only [Action.writePath] at hqq
          rw [show rr ++ ((rp ++ [n]) ++ qq) = (rr ++ rp) ++ (n :: qq) by simp] at hqq
          have := List.append_cancel_left hqq
          injection this with h1 h2
          exact hxn h1
      rw [hchz _ (revDeep_writes src rr (rp ++ [n]) ds) (revDeep_removals src rr (rp ++ [n]) ds),
        hchz _ (revFileActs_writes src rr (rp ++ [n]) ds) (revFileActs_removals src rr (rp ++ [n]) ds),
        hchz _ (revDirActs_writes src rr (rp ++ [n]) ds) (revDirActs_removals src rr (rp ++ [n]) ds),
        ih2 (wf_tail hw) x q hq, lookup_dir_cons_ne (Tree.dir ds) rest q hxn]
      simp

theorem revActs_count (src : Option Tree) (rr rp : Path)
    (cs : List (String × Tree)) (hw : wfChildren cs = true) (p : Path) (hp : p ≠ []) :
    removedCount ((rr ++ rp) ++ p) (revActs src rr rp cs)
      = if (Tree.lookup (.dir cs) p).isSome && !(existsAt src (rp ++ p))
          then 1 else 0 := by
  rw [revActs, removedCount_append, removedCount_append]
  cases p with
  | nil => exact absurd rfl hp
  | cons x q =>
    cases q with
    | nil =>
      rw [revDeep_count_single src rr rp cs x,
        revFileActs_count src rr rp cs hw x,
        revDirActs_count src rr rp cs hw x, lookup_single]
      cases hlx : lookupName cs x with
      | none => simp
      | some t =>
        cases t with
        | file c => cases existsAt src (rp ++ [x]) <;> simp
        | dir es => cases existsAt src (rp ++ [x]) <;> simp
    | cons f q2 =>
      have hfz : removedCount ((rr ++ rp) ++ x :: f :: q2)
          (revFileActs src rr rp cs) = 0 := by
        rw [removedCount]
        rw [List.count_eq_zero.mpr ?_, List.count_eq_zero.mpr ?_]
        case _ =>
          intro hmem
          obtain ⟨m, hform⟩ := revFileActs_paths src rr rp cs _ hmem
          simp at hform
        case _ =>
          intro hmem
          obtain ⟨m, hform⟩ := revFileActs_paths src rr rp cs _ hmem
          simp at hform
      have hdz : removedCount ((rr ++ rp) ++ x :: f :: q2)
          (revDirActs src rr rp cs) = 0 := by
        rw [removedCount]
        rw [List.count_eq_zero.mpr ?_, List.count_eq_zero.mpr ?_]
        case _ =>
          intro hmem
          obtain ⟨m, hform⟩ := revDirActs_paths src rr rp cs _ hmem
          simp at hform
        case _ =>
          intro hmem
          obtain ⟨m, hform⟩ := revDirActs_paths src rr rp cs _ hmem
          simp at hform
      rw [hfz, hdz, revDeep_count src rr rp cs hw x (f :: q2) (by simp)]
      simp

/-- Every nonempty initial segment of the relative path `p` below `rp`
exists in the source.  The removal pass keeps an entry exactly when this
holds of its relative path, since an entry survives iff it and all its
ancestors have source counterparts. -/
def keptB (src : Option Tree) : Path → Path → Bool
  | _, [] => true
  | rp, n :: q => existsAt src (rp ++ [n]) && keptB src (rp ++ [n]) q

/-- What the removal pass leaves of a kept subtree rooted at relative
path `rp`. -/
def pruneT (src : Option Tree) (rp : Path) : Tree → Tree
  | .file c => .file c
  | .dir cs => .dir (revKeep src rp cs)

theorem keptB_cons (src : Option Tree) (rp : Path) (n : String) (q : Path) :
    keptB src rp (n :: q)
      = (existsAt src (rp ++ [n]) && keptB src (rp ++ [n]) q) := by
  simp [keptB]

theorem revKeep_lookup (src : Option Tree) :
    ∀ rp cs, wfChildren cs = true → ∀ n q,
      Tree.lookup (.dir (revKeep src rp cs)) (n :: q)
        = (if keptB src rp (n :: q)
           then (Tree.lookup (.dir cs) (n :: q)).map (pruneT src (rp ++ (n :: q)))
           else none) := by
  intro rp cs
  induction rp, cs using revKeep.induct src with
  | case1 rp =>
    intro _ n q
    rw [show revKeep src rp [] = [] by simp [revKeep]]
    rw [lookup_dir_of_lookupName_none (show lookupName [] n = none by simp [lookupName]) q]
    cases keptB src rp (n :: q) <;> simp
  | case2 rp m c rest hex ih =>
    intro hw n q
    rw [show revKeep src rp ((m, Tree.file c) :: rest)
        = (m, Tree.file c) :: revKeep src rp rest by simp [revKeep, hex]]
    by_cases hnm : n = m
    · subst hnm
      rw [lookup_dir_cons_self, lookup_dir_cons_self, keptB_cons, hex, Bool.true_and]
      cases q with
      | nil => simp [Tree.lookup, keptB, pruneT]
      | cons f q2 =>
        cases hk : keptB src (rp ++ [n]) (f :: q2) <;> simp [Tree.lookup]
    · rw [lookup_dir_cons_ne (Tree.file c) (revKeep src rp rest) q hnm,
        lookup_dir_cons_ne (Tree.file c) rest q hnm]
      exact ih (wf_tail hw) n q
  | case3 rp m c rest hnex ih =>
    intro hw n q
    have hex : existsAt src (rp ++ [m]) = false := by simpa using hnex
    rw [show revKeep src rp ((m, Tree.file c) :: rest)
        = revKeep src rp rest by simp [revKeep, hex]]
    by_cases hnm : n = m
    · subst hnm
      have hk : keptB src rp (n :: q) = false := by
        rw [keptB_cons, hex, Bool.false_and]
      rw [ih (wf_tail hw) n q, hk]
      simp
    · rw [lookup_dir_cons_ne (Tree.file c) rest q hnm]
      exact ih (wf_tail hw) n q
  | case4 rp m ds rest hex ih1 ih2 =>
    intro hw n q
    have hdswf : wfChildren ds = true := by
      rw [wfChildren_cons] at hw
      simp only [Bool.and_eq_true] at hw
      simpa [Tree.wfB] using hw.1.2
    rw [show revKeep src rp ((m, Tree.dir ds) :: rest)
        = (m, Tree.dir (revKeep src (rp ++ [m]) ds)) :: revKeep src rp rest
      by simp [revKeep, hex]]
    by_cases hnm : n = m
    · subst hnm
      rw [lookup_dir_cons_self, lookup_dir_cons_self, keptB_cons, hex, Bool.true_and]
      cases q with
      | nil => simp [Tree.lookup, keptB, pruneT]
      | cons f q2 =>
        rw [ih1 hdswf f q2]
        rw [show (rp ++ [n]) ++ (f :: q2) = rp ++ (n :: f :: q2) by simp]
    · rw [lookup_dir_cons_ne (Tree.dir (revKeep src (rp ++ [m]) ds))
          (revKeep src rp rest) q hnm,
        lookup_dir_cons_ne (Tree.dir ds) rest q hnm]
      exact ih2 (wf_tail hw) n q
  | case5 rp m ds rest hnex ih =>
    intro hw n q
    have hex : existsAt src (rp ++ [m]) = false := by simpa using hnex
    rw [show revKeep src rp ((m, Tree.dir ds) :: rest)
        = revKeep src rp rest by simp [revKeep, hex]]
    by_cases hnm : n = m
    · subst hnm
      have hk : keptB src rp (n :: q) = false := by
        rw [keptB_cons, hex, Bool.false_and]
      rw [ih (wf_tail hw) n q, hk]
      simp
    · rw [lookup_dir_cons_ne (Tree.dir ds) rest q hnm]
      exact ih (wf_tail hw) n q

theorem existsAt_of_keptB (src : Option Tree) :
    ∀ q rp n, keptB src rp (n :: q) = true → existsAt src (rp ++ (n :: q)) = true := by
  intro q
  induction q with
  | nil =>
    intro rp n h
    rw [keptB_cons, Bool.and_eq_true] at h
    exact h.1
  | cons f q2 ih =>
    intro rp n h
    rw [keptB_cons, Bool.and_eq_true] at h
    have := ih (rp ++ [n]) f h.2
    rw [show (rp ++ [n]) ++ (f :: q2) = rp ++ (n :: f :: q2) by simp] at this
    exact this

theorem keptB_of_existsAt (src : Option Tree) :
    ∀ q rp n, existsAt src (rp ++ (n :: q)) = true → keptB src rp (n :: q) = true := by
  intro q
  induction q with
  | nil =>
    intro rp n h
    rw [keptB_cons, h]
    simp [keptB]
  | cons f q2 ih =>
    intro rp n h
    have h' : existsAt src ((rp ++ [n]) ++ (f :: q2)) = true := by
      rw [show (rp ++ [n]) ++ (f :: q2) = rp ++ (n :: f :: q2) by simp]
      exact h
    rw [keptB_cons, existsAt_of_append h', ih (rp ++ [n]) f h']
    rfl

theorem revKeep_lookup_none (src : Option Tree) (rp : Path)
    (cs : List (String × Tree)) (hw : wfChildren cs = true) (n : String)
    (q : Path) (hk : existsAt src (rp ++ (n :: q)) = false) :
    Tree.lookup (.dir (revKeep src rp cs)) (n :: q) = none := by
  rw [revKeep_lookup src rp cs hw n q]
  have hkb : keptB src rp (n :: q) = false := by
    cases hkb : keptB src rp (n :: q) with
    | false => rfl
    | true => rw [existsAt_of_keptB src q rp n hkb] at hk; exact absurd hk (by simp)
  rw [hkb]
  simp

theorem revKeep_file (src : Option Tree) (rp : Path) (cs : List (String × Tree))
    (hw : wfChildren cs = true) (n : String) (q : Path) (c : Content)
    (hsrc : existsAt src (rp ++ (n :: q)) = true)
    (hc : Tree.lookup (.dir cs) (n :: q) = some (.file c)) :
    Tree.lookup (.dir (revKeep src rp cs)) (n :: q) = some (.file c) := by
  rw [revKeep_lookup src rp cs hw n q, keptB_of_existsAt src q rp n hsrc, hc]
  simp [pruneT]

theorem revKeep_isSome (src : Option Tree) (rp : Path) (cs : List (String × Tree))
    (hw : wfChildren cs = true) (n : String) (q : Path) :
    (Tree.lookup (.dir (revKeep src rp cs)) (n :: q)).isSome
      = (keptB src rp (n :: q) && (Tree.lookup (.dir cs) (n :: q)).isSome) := by
  rw [revKeep_lookup src rp cs hw n q]
  cases keptB src rp (n :: q) with
  | false => simp
  | true => cases h : Tree.lookup (.dir cs) (n :: q) <;> simp

theorem fwdFilesL_deep (H : HashImpl) (sr rr rp : Path) :
    ∀ scs ds, wfChildren scs = true →
      (fwdFilesL H sr rr rp scs ds).2.2 = none →
      ∀ x y, y ≠ [] →
        Tree.lookup (.dir (fwdFilesL H sr rr rp scs ds).1) (x :: y)
          = Tree.lookup (.dir ds) (x :: y) := by
  intro scs ds
  induction scs, ds using fwdFilesL.induct H sr rr rp with
  | case1 ds =>
    intro _ _ x y _
    rw [fwdFilesL]
  | case2 n sub rest ds ih =>
    intro hw he x y hy
    rw [fwdFilesL] at he ⊢
    exact ih (wf_tail hw) he x y hy
  | case3 n c rest ds sub hl =>
    intro hw he x y hy
    rw [fwdFilesL] at he
    simp [hl] at he
  | case4 n c rest ds c' hl heq ih =>
    intro hw he x y hy
    rw [fwdFilesL] at he ⊢
    simp only [hl, heq, if_true] at he ⊢
    exact ih (wf_tail hw) he x y hy
  | case5 n c rest ds c' hl hne ds2 a2 e2 hf ih =>
    intro hw he x y hy
    rw [fwdFilesL] at he ⊢
    simp only [hl, hne, if_false, hf] at he ⊢
    have he2 : e2 = none := by simpa using he
    have hthis := ih (wf_tail hw) (by rw [hf, he2]) x y hy
    rw [hf] at hthis
    have hthis2 : Tree.lookup (Tree.dir ds2) (x :: y)
        = Tree.lookup (Tree.dir (setChild ds n (Tree.file c))) (x :: y) := hthis
    show Tree.lookup (Tree.dir ds2) (x :: y) = Tree.lookup (Tree.dir ds) (x :: y)
    rw [hthis2, lookup_dir_bind, lookup_dir_bind]
    by_cases hxn : x = n
    · subst hxn
      rw [lookupName_setChild_self, hl]
      cases y with
      | nil => exact absurd rfl hy
      | cons f y2 => rfl
    · rw [lookupName_setChild_ne ds (Tree.file c) hxn]
  | case6 n c rest ds hl ds2 a2 e2 hf ih =>
    intro hw he x y hy
    rw [fwdFilesL] at he ⊢
    simp only [hl, hf] at he ⊢
    have he2 : e2 = none := by simpa using he
    have hthis := ih (wf_tail hw) (by rw [hf, he2]) x y hy
    rw [hf] at hthis
    have hthis2 : Tree.lookup (Tree.dir ds2) (x :: y)
        = Tree.lookup (Tree.dir (setChild ds n (Tree.file c))) (x :: y) := hthis
    show Tree.lookup (Tree.dir ds2) (x :: y) = Tree.lookup (Tree.dir ds) (x :: y)
    rw [hthis2, lookup_dir_bind, lookup_dir_bind]
    by_cases hxn : x = n
    · subst hxn
      rw [lookupName_setChild_self, hl]
      cases y with
      | nil => exact absurd rfl hy
      | cons f y2 => rfl
    · rw [lookupName_setChild_ne ds (Tree.file c) hxn]

theorem fwdFilesL_noop (H : HashImpl) (sr rr rp : Path) :
    ∀ scs ds, wfChildren scs = true →
      (∀ m c, lookupName scs m = some (.file c) →
        ∃ c', lookupName ds m = some (.file c') ∧
          calculate_hash H c' = calculate_hash H c) →
      fwdFilesL H sr rr rp scs ds = (ds, [], none) := by
  intro scs ds
  induction scs, ds using fwdFilesL.induct H sr rr rp with
  | case1 ds =>
    intro _ _
    rw [fwdFilesL]
  | case2 n sub rest ds ih =>
    intro hw hcov
    rw [fwdFilesL]
    refine ih (wf_tail hw) ?_
    intro m c hm
    have hmn : m ≠ n := by
      intro h
      subst h
      exact absurd hm (by simp [wf_head_lookup_none hw])
    exact hcov m c (by simp [lookupName, Ne.symm hmn, hm])
  | case3 n c rest ds sub hl =>
    intro hw hcov
    obtain ⟨c', hc', _⟩ := hcov n c (by simp [lookupName])
    rw [hl] at hc'
    exact absurd hc' (by simp)
  | case4 n c rest ds c' hl heq ih =>
    intro hw hcov
    rw [fwdFilesL]
    simp only [hl, heq, if_true]
    refine ih (wf_tail hw) ?_
    intro m c0 hm
    have hmn : m ≠ n := by
      intro h
      subst h
      exact absurd hm (by simp [wf_head_lookup_none hw])
    exact hcov m c0 (by simp [lookupName, Ne.symm hmn, hm])
  | case5 n c rest ds c' hl hne ds2 a2 e2 hf ih =>
    intro hw hcov
    obtain ⟨c'', hc'', heq''⟩ := hcov n c (by simp [lookupName])
    rw [hl] at hc''
    have : c'' = c' := by
      injection hc'' with h
      injection h with h
      exact h.symm
    subst this
    exact absurd heq''.symm hne
  | case6 n c rest ds hl ds2 a2 e2 hf ih =>
    intro hw hcov
    obtain ⟨c', hc', _⟩ := hcov n c (by simp [lookupName])
    rw [hl] at hc'
    exact absurd hc' (by simp)

theorem fwdSubdirs_noop (H : HashImpl) (sr rr : Path) :
    ∀ rp scs ds, wfChildren scs = true →
      (∀ m q es0, Tree.lookup (.dir scs) (m :: q) = some (.dir es0) →
        ∃ es1, Tree.lookup (.dir ds) (m :: q) = some (.dir es1)) →
      (∀ m q c, Tree.lookup (.dir scs) (m :: q) = some (.file c) →
        ∃ c', Tree.lookup (.dir ds) (m :: q) = some (.file c') ∧
          calculate_hash H c' = calculate_hash H c) →
      fwdSubdirs H sr rr rp scs ds = (ds, [], none) := by
  intro rp scs ds
  induction rp, scs, ds using fwdSubdirs.induct H sr rr with
  | case1 rp ds =>
    intro _ _ _
    rw [fwdSubdirs]
  | case2 rp n c rest ds ih =>
    intro hw hdirs hfiles
    rw [fwdSubdirs]
    exact ih (wf_tail hw)
      (fun m q es0 hm => hdirs m q es0 (lookup_cons_lift hw hm))
      (fun m q c0 hm => hfiles m q c0 (lookup_cons_lift hw hm))
  | case3 rp n sub rest ds c hl hemp ih =>
    intro hw hdirs hfiles
    obtain ⟨es', hes'⟩ := hdirs n [] sub
      (by rw [lookup_dir_cons_self]; simp [Tree.lookup])
    rw [lookup_single, hl] at hes'
    exact absurd hes' (by simp)
  | case4 rp n sub rest ds c hl hemp =>
    intro hw hdirs hfiles
    obtain ⟨es', hes'⟩ := hdirs n [] sub
      (by rw [lookup_dir_cons_self]; simp [Tree.lookup])
    rw [lookup_single, hl] at hes'
    exact absurd hes' (by simp)
  | case5 rp n sub rest ds es hl ds2 a2 e hf =>
    intro hw hdirs hfiles
    have hsubwf : wfChildren sub = true := by
      rw [wfChildren_cons] at hw
      simp only [Bool.and_eq_true] at hw
      simpa [Tree.wfB] using hw.1.2
    have hypF : ∀ m c, lookupName sub m = some (.file c) →
        ∃ c', lookupName es m = some (.file c') ∧
          calculate_hash H c' = calculate_hash H c := by
      intro m c0 hm
      obtain ⟨c', hc', hh⟩ := hfiles n [m] c0
        (by rw [lookup_dir_cons_self]; exact lookup_single_of_lookupName hm)
      rw [lookup_dir_of_lookupName hl, lookup_single] at hc'
      exact ⟨c', hc', hh⟩
    have hnoop := fwdFilesL_noop H sr rr (rp ++ [n]) sub es hsubwf hypF
    rw [hf] at hnoop
    simp at hnoop
  | case6 rp n sub rest ds es hl ds2 a2 ds3 a3 e hf hsub ih =>
    intro hw hdirs hfiles
    have hsubwf : wfChildren sub = true := by
      rw [wfChildren_cons] at hw
      simp only [Bool.and_eq_true] at hw
      simpa [Tree.wfB] using hw.1.2
    have hypF : ∀ m c, lookupName sub m = some (.file c) →
        ∃ c', lookupName es m = some (.file c') ∧
          calculate_hash H c' = calculate_hash H c := by
      intro m c0 hm
      obtain ⟨c', hc', hh⟩ := hfiles n [m] c0
        (by rw [lookup_dir_cons_self]; exact lookup_single_of_lookupName hm)
      rw [lookup_dir_of_lookupName hl, lookup_single] at hc'
      exact ⟨c', hc', hh⟩
    have hypD2 : ∀ m q es0, Tree.lookup (.dir sub) (m :: q) = some (.dir es0) →
        ∃ es1, Tree.lookup (.dir es) (m :: q) = some (.dir es1) := by
      intro m q es0 hm
      obtain ⟨es1, he1⟩ := hdirs n (m :: q) es0
        (by rw [lookup_dir_cons_self]; exact hm)
      rw [lookup_dir_of_lookupName hl] at he1
      exact ⟨es1, he1⟩
    have hypF2 : ∀ m q c, Tree.lookup (.dir sub) (m :: q) = some (.file c) →
        ∃ c', Tree.lookup (.dir es) (m :: q) = some (.file c') ∧
          calculate_hash H c' = calculate_hash H c := by
      intro m q c0 hm
      obtain ⟨c', hc', hh⟩ := hfiles n (m :: q) c0
        (by rw [lookup_dir_cons_self]; exact hm)
      rw [lookup_dir_of_lookupName hl] at hc'
      exact ⟨c', hc', hh⟩
    have hnoopF := fwdFilesL_noop H sr rr (rp ++ [n]) sub es hsubwf hypF
    rw [hf] at hnoopF
    injection hnoopF with hds2 hrest1
    have hih := ih hsubwf (by rw [hds2]; exact hypD2) (by rw [hds2]; exact hypF2)
    rw [hsub] at hih
    simp at hih
  | case7 rp n sub rest ds es hl ds2 a2 ds3 a3 ds1 ds4 a4 e2 hrest hf hsub ih1 ih2 =>
    intro hw hdirs hfiles
    have hsubwf : wfChildren sub = true := by
      rw [wfChildren_cons] at hw
      simp only [Bool.and_eq_true] at hw
      simpa [Tree.wfB] using hw.1.2
    have hypF : ∀ m c, lookupName sub m = some (.file c) →
        ∃ c', lookupName es m = some (.file c') ∧
          calculate_hash H c' = calculate_hash H c := by
      intro m c0 hm
      obtain ⟨c', hc', hh⟩ := hfiles n [m] c0
        (by rw [lookup_dir_cons_self]; exact lookup_single_of_lookupName hm)
      rw [lookup_dir_of_lookupName hl, lookup_single] at hc'
      exact ⟨c', hc', hh⟩
    have hypD2 : ∀ m q es0, Tree.lookup (.dir sub) (m :: q) = some (.dir es0) →
        ∃ es1, Tree.lookup (.dir es) (m :: q) = some (.dir es1) := by
      intro m q es0 hm
      obtain ⟨es1, he1⟩ := hdirs n (m :: q) es0
        (by rw [lookup_dir_cons_self]; exact hm)
      rw [lookup_dir_of_lookupName hl] at he1
      exact ⟨es1, he1⟩
    have hypF2 : ∀ m q c, Tree.lookup (.dir sub) (m :: q) = some (.file c) →
        ∃ c', Tree.lookup (.dir es) (m :: q) = some (.file c') ∧
          calculate_hash H c' = calculate_hash H c := by
      intro m q c0 hm
      obtain ⟨c', hc', hh⟩ := hfiles n (m :: q) c0
        (by rw [lookup_dir_cons_self]; exact hm)
      rw [lookup_dir_of_lookupName hl] at hc'
      exact ⟨c', hc', hh⟩
    have hnoopF := fwdFilesL_noop H sr rr (rp ++ [n]) sub es hsubwf hypF
    rw [hf] at hnoopF
    injection hnoopF with hds2 hrest1
    injection hrest1 with ha2 hju
    have hnoopS := ih1 hsubwf (by rw [hds2]; exact hypD2) (by rw [hds2]; exact hypF2)
    rw [hsub] at hnoopS
    injection hnoopS with hds3 hrest2
    injection hrest2 with ha3 hju2
    have hds1 : ds1 = ds := by
      rw [show ds1 = setChild ds n (Tree.dir ds3) from rfl, hds3, hds2]
      exact setChild_self_eq hl
    have hnoopR := ih2 (wf_tail hw)
      (by
        intro m q es0 hm
        obtain ⟨es1, he1⟩ := hdirs m q es0 (lookup_cons_lift hw hm)
        exact ⟨es1, by rw [hds1]; exact he1⟩)
      (by
        intro m q c0 hm
        obtain ⟨c', hc', hh⟩ := hfiles m q c0 (lookup_cons_lift hw hm)
        exact ⟨c', by rw [hds1]; exact hc', hh⟩)
    rw [hrest] at hnoopR
    injection hnoopR with hds4 hrest3
    injection hrest3 with ha4 he2
    rw [fwdSubdirs]
    simp only [hl, hf, hsub, ds1, hrest]
    rw [ha2, ha3, ha4, he2, hds4, hds1]
    simp
  | case8 rp n sub rest ds hl ds2 a2 e hf =>
    intro hw hdirs hfiles
    obtain ⟨es', hes'⟩ := hdirs n [] sub
      (by rw [lookup_dir_cons_self]; simp [Tree.lookup])
    rw [lookup_single, hl] at hes'
    exact absurd hes' (by simp)
  | case9 rp n sub rest ds hl ds2 a2 ds3 a3 e hf hsub ih =>
    intro hw hdirs hfiles
    obtain ⟨es', hes'⟩ := hdirs n [] sub
      (by rw [lookup_dir_cons_self]; simp [Tree.lookup])
    rw [lookup_single, hl] at hes'
    exact absurd hes' (by simp)
  | case10 rp n sub rest ds hl ds2 a2 ds3 a3 ds1 ds4 a4 e2 hrest hf hsub ih1 ih2 =>
    intro hw hdirs hfiles
    obtain ⟨es', hes'⟩ := hdirs n [] sub
      (by rw [lookup_dir_cons_self]; simp [Tree.lookup])
    rw [lookup_single, hl] at hes'
    exact absurd hes' (by simp)

theorem revKeep_lookupName_none (src : Option Tree) (rp : Path) (n : String) :
    ∀ cs, lookupName cs n = none → lookupName (revKeep src rp cs) n = none := by
  intro cs
  induction cs with
  | nil =>
    intro _
    simp [revKeep, lookupName]
  | cons hd rest ih =>
    obtain ⟨m, t⟩ := hd
    intro h
    have hm : m ≠ n := by
      intro he
      subst he
      simp [lookupName] at h
    rw [lookupName, if_neg hm] at h
    cases t with
    | file c =>
      by_cases hex : existsAt src (rp ++ [m]) = true
      · rw [show revKeep src rp ((m, Tree.file c) :: rest)
            = (m, Tree.file c) :: revKeep src rp rest by simp [revKeep, hex]]
        rw [lookupName, if_neg hm]
        exact ih h
      · have hex' : existsAt src (rp ++ [m]) = false := by simpa using hex
        rw [show revKeep src rp ((m, Tree.file c) :: rest)
            = revKeep src rp rest by simp [revKeep, hex']]
        exact ih h
    | dir ds =>
      by_cases hex : existsAt src (rp ++ [m]) = true
      · rw [show revKeep src rp ((m, Tree.dir ds) :: rest)
            = (m, Tree.dir (revKeep src (rp ++ [m]) ds)) :: revKeep src rp rest
          by simp [revKeep, hex]]
        rw [lookupName, if_neg hm]
        exact ih h
      · have hex' : existsAt src (rp ++ [m]) = false := by simpa using hex
        rw [show revKeep src rp ((m, Tree.dir ds) :: rest)
            = revKeep src rp rest by simp [revKeep, hex']]
        exact ih h

theorem revKeep_wf (src : Option Tree) :
    ∀ rp cs, wfChildren cs = true → wfChildren (revKeep src rp cs) = true := by
  intro rp cs
  induction rp, cs using revKeep.induct src with
  | case1 rp =>
    intro _
    simp [revKeep, wfChildren]
  | case2 rp m c rest hex ih =>
    intro hw
    rw [show revKeep src rp ((m, Tree.file c) :: rest)
        = (m, Tree.file c) :: revKeep src rp rest by simp [revKeep, hex]]
    rw [wfChildren_cons]
    simp only [Bool.and_eq_true]
    refine ⟨⟨?_, by simp [Tree.wfB]⟩, ih (wf_tail hw)⟩
    rw [revKeep_lookupName_none src rp m rest (wf_head_lookup_none hw)]
    rfl
  | case3 rp m c rest hnex ih =>
    intro hw
    have hex' : existsAt src (rp ++ [m]) = false := by simpa using hnex
    rw [show revKeep src rp ((m, Tree.file c) :: rest)
        = revKeep src rp rest by simp [revKeep, hex']]
    exact ih (wf_tail hw)
  | case4 rp m ds rest hex ih1 ih2 =>
    intro hw
    have hdswf : wfChildren ds = true := by
      rw [wfChildren_cons] at hw
      simp only [Bool.and_eq_true] at hw
      simpa [Tree.wfB] using hw.1.2
    rw [show revKeep src rp ((m, Tree.dir ds) :: rest)
        = (m, Tree.dir (revKeep src (rp ++ [m]) ds)) :: revKeep src rp rest
      by simp [revKeep, hex]]
    rw [wfChildren_cons]
    simp only [Bool.and_eq_true]
    refine ⟨⟨?_, ?_⟩, ih2 (wf_tail hw)⟩
    · rw [revKeep_lookupName_none src rp m rest (wf_head_lookup_none hw)]
      rfl
    · simpa [Tree.wfB] using ih1 hdswf
  | case5 rp m ds rest hnex ih =>
    intro hw
    have hex' : existsAt src (rp ++ [m]) = false := by simpa using hnex
    rw [show revKeep src rp ((m, Tree.dir ds) :: rest)
        = revKeep src rp rest by simp [revKeep, hex']]
    exact ih (wf_tail hw)

theorem revKeep_dir (src : Option Tree) (rp : Path) (cs : List (String × Tree))
    (hw : wfChildren cs = true) (n : String) (q : Path)
    (es : List (String × Tree))
    (hsrc : existsAt src (rp ++ (n :: q)) = true)
    (hc : Tree.lookup (.dir cs) (n :: q) = some (.dir es)) :
    Tree.lookup (.dir (revKeep src rp cs)) (n :: q)
      = some (.dir (revKeep src (rp ++ (n :: q)) es)) := by
  rw [revKeep_lookup src rp cs hw n q, keptB_of_existsAt src q rp n hsrc, hc]
  simp [pruneT]

theorem revFileActs_noop (src : Option Tree) (rr rp : Path) :
    ∀ cs, (∀ n t, (n, t) ∈ cs → existsAt src (rp ++ [n]) = true) →
      revFileActs src rr rp cs = [] := by
  intro cs
  induction cs with
  | nil =>
    intro _
    simp [revFileActs]
  | cons hd rest ih =>
    obtain ⟨n, t⟩ := hd
    intro hall
    cases t with
    | file c =>
      rw [revFileActs, if_pos (hall n (Tree.file c) (by simp))]
      exact ih fun m u hm => hall m u (by simp [hm])
    | dir ds =>
      rw [revFileActs]
      exact ih fun m u hm => hall m u (by simp [hm])

theorem revDirActs_noop (src : Option Tree) (rr rp : Path) :
    ∀ cs, (∀ n t, (n, t) ∈ cs → existsAt src (rp ++ [n]) = true) →
      revDirActs src rr rp cs = [] := by
  intro cs
  induction cs with
  | nil =>
    intro _
    simp [revDirActs]
  | cons hd rest ih =>
    obtain ⟨n, t⟩ := hd
    intro hall
    cases t with
    | file c =>
      rw [revDirActs]
      exact ih fun m u hm => hall m u (by simp [hm])
    | dir ds =>
      rw [revDirActs, if_pos (hall n (Tree.dir ds) (by simp))]
      exact ih fun m u hm => hall m u (by simp [hm])

theorem revDeep_noop (src : Option Tree) (rr : Path) :
    ∀ rp cs, wfChildren cs = true →
      (∀ n q, (Tree.lookup (.dir cs) (n :: q)).isSome = true →
        existsAt src (rp ++ (n :: q)) = true) →
      revDeep src rr rp cs = [] := by
  intro rp cs
  induction rp, cs using revDeep.induct src rr with
  | case1 rp =>
    intro _ _
    simp [revDeep]
  | case2 rp n c rest ih =>
    intro hw hall
    rw [show revDeep src rr rp ((n, Tree.file c) :: rest)
        = revDeep src rr rp rest by simp [revDeep]]
    refine ih (wf_tail hw) fun m q hm => ?_
    obtain ⟨v, hv⟩ := Option.isSome_iff_exists.mp hm
    exact hall m q (by rw [lookup_cons_lift hw hv]; rfl)
  | case3 rp n ds rest ih1 ih2 =>
    intro hw hall
    have hdswf : wfChildren ds = true := by
      rw [wfChildren_cons] at hw
      simp only [Bool.and_eq_true] at hw
      simpa [Tree.wfB] using hw.1.2
    have hchild : ∀ m q, (Tree.lookup (.dir ds) (m :: q)).isSome = true →
        existsAt src ((rp ++ [n]) ++ (m :: q)) = true := by
      intro m q hm
      have := hall n (m :: q) (by rw [lookup_dir_cons_self]; exact hm)
      rw [show (rp ++ [n]) ++ (m :: q) = rp ++ (n :: m :: q) by simp]
      exact this
    have hmem : ∀ m t, (m, t) ∈ ds → existsAt src ((rp ++ [n]) ++ [m]) = true := by
      intro m t hm
      refine hchild m [] ?_
      rw [lookup_single, lookupName_of_mem_wf hdswf hm]
      rfl
    rw [show revDeep src rr rp ((n, Tree.dir ds) :: rest)
        = (revDeep src rr (rp ++ [n]) ds ++ revFileActs src rr (rp ++ [n]) ds ++
            revDirActs src rr (rp ++ [n]) ds) ++ revDeep src rr rp rest
      by simp [revDeep]]
    rw [ih1 hdswf hchild, revFileActs_noop src rr (rp ++ [n]) ds hmem,
      revDirActs_noop src rr (rp ++ [n]) ds hmem,
      ih2 (wf_tail hw) (fun m q hm => by
        obtain ⟨v, hv⟩ := Option.isSome_iff_exists.mp hm
        exact hall m q (by rw [lookup_cons_lift hw hv]; rfl))]
    simp

theorem revActs_noop (src : Option Tree) (rr rp : Path)
    (cs : List (String × Tree)) (hw : wfChildren cs = true)
    (hall : ∀ n q, (Tree.lookup (.dir cs) (n :: q)).isSome = true →
      existsAt src (rp ++ (n :: q)) = true) :
    revActs src rr rp cs = [] := by
  have hmem : ∀ m t, (m, t) ∈ cs → existsAt src (rp ++ [m]) = true := by
    intro m t hm
    refine hall m [] ?_
    rw [lookup_single, lookupName_of_mem_wf hw hm]
    rfl
  rw [revActs, revDeep_noop src rr rp cs hw hall,
    revFileActs_noop src rr rp cs hmem, revDirActs_noop src rr rp cs hmem]
  rfl

/-- Master decomposition of one successful pass over a source directory
and a kind-compatible replica: the pre-step (root creation), the forward
phase and the reverse phase, all error-free. -/
theorem sync_success (H : HashImpl) (sr rr : Path) (scs : List (String × Tree))
    (r : Option Tree) (hw : wfChildren scs = true) (hwr : wfOpt r = true)
    (hc : compatOpt (some (.dir scs)) r = true) :
    ∃ (ds ds1 ds2 : List (String × Tree)) (a1 a2 : List Action)
      (pre : List Action),
      (pre = [] ∨ pre = [Action.createdReplica rr]) ∧
      wfChildren ds = true ∧
      compatChildren scs ds = true ∧
      (∀ n q, optLookup r (n :: q) = Tree.lookup (.dir ds) (n :: q)) ∧
      fwdFilesL H sr rr [] scs ds = (ds1, a1, none) ∧
      fwdSubdirs H sr rr [] scs ds1 = (ds2, a2, none) ∧
      wfChildren ds2 = true ∧
      synchronize_folders H sr rr (some (.dir scs)) r
        = { rep := some (.dir (revKeep (some (.dir scs)) [] ds2)),
            acts := pre ++ (a1 ++ a2) ++ revActs (some (.dir scs)) rr [] ds2,
            err := none } := by
  have build : ∀ ds : List (String × Tree), wfChildren ds = true →
      compatChildren scs ds = true →
      ∃ (ds1 ds2 : List (String × Tree)) (a1 a2 : List Action),
        fwdFilesL H sr rr [] scs ds = (ds1, a1, none) ∧
        fwdSubdirs H sr rr [] scs ds1 = (ds2, a2, none) ∧
        wfChildren ds2 = true := by
    intro ds hwd hcd
    rcases hf1 : fwdFilesL H sr rr [] scs ds with ⟨ds1, a1, e1⟩
    have he1 : e1 = none := by
      have h := fwdFilesL_err_none H sr rr [] scs ds hw
        (fun m c es hm => compat_file_of_lookup hcd hm es)
      rw [hf1] at h
      exact h
    subst he1
    have hwds1 : wfChildren ds1 = true := by
      have h := fwdFilesL_wf H sr rr [] scs ds hwd
      rw [hf1] at h
      exact h
    have hc1 : compatChildren scs ds1 = true := by
      have h := fwdFilesL_compat_preserved H sr rr [] scs ds hw hcd (by rw [hf1])
      rw [hf1] at h
      exact h
    rcases hf2 : fwdSubdirs H sr rr [] scs ds1 with ⟨ds2, a2, e2⟩
    have he2 : e2 = none := by
      have h := fwdSubdirs_err_none H sr rr [] scs ds1 hw hc1
      rw [hf2] at h
      exact h
    subst he2
    have hwds2 : wfChildren ds2 = true := by
      have h := fwdSubdirs_wf H sr rr [] scs ds1 hw hwds1
      rw [hf2] at h
      exact h
    exact ⟨ds1, ds2, a1, a2, rfl, hf2, hwds2⟩
  cases r with
  | none =>
    obtain ⟨ds1, ds2, a1, a2, hf1, hf2, hwds2⟩ :=
      build [] (by simp [wfChildren]) (compatChildren_nil scs)
    refine ⟨[], ds1, ds2, a1, a2, [Action.createdReplica rr], Or.inr rfl,
      by simp [wfChildren], compatChildren_nil scs, ?_, hf1, hf2, hwds2, ?_⟩
    · intro n q
      rw [lookup_dir_of_lookupName_none
        (show lookupName [] n = none by simp [lookupName]) q]
      rfl
    · simp only [synchronize_folders, fwdRoot, hf1, hf2]
  | some t =>
    cases t with
    | file c => simp [compatOpt, compatT] at hc
    | dir ds =>
      have hwd : wfChildren ds = true := by simpa [wfOpt, Tree.wfB] using hwr
      have hcd : compatChildren scs ds = true := by
        simpa [compatOpt, compatT] using hc
      obtain ⟨ds1, ds2, a1, a2, hf1, hf2, hwds2⟩ := build ds hwd hcd
      refine ⟨ds, ds1, ds2, a1, a2, [], Or.inl rfl, hwd, hcd,
        fun n q => rfl, hf1, hf2, hwds2, ?_⟩
      simp only [synchronize_folders, fwdRoot, hf1, hf2]

/-- The replica tree left by a successful pass: source files are present
with matching fingerprints, source directories are present as
directories, and nothing outside the source's domain survives. -/
theorem sync_state (H : HashImpl) (sr rr : Path) (scs : List (String × Tree))
    (ds ds1 ds2 : List (String × Tree)) (a1 a2 : List Action)
    (hw : wfChildren scs = true) (hwds2 : wfChildren ds2 = true)
    (hc1 : compatChildren scs ds1 = true)
    (hf1 : fwdFilesL H sr rr [] scs ds = (ds1, a1, none))
    (hf2 : fwdSubdirs H sr rr [] scs ds1 = (ds2, a2, none)) :
    (∀ n q c, Tree.lookup (.dir scs) (n :: q) = some (.file c) →
      ∃ c', Tree.lookup (.dir (revKeep (some (.dir scs)) [] ds2)) (n :: q)
          = some (.file c') ∧
        calculate_hash H c' = calculate_hash H c) ∧
    (∀ n q es, Tree.lookup (.dir scs) (n :: q) = some (.dir es) →
      ∃ es', Tree.lookup (.dir (revKeep (some (.dir scs)) [] ds2)) (n :: q)
          = some (.dir es')) ∧
    (∀ n q,
      (Tree.lookup (.dir (revKeep (some (.dir scs)) [] ds2)) (n :: q)).isSome
          = true →
      (Tree.lookup (.dir scs) (n :: q)).isSome = true) := by
  refine ⟨?_, ?_, ?_⟩
  · intro n q c hp
    cases q with
    | nil =>
      have hscs : lookupName scs n = some (.file c) := by
        rw [lookup_single] at hp
        exact hp
      obtain ⟨c', hc1', hh⟩ :=
        fwdFilesL_file_present H sr rr [] scs ds hw (by rw [hf1]) n c hscs
      rw [hf1] at hc1'
      have hc1'' : lookupName ds1 n = some (.file c') := hc1'
      have hnod : ∀ sub, (n, Tree.dir sub) ∉ scs := by
        intro sub hs
        have hmem := lookupName_of_mem_wf hw hs
        rw [hscs] at hmem
        exact absurd hmem (by simp)
      have hunt := fwdSubdirs_untouched H sr rr [] scs ds1 n hnod
      rw [hf2] at hunt
      have hunt' : lookupName ds2 n = lookupName ds1 n := hunt
      rw [hc1''] at hunt'
      refine ⟨c', ?_, hh⟩
      refine revKeep_file (some (.dir scs)) [] ds2 hwds2 n [] c' ?_
        (lookup_single_of_lookupName hunt')
      simp [existsAt, optLookup, lookup_single, hscs]
    | cons f q2 =>
      obtain ⟨c', hc1', hh⟩ := fwdSubdirs_files H sr rr [] scs ds1 hw
        (by rw [hf2]) n (f :: q2) c (by simp) hp
      rw [hf2] at hc1'
      have hc1'' : Tree.lookup (.dir ds2) (n :: f :: q2) = some (.file c') := hc1'
      refine ⟨c', ?_, hh⟩
      refine revKeep_file (some (.dir scs)) [] ds2 hwds2 n (f :: q2) c' ?_ hc1''
      simp [existsAt, optLookup, hp]
  · intro n q es hp
    obtain ⟨es2, hes2⟩ := fwdSubdirs_dirs H sr rr [] scs ds1 hw hc1 (n :: q) es hp
    rw [hf2] at hes2
    have hes2' : Tree.lookup (.dir ds2) (n :: q) = some (.dir es2) := hes2
    refine ⟨revKeep (some (.dir scs)) ([] ++ (n :: q)) es2, ?_⟩
    refine revKeep_dir (some (.dir scs)) [] ds2 hwds2 n q es2 ?_ hes2'
    simp [existsAt, optLookup, hp]
  · intro n q hp
    rw [revKeep_isSome (some (.dir scs)) [] ds2 hwds2 n q, Bool.and_eq_true] at hp
    have := existsAt_of_keptB (some (.dir scs)) q [] n hp.1
    simpa [existsAt, optLookup] using this

/-- C1: with a source directory and a kind-compatible well-formed
replica, one invocation of `synchronize_folders` succeeds without error,
and afterwards every source file has a replica file with an identical
fingerprint at the same relative path, and every replica entry has a
source entry at the same relative path. -/
theorem sync_convergence (H : HashImpl) (sr rr : Path)
    (scs : List (String × Tree)) (r : Option Tree)
    (hw : wfChildren scs = true) (hwr : wfOpt r = true)
    (hc : compatOpt (some (.dir scs)) r = true) :
    (synchronize_folders H sr rr (some (.dir scs)) r).err = none ∧
    ∃ rds, (synchronize_folders H sr rr (some (.dir scs)) r).rep
        = some (.dir rds) ∧
      (∀ p c, Tree.lookup (.dir scs) p = some (.file c) →
        ∃ c', Tree.lookup (.dir rds) p = some (.file c') ∧
          calculate_hash H c' = calculate_hash H c) ∧
      (∀ p, (Tree.lookup (.dir rds) p).isSome = true →
        (Tree.lookup (.dir scs) p).isSome = true) := by
  obtain ⟨ds, ds1, ds2, a1, a2, pre, hpre, hwd, hcd, hlk, hf1, hf2, hwds2, hrec⟩ :=
    sync_success H sr rr scs r hw hwr hc
  have hc1 : compatChildren scs ds1 = true := by
    have h := fwdFilesL_compat_preserved H sr rr [] scs ds hw hcd (by rw [hf1])
    rw [hf1] at h
    exact h
  obtain ⟨hfiles, hdirs, hdom⟩ :=
    sync_state H sr rr scs ds ds1 ds2 a1 a2 hw hwds2 hc1 hf1 hf2
  rw [hrec]
  refine ⟨rfl, revKeep (some (.dir scs)) [] ds2, rfl, ?_, ?_⟩
  · intro p c hp
    cases p with
    | nil => simp [Tree.lookup] at hp
    | cons n q => exact hfiles n q c hp
  · intro p hp
    cases p with
    | nil => simp [Tree.lookup]
    | cons n q => exact hdom n q hp

/-- Witness for C1 at a concrete configuration with a nested source and
a stale replica entry. -/
theorem sync_convergence_w :
    wfChildren [("a", Tree.file [1]), ("d", Tree.dir [("b", Tree.file [2])])]
        = true ∧
    wfOpt (some (.dir [("x", Tree.file [9])])) = true ∧
    compatOpt (some (.dir [("a", Tree.file [1]), ("d", Tree.dir [("b", Tree.file [2])])]))
        (some (.dir [("x", Tree.file [9])])) = true ∧
    ((synchronize_folders catHash ["s"] ["r"]
        (some (.dir [("a", Tree.file [1]), ("d", Tree.dir [("b", Tree.file [2])])]))
        (some (.dir [("x", Tree.file [9])]))).err = none ∧
      ∃ rds, (synchronize_folders catHash ["s"] ["r"]
          (some (.dir [("a", Tree.file [1]), ("d", Tree.dir [("b", Tree.file [2])])]))
          (some (.dir [("x", Tree.file [9])]))).rep = some (.dir rds) ∧
        (∀ p c, Tree.lookup
            (.dir [("a", Tree.file [1]), ("d", Tree.dir [("b", Tree.file [2])])]) p
              = some (.file c) →
          ∃ c', Tree.lookup (.dir rds) p = some (.file c') ∧
            calculate_hash catHash c' = calculate_hash catHash c) ∧
        (∀ p, (Tree.lookup (.dir rds) p).isSome = true →
          (Tree.lookup
            (.dir [("a", Tree.file [1]), ("d", Tree.dir [("b", Tree.file [2])])])
              p).isSome = true)) :=
  ⟨by simp [wfChildren, lookupName, Tree.wfB],
    by simp [wfOpt, Tree.wfB, wfChildren, lookupName],
    by simp [compatOpt, compatT, compatChildren, lookupName],
    sync_convergence catHash ["s"] ["r"]
      [("a", Tree.file [1]), ("d", Tree.dir [("b", Tree.file [2])])]
      (some (.dir [("x", Tree.file [9])]))
      (by simp [wfChildren, lookupName, Tree.wfB])
      (by simp [wfOpt, Tree.wfB, wfChildren, lookupName])
      (by simp [compatOpt, compatT, compatChildren, lookupName])⟩

/-- C2: after a successful pass, an immediately repeated pass on the
resulting replica performs zero actions (no creations, copies or
removals, hence no action log lines) and raises no error. -/
theorem sync_idempotent (H : HashImpl) (sr rr : Path)
    (scs : List (String × Tree)) (r : Option Tree)
    (hw : wfChildren scs = true) (hwr : wfOpt r = true)
    (hc : compatOpt (some (.dir scs)) r = true) :
    (synchronize_folders H sr rr (some (.dir scs)) r).err = none ∧
    (synchronize_folders H sr rr (some (.dir scs))
        (synchronize_folders H sr rr (some (.dir scs)) r).rep).acts = [] ∧
    (synchronize_folders H sr rr (some (.dir scs))
        (synchronize_folders H sr rr (some (.dir scs)) r).rep).err = none := by
  obtain ⟨ds, ds1, ds2, a1, a2, pre, hpre, hwd, hcd, hlk, hf1, hf2, hwds2, hrec⟩ :=
    sync_success H sr rr scs r hw hwr hc
  have hc1 : compatChildren scs ds1 = true := by
    have h := fwdFilesL_compat_preserved H sr rr [] scs ds hw hcd (by rw [hf1])
    rw [hf1] at h
    exact h
  obtain ⟨hfiles, hdirs, hdom⟩ :=
    sync_state H sr rr scs ds ds1 ds2 a1 a2 hw hwds2 hc1 hf1 hf2
  have hwk : wfChildren (revKeep (some (.dir scs)) [] ds2) = true :=
    revKeep_wf (some (.dir scs)) [] ds2 hwds2
  have hnoop1 : fwdFilesL H sr rr [] scs (revKeep (some (.dir scs)) [] ds2)
      = (revKeep (some (.dir scs)) [] ds2, [], none) := by
    refine fwdFilesL_noop H sr rr [] scs (revKeep (some (.dir scs)) [] ds2) hw ?_
    intro m c hm
    obtain ⟨c', hc', hh⟩ := hfiles m [] c (lookup_single_of_lookupName hm)
    rw [lookup_single] at hc'
    exact ⟨c', hc', hh⟩
  have hnoop2 : fwdSubdirs H sr rr [] scs (revKeep (some (.dir scs)) [] ds2)
      = (revKeep (some (.dir scs)) [] ds2, [], none) :=
    fwdSubdirs_noop H sr rr [] scs (revKeep (some (.dir scs)) [] ds2) hw
      (fun m q es0 hm => hdirs m q es0 hm)
      (fun m q c hm => hfiles m q c hm)
  have hrnoop : revActs (some (.dir scs)) rr [] (revKeep (some (.dir scs)) [] ds2)
      = [] := by
    refine revActs_noop (some (.dir scs)) rr [] (revKeep (some (.dir scs)) [] ds2)
      hwk ?_
    intro n q hs
    have := hdom n q hs
    simpa [existsAt, optLookup] using this
  have hrec2 : synchronize_folders H sr rr (some (.dir scs))
      (some (.dir (revKeep (some (.dir scs)) [] ds2)))
      = { rep := some (.dir (revKeep (some (.dir scs)) []
            (revKeep (some (.dir scs)) [] ds2))),
          acts := [], err := none } := by
    simp [synchronize_folders, fwdRoot, hnoop1, hnoop2, hrnoop]
  rw [hrec]
  refine ⟨rfl, ?_, ?_⟩
  · show (synchronize_folders H sr rr (some (.dir scs))
        (some (Tree.dir (revKeep (some (Tree.dir scs)) [] ds2)))).acts = []
    rw [hrec2]
  · show (synchronize_folders H sr rr (some (.dir scs))
        (some (Tree.dir (revKeep (some (Tree.dir scs)) [] ds2)))).err = none
    rw [hrec2]

/-- Witness for C2 at a concrete configuration whose first pass copies,
creates and removes. -/
theorem sync_idempotent_w :
    wfChildren [("a", Tree.file [1]), ("d", Tree.dir [("b", Tree.file [2])])]
        = true ∧
    wfOpt (some (.dir [("x", Tree.file [9])])) = true ∧
    compatOpt (some (.dir [("a", Tree.file [1]), ("d", Tree.dir [("b", Tree.file [2])])]))
        (some (.dir [("x", Tree.file [9])])) = true ∧
    ((synchronize_folders catHash ["s"] ["r"]
        (some (.dir [("a", Tree.file [1]), ("d", Tree.dir [("b", Tree.file [2])])]))
        (some (.dir [("x", Tree.file [9])]))).err = none ∧
      (synchronize_folders catHash ["s"] ["r"]
        (some (.dir [("a", Tree.file [1]), ("d", Tree.dir [("b", Tree.file [2])])]))
        (synchronize_folders catHash ["s"] ["r"]
          (some (.dir [("a", Tree.file [1]), ("d", Tree.dir [("b", Tree.file [2])])]))
          (some (.dir [("x", Tree.file [9])]))).rep).acts = [] ∧
      (synchronize_folders catHash ["s"] ["r"]
        (some (.dir [("a", Tree.file [1]), ("d", Tree.dir [("b", Tree.file [2])])]))
        (synchronize_folders catHash ["s"] ["r"]
          (some (.dir [("a", Tree.file [1]), ("d", Tree.dir [("b", Tree.file [2])])]))
          (some (.dir [("x", Tree.file [9])]))).rep).err = none) :=
  ⟨by simp [wfChildren, lookupName, Tree.wfB],
    by simp [wfOpt, Tree.wfB, wfChildren, lookupName],
    by simp [compatOpt, compatT, compatChildren, lookupName],
    sync_idempotent catHash ["s"] ["r"]
      [("a", Tree.file [1]), ("d", Tree.dir [("b", Tree.file [2])])]
      (some (.dir [("x", Tree.file [9])]))
      (by simp [wfChildren, lookupName, Tree.wfB])
      (by simp [wfOpt, Tree.wfB, wfChildren, lookupName])
      (by simp [compatOpt, compatT, compatChildren, lookupName])⟩

theorem count_copied_zero_rev (src : Option Tree) (rr rp : Path)
    (cs : List (String × Tree)) (x y : Path) :
    List.count (Action.copiedFile x y) (revActs src rr rp cs) = 0 := by
  refine List.count_eq_zero.mpr ?_
  intro hmem
  have := revActs_removals src rr rp cs _ hmem
  simp [isRemoval] at this

theorem count_created_zero_rev (src : Option Tree) (rr rp : Path)
    (cs : List (String × Tree)) (x : Path) :
    List.count (Action.createdFolder x) (revActs src rr rp cs) = 0 := by
  refine List.count_eq_zero.mpr ?_
  intro hmem
  have := revActs_removals src rr rp cs _ hmem
  simp [isRemoval] at this

theorem removedCount_zero_fwdFiles (H : HashImpl) (sr rr rp : Path)
    (scs ds : List (String × Tree)) (x : Path) :
    removedCount x (fwdFilesL H sr rr rp scs ds).2.1 = 0 := by
  rw [removedCount]
  rw [List.count_eq_zero.mpr ?_, List.count_eq_zero.mpr ?_]
  case _ =>
    intro hmem
    obtain ⟨u, v, h⟩ := fwdFilesL_acts_copied H sr rr rp scs ds _ hmem
    simp at h
  case _ =>
    intro hmem
    obtain ⟨u, v, h⟩ := fwdFilesL_acts_copied H sr rr rp scs ds _ hmem
    simp at h

theorem removedCount_zero_fwdSub (H : HashImpl) (sr rr rp : Path)
    (scs ds : List (String × Tree)) (hw : wfChildren scs = true) (x : Path) :
    removedCount x (fwdSubdirs H sr rr rp scs ds).2.1 = 0 := by
  rw [removedCount]
  rw [List.count_eq_zero.mpr ?_, List.count_eq_zero.mpr ?_]
  case _ =>
    intro hmem
    rcases fwdSubdirs_shape H sr rr rp scs ds hw _ hmem with
      ⟨n2, q2, c2, h, _, _⟩ | ⟨p0, es0, h, _, _⟩ <;> simp at h
  case _ =>
    intro hmem
    rcases fwdSubdirs_shape H sr rr rp scs ds hw _ hmem with
      ⟨n2, q2, c2, h, _, _⟩ | ⟨p0, es0, h, _, _⟩ <;> simp at h

/-- C3: for a file of the source tree, a pass over a kind-compatible
well-formed replica copies it to the corresponding replica path, logging
the copy exactly once, if and only if the copy-if-different policy fires
for the entry currently at that replica path (no file there, or a
differing fingerprint); when the fingerprints match nothing is logged
for that file. -/
theorem sync_copy_iff (H : HashImpl) (sr rr : Path)
    (scs : List (String × Tree)) (r : Option Tree)
    (hw : wfChildren scs = true) (hwr : wfOpt r = true)
    (hc : compatOpt (some (.dir scs)) r = true)
    (n : String) (q : Path) (c : Content)
    (hfile : Tree.lookup (.dir scs) (n :: q) = some (.file c)) :
    (synchronize_folders H sr rr (some (.dir scs)) r).err = none ∧
    List.count (Action.copiedFile (sr ++ (n :: q)) (rr ++ (n :: q)))
        (synchronize_folders H sr rr (some (.dir scs)) r).acts
      = if needCopyB H c (optLookup r (n :: q)) then 1 else 0 := by
  obtain ⟨ds, ds1, ds2, a1, a2, pre, hpre, hwd, hcd, hlk, hf1, hf2, hwds2, hrec⟩ :=
    sync_success H sr rr scs r hw hwr hc
  rw [hrec]
  refine ⟨rfl, ?_⟩
  show List.count (Action.copiedFile (sr ++ (n :: q)) (rr ++ (n :: q)))
      (pre ++ (a1 ++ a2) ++ revActs (some (.dir scs)) rr [] ds2)
    = if needCopyB H c (optLookup r (n :: q)) then 1 else 0
  rw [List.count_append, List.count_append, List.count_append]
  have hprez : List.count (Action.copiedFile (sr ++ (n :: q)) (rr ++ (n :: q)))
      pre = 0 := by
    rcases hpre with h | h <;> subst h <;> simp
  rw [hprez, count_copied_zero_rev, hlk n q]
  cases q with
  | nil =>
    have hscs : lookupName scs n = some (.file c) := by
      rw [lookup_single] at hfile
      exact hfile
    have ha1 := fwdFilesL_count H sr rr [] scs ds hw (by rw [hf1]) n c hscs
    rw [hf1] at ha1
    have ha1' : List.count
        (Action.copiedFile (sr ++ [] ++ [n]) (rr ++ [] ++ [n])) a1
        = if needCopyB H c (lookupName ds n) then 1 else 0 := ha1
    rw [show ((sr : Path) ++ [] ++ [n]) = sr ++ [n] by simp,
      show ((rr : Path) ++ [] ++ [n]) = rr ++ [n] by simp] at ha1'
    have ha2 : List.count (Action.copiedFile (sr ++ [n]) (rr ++ [n])) a2 = 0 := by
      refine List.count_eq_zero.mpr ?_
      intro hmem
      rcases fwdSubdirs_shape H sr rr [] scs ds1 hw _ (by rw [hf2]; exact hmem)
        with ⟨n2, q2, c2, hact, hq2, _⟩ | ⟨p0, es0, hact, _, _⟩
      · injection hact with h1 h2
        rw [List.append_nil] at h1
        have h3 := List.append_cancel_left h1
        injection h3 with h4 h5
        exact hq2 h5.symm
      · simp at hact
    rw [ha1', ha2, lookup_single]
    simp
  | cons f q2 =>
    have ha2 := fwdSubdirs_count_copy H sr rr [] scs ds1 hw (by rw [hf2])
      n (f :: q2) c (by simp) hfile
    have hdeep := fwdFilesL_deep H sr rr [] scs ds hw (by rw [hf1])
      n (f :: q2) (by simp)
    rw [hf1] at hdeep
    have hdeep' : Tree.lookup (.dir ds1) (n :: f :: q2)
        = Tree.lookup (.dir ds) (n :: f :: q2) := hdeep
    rw [hf2] at ha2
    have ha2' : List.count
        (Action.copiedFile ((sr ++ []) ++ n :: f :: q2)
          ((rr ++ []) ++ n :: f :: q2)) a2
        = if needCopyB H c (Tree.lookup (.dir ds1) (n :: f :: q2))
          then 1 else 0 := ha2
    rw [show (((sr : Path) ++ []) ++ n :: f :: q2) = sr ++ (n :: f :: q2) by simp,
      show (((rr : Path) ++ []) ++ n :: f :: q2) = rr ++ (n :: f :: q2) by simp,
      hdeep'] at ha2'
    have ha1z : List.count
        (Action.copiedFile (sr ++ (n :: f :: q2)) (rr ++ (n :: f :: q2))) a1
        = 0 := by
      refine List.count_eq_zero.mpr ?_
      intro hmem
      obtain ⟨m, c2, hact, _⟩ :=
        fwdFilesL_shape H sr rr [] scs ds hw _ (by rw [hf1]; exact hmem)
      injection hact with h1 h2
      rw [List.append_nil] at h1
      have h3 := List.append_cancel_left h1
      injection h3 with h4 h5
      exact absurd h5 (by simp)
    rw [ha1z, ha2']
    simp

/-- Witness for C3: a top-level source file facing a replica with no
entry at its path (the copy fires and is logged once). -/
theorem sync_copy_iff_w :
    wfChildren [("a", Tree.file [1]), ("d", Tree.dir [("b", Tree.file [2])])]
        = true ∧
    wfOpt (some (.dir [("x", Tree.file [9])])) = true ∧
    compatOpt (some (.dir [("a", Tree.file [1]), ("d", Tree.dir [("b", Tree.file [2])])]))
        (some (.dir [("x", Tree.file [9])])) = true ∧
    Tree.lookup (.dir [("a", Tree.file [1]), ("d", Tree.dir [("b", Tree.file [2])])])
        ["a"] = some (.file [1]) ∧
    ((synchronize_folders catHash ["s"] ["r"]
        (some (.dir [("a", Tree.file [1]), ("d", Tree.dir [("b", Tree.file [2])])]))
        (some (.dir [("x", Tree.file [9])]))).err = none ∧
      List.count (Action.copiedFile (["s"] ++ ["a"]) (["r"] ++ ["a"]))
          (synchronize_folders catHash ["s"] ["r"]
            (some (.dir [("a", Tree.file [1]), ("d", Tree.dir [("b", Tree.file [2])])]))
            (some (.dir [("x", Tree.file [9])]))).acts
        = if needCopyB catHash [1]
            (optLookup (some (.dir [("x", Tree.file [9])])) ["a"])
          then 1 else 0) :=
  ⟨by simp [wfChildren, lookupName, Tree.wfB],
    by simp [wfOpt, Tree.wfB, wfChildren, lookupName],
    by simp [compatOpt, compatT, compatChildren, lookupName],
    by simp [Tree.lookup, lookupName],
    sync_copy_iff catHash ["s"] ["r"]
      [("a", Tree.file [1]), ("d", Tree.dir [("b", Tree.file [2])])]
      (some (.dir [("x", Tree.file [9])]))
      (by simp [wfChildren, lookupName, Tree.wfB])
      (by simp [wfOpt, Tree.wfB, wfChildren, lookupName])
      (by simp [compatOpt, compatT, compatChildren, lookupName])
      "a" [] [1] (by simp [Tree.lookup, lookupName])⟩

/-- C4: an entry present in the replica at a relative path where the
source has nothing is gone after one successful pass (with its whole
subtree, since nothing below it can survive either), and exactly one
removal of that path is logged. -/
theorem sync_deletes_extras (H : HashImpl) (sr rr : Path)
    (scs : List (String × Tree)) (r : Option Tree)
    (hw : wfChildren scs = true) (hwr : wfOpt r = true)
    (hc : compatOpt (some (.dir scs)) r = true) (n : String) (q : Path)
    (hrep : (optLookup r (n :: q)).isSome = true)
    (hsrc : optLookup (some (.dir scs)) (n :: q) = none) :
    (synchronize_folders H sr rr (some (.dir scs)) r).err = none ∧
    optLookup (synchronize_folders H sr rr (some (.dir scs)) r).rep (n :: q)
        = none ∧
    removedCount (rr ++ (n :: q))
        (synchronize_folders H sr rr (some (.dir scs)) r).acts = 1 := by
  obtain ⟨ds, ds1, ds2, a1, a2, pre, hpre, hwd, hcd, hlk, hf1, hf2, hwds2, hrec⟩ :=
    sync_success H sr rr scs r hw hwr hc
  have hsrcn : Tree.lookup (.dir scs) (n :: q) = none := hsrc
  have hexf : existsAt (some (.dir scs)) ([] ++ (n :: q)) = false := by
    simp [existsAt, optLookup, hsrcn]
  have hds : Tree.lookup (.dir ds) (n :: q) = optLookup r (n :: q) := (hlk n q).symm
  have hds1 : Tree.lookup (.dir ds1) (n :: q) = Tree.lookup (.dir ds) (n :: q) := by
    have h := fwdFilesL_frame H sr rr [] scs ds hw (by rw [hf1]) (n :: q) hsrcn
    rw [hf1] at h
    exact h
  have hds2 : Tree.lookup (.dir ds2) (n :: q) = Tree.lookup (.dir ds1) (n :: q) := by
    have h := fwdSubdirs_frame H sr rr [] scs ds1 hw (by rw [hf2]) (n :: q) hsrcn
    rw [hf2] at h
    exact h
  have hsome : (Tree.lookup (.dir ds2) (n :: q)).isSome = true := by
    rw [hds2, hds1, hds]
    exact hrep
  rw [hrec]
  refine ⟨rfl, ?_, ?_⟩
  · show Tree.lookup (.dir (revKeep (some (.dir scs)) [] ds2)) (n :: q) = none
    exact revKeep_lookup_none (some (.dir scs)) [] ds2 hwds2 n q hexf
  · show removedCount (rr ++ (n :: q))
        (pre ++ (a1 ++ a2) ++ revActs (some (.dir scs)) rr [] ds2) = 1
    rw [removedCount_append, removedCount_append, removedCount_append]
    have hprez : removedCount (rr ++ (n :: q)) pre = 0 := by
      rcases hpre with h | h <;> subst h <;> simp [removedCount]
    have ha1z : removedCount (rr ++ (n :: q)) a1 = 0 := by
      have h := removedCount_zero_fwdFiles H sr rr [] scs ds (rr ++ (n :: q))
      rw [hf1] at h
      exact h
    have ha2z : removedCount (rr ++ (n :: q)) a2 = 0 := by
      have h := removedCount_zero_fwdSub H sr rr [] scs ds1 hw (rr ++ (n :: q))
      rw [hf2] at h
      exact h
    have hrv := revActs_count (some (.dir scs)) rr [] ds2 hwds2 (n :: q) (by simp)
    rw [show ((rr : Path) ++ []) ++ (n :: q) = rr ++ (n :: q) by simp] at hrv
    rw [hprez, ha1z, ha2z, hrv, hsome, hexf]
    simp

/-- Witness for C4: a stale top-level replica file with no source
counterpart is removed and its removal logged once. -/
theorem sync_deletes_extras_w :
    wfChildren [("a", Tree.file [1]), ("d", Tree.dir [("b", Tree.file [2])])]
        = true ∧
    wfOpt (some (.dir [("x", Tree.file [9])])) = true ∧
    compatOpt (some (.dir [("a", Tree.file [1]), ("d", Tree.dir [("b", Tree.file [2])])]))
        (some (.dir [("x", Tree.file [9])])) = true ∧
    (optLookup (some (.dir [("x", Tree.file [9])])) ["x"]).isSome = true ∧
    optLookup (some (.dir [("a", Tree.file [1]), ("d", Tree.dir [("b", Tree.file [2])])]))
        ["x"] = none ∧
    ((synchronize_folders catHash ["s"] ["r"]
        (some (.dir [("a", Tree.file [1]), ("d", Tree.dir [("b", Tree.file [2])])]))
        (some (.dir [("x", Tree.file [9])]))).err = none ∧
      optLookup (synchronize_folders catHash ["s"] ["r"]
          (some (.dir [("a", Tree.file [1]), ("d", Tree.dir [("b", Tree.file [2])])]))
          (some (.dir [("x", Tree.file [9])]))).rep ["x"] = none ∧
      removedCount (["r"] ++ ["x"])
          (synchronize_folders catHash ["s"] ["r"]
            (some (.dir [("a", Tree.file [1]), ("d", Tree.dir [("b", Tree.file [2])])]))
            (some (.dir [("x", Tree.file [9])]))).acts = 1) :=
  ⟨by simp [wfChildren, lookupName, Tree.wfB],
    by simp [wfOpt, Tree.wfB, wfChildren, lookupName],
    by simp [compatOpt, compatT, compatChildren, lookupName],
    by simp [optLookup, Tree.lookup, lookupName],
    by simp [optLookup, Tree.lookup, lookupName],
    sync_deletes_extras catHash ["s"] ["r"]
      [("a", Tree.file [1]), ("d", Tree.dir [("b", Tree.file [2])])]
      (some (.dir [("x", Tree.file [9])]))
      (by simp [wfChildren, lookupName, Tree.wfB])
      (by simp [wfOpt, Tree.wfB, wfChildren, lookupName])
      (by simp [compatOpt, compatT, compatChildren, lookupName])
      "x" []
      (by simp [optLookup, Tree.lookup, lookupName])
      (by simp [optLookup, Tree.lookup, lookupName])⟩

/-- C5 (amended): for a non-root source directory under a kind-compatible
well-formed replica, the pass creates the corresponding replica folder,
logging it exactly once, iff no entry at all exists at that replica path,
and takes no creation action when one exists; the check is bare
`os.path.exists`, blind to the entry's kind, so a wrong-kind entry
suppresses creation silently instead of surfacing an error. -/
theorem sync_creates_missing_dirs (H : HashImpl) (sr rr : Path)
    (scs : List (String × Tree)) (r : Option Tree)
    (hw : wfChildren scs = true) (hwr : wfOpt r = true)
    (hc : compatOpt (some (.dir scs)) r = true) (n : String) (q : Path)
    (es : List (String × Tree))
    (hdir : Tree.lookup (.dir scs) (n :: q) = some (.dir es)) :
    (synchronize_folders H sr rr (some (.dir scs)) r).err = none ∧
    List.count (Action.createdFolder (rr ++ (n :: q)))
        (synchronize_folders H sr rr (some (.dir scs)) r).acts
      = if (optLookup r (n :: q)).isSome then 0 else 1 := by
  obtain ⟨ds, ds1, ds2, a1, a2, pre, hpre, hwd, hcd, hlk, hf1, hf2, hwds2, hrec⟩ :=
    sync_success H sr rr scs r hw hwr hc
  rw [hrec]
  refine ⟨rfl, ?_⟩
  show List.count (Action.createdFolder (rr ++ (n :: q)))
      (pre ++ (a1 ++ a2) ++ revActs (some (.dir scs)) rr [] ds2)
    = if (optLookup r (n :: q)).isSome then 0 else 1
  rw [List.count_append, List.count_append, List.count_append]
  have hprez : List.count (Action.createdFolder (rr ++ (n :: q))) pre = 0 := by
    rcases hpre with h | h <;> subst h <;> simp
  have ha1z : List.count (Action.createdFolder (rr ++ (n :: q))) a1 = 0 := by
    refine count_created_zero_of_copied ?_ _
    intro a ha
    exact fwdFilesL_acts_copied H sr rr [] scs ds a (by rw [hf1]; exact ha)
  rw [hprez, ha1z, count_created_zero_rev]
  cases q with
  | nil =>
    have hscs : lookupName scs n = some (.dir es) := by
      rw [lookup_single] at hdir
      exact hdir
    have hnof : ∀ c, (n, Tree.file c) ∉ scs := by
      intro c hs
      have hm := lookupName_of_mem_wf hw hs
      rw [hscs] at hm
      exact absurd hm (by simp)
    have hunt := fwdFilesL_untouched H sr rr [] scs ds n hnof
    rw [hf1] at hunt
    have hunt' : lookupName ds1 n = lookupName ds n := hunt
    have ha2 := fwdSubdirs_count_created H sr rr [] scs ds1 hw (by rw [hf2])
      (n :: []) es (by simp) hdir
    rw [hf2] at ha2
    have ha2' : List.count (Action.createdFolder ((rr ++ []) ++ (n :: []))) a2
        = if (Tree.lookup (.dir ds1) (n :: [])).isSome then 0 else 1 := ha2
    rw [show (((rr : Path) ++ []) ++ (n :: [])) = rr ++ (n :: []) by simp,
      lookup_single, hunt', ← lookup_single, ← hlk n []] at ha2'
    rw [ha2']
    simp
  | cons f q2 =>
    have ha2 := fwdSubdirs_count_created H sr rr [] scs ds1 hw (by rw [hf2])
      (n :: f :: q2) es (by simp) hdir
    rw [hf2] at ha2
    have hdeep := fwdFilesL_deep H sr rr [] scs ds hw (by rw [hf1])
      n (f :: q2) (by simp)
    rw [hf1] at hdeep
    have hdeep' : Tree.lookup (.dir ds1) (n :: f :: q2)
        = Tree.lookup (.dir ds) (n :: f :: q2) := hdeep
    have ha2' : List.count
        (Action.createdFolder ((rr ++ []) ++ (n :: f :: q2))) a2
        = if (Tree.lookup (.dir ds1) (n :: f :: q2)).isSome then 0 else 1 := ha2
    rw [show (((rr : Path) ++ []) ++ (n :: f :: q2)) = rr ++ (n :: f :: q2) by simp,
      hdeep', ← hlk n (f :: q2)] at ha2'
    rw [ha2']
    simp

/-- Witness for C5 (amended): a source subdirectory with no replica
entry at its path is created and logged once. -/
theorem sync_creates_missing_dirs_w :
    wfChildren [("a", Tree.file [1]), ("d", Tree.dir [("b", Tree.file [2])])]
        = true ∧
    wfOpt (some (.dir [("x", Tree.file [9])])) = true ∧
    compatOpt (some (.dir [("a", Tree.file [1]), ("d", Tree.dir [("b", Tree.file [2])])]))
        (some (.dir [("x", Tree.file [9])])) = true ∧
    Tree.lookup (.dir [("a", Tree.file [1]), ("d", Tree.dir [("b", Tree.file [2])])])
        ["d"] = some (.dir [("b", Tree.file [2])]) ∧
    ((synchronize_folders catHash ["s"] ["r"]
        (some (.dir [("a", Tree.file [1]), ("d", Tree.dir [("b", Tree.file [2])])]))
        (some (.dir [("x", Tree.file [9])]))).err = none ∧
      List.count (Action.createdFolder (["r"] ++ ["d"]))
          (synchronize_folders catHash ["s"] ["r"]
            (some (.dir [("a", Tree.file [1]), ("d", Tree.dir [("b", Tree.file [2])])]))
            (some (.dir [("x", Tree.file [9])]))).acts
        = if (optLookup (some (.dir [("x", Tree.file [9])])) ["d"]).isSome
          then 0 else 1) :=
  ⟨by simp [wfChildren, lookupName, Tree.wfB],
    by simp [wfOpt, Tree.wfB, wfChildren, lookupName],
    by simp [compatOpt, compatT, compatChildren, lookupName],
    by simp [Tree.lookup, lookupName],
    sync_creates_missing_dirs catHash ["s"] ["r"]
      [("a", Tree.file [1]), ("d", Tree.dir [("b", Tree.file [2])])]
      (some (.dir [("x", Tree.file [9])]))
      (by simp [wfChildren, lookupName, Tree.wfB])
      (by simp [wfOpt, Tree.wfB, wfChildren, lookupName])
      (by simp [compatOpt, compatT, compatChildren, lookupName])
      "d" [] [("b", Tree.file [2])]
      (by simp [Tree.lookup, lookupName])⟩

end FolderSync
